import Mathlib

/-!
Verification of the DPLL SAT solver in `code/sat_solver.c`.

The C program is shallowly embedded: every search-time data structure
(the clause store with its `satisfied` flags, the assignment vector, the
per-literal watcher lists, the undo trail) is a field of the state
structure `St`, and every C function that the claims mention is rendered
as an executable Lean function on `St` mirroring the C control flow.
Machine integers are modelled as `Nat`/`Int` (no overflow is reachable
for the quantities involved: clause counts, variable ids, watch-list
indices).  The recursive `dpll` and the propagation work-queue loop are
fueled; running out of dpll fuel models the deadline check
`timeout_exceeded` at each recursion entry (result TIMEOUT).
-/

/-- Literal, from `sat_solver.c` lines 12-16: a variable id paired with a
negation flag. -/
structure Literal where
  var : Nat
  neg : Bool
deriving DecidableEq, Repr

/-- Clause, from `sat_solver.c` lines 18-23.  The C `size` field always
equals the length of the literal vector, so it is not duplicated here. -/
structure Clause where
  lits : List Literal
  satisfied : Bool
deriving DecidableEq, Repr

/-- Default clause used for out-of-range reads (C would be UB there; no
theorem in this file depends on an out-of-range read). -/
def emptyClause : Clause := ⟨[], false⟩

/-- Trail entry, from `sat_solver.c` lines 38-51 (`UndoType` and
`UndoEntry`).  `watchlistAdd idx v` records that clause index `v` was
appended to watch list `idx`; similarly for the other constructors. -/
inductive UndoEntry where
  | assignment (var : Nat)
  | clauseSatisfy (index : Nat)
  | watchlistAdd (index : Nat) (value : Nat)
  | watchlistRemove (index : Nat) (value : Nat)
deriving DecidableEq, Repr

/-- Result type of `dpll`, from `sat_solver.c` lines 58-63. -/
inductive DPLLResult where
  | SAT
  | UNSAT
  | TIMEOUT
deriving DecidableEq, Repr

/-- Solver state: the mutable data that `sat_solver.c` threads through the
search.  `numVars` and `varSort` (the global `var_sort` array) never
change during the search; `clauses` changes only in its `satisfied`
flags.  The trail is kept head-first (head = most recent entry), matching
the `g_slist_prepend` discipline of the C undo stack. -/
structure St where
  numVars : Nat
  clauses : List Clause
  assign : List Int
  watch : List (List Nat)
  trail : List UndoEntry
  varSort : List Nat
deriving DecidableEq, Repr

/-- Watch-list key of a literal, from `watchlist_index` (lines 102-106):
`lit.var + lit.neg * numVars`. -/
def watchlist_index (l : Literal) (numVars : Nat) : Nat :=
  l.var + (if l.neg then numVars else 0)

/-- Truth test of a literal under the assignment vector, the C idiom
`(as == 0 && lit.neg) || (as == 1 && !lit.neg)` used at lines 275, 371,
550, 570, 954.  Unassigned entries hold `-1`. -/
def litSatAt (a : List Int) (l : Literal) : Bool :=
  (a.getD l.var (-1) == 0 && l.neg) || (a.getD l.var (-1) == 1 && !l.neg)

/-- Falsity test of a literal, the C idiom
`(assign == 0 && !tlit.neg) || (assign == 1 && tlit.neg)` (line 529). -/
def litFalsAt (a : List Int) (l : Literal) : Bool :=
  (a.getD l.var (-1) == 0 && !l.neg) || (a.getD l.var (-1) == 1 && l.neg)

/-- Unassignedness test `assignments(lit.var) == -1`. -/
def litUnassigned (a : List Int) (l : Literal) : Bool :=
  a.getD l.var (-1) == -1

/-- Does some literal of the list evaluate to true?  This is the inner
loop of `satisfy_clauses_after_assignment` (lines 950-960) and of the
driver sweep (lines 271-280), which scan for a true literal and stop. -/
def clauseHasTrueLit (a : List Int) (ls : List Literal) : Bool :=
  ls.any (litSatAt a)

/-- Push an ASSIGNMENT entry, from `push_assignment` (lines 805-811). -/
def push_assignment (s : St) (v : Nat) : St :=
  { s with trail := .assignment v :: s.trail }

/-- Push a CLAUSE_SATISFY entry, from `push_clause_satisfy`
(lines 813-819). -/
def push_clause_satisfy (s : St) (i : Nat) : St :=
  { s with trail := .clauseSatisfy i :: s.trail }

/-- Write the assignment vector (the C `assignments[v] = val`). -/
def setAssign (s : St) (v : Nat) (val : Int) : St :=
  { s with assign := s.assign.set v val }

/-- Raise the satisfied flag of clause `i`
(the C `formula->clauses[i].satisfied = true`). -/
def setSatisfied (s : St) (i : Nat) : St :=
  { s with clauses := s.clauses.set i { s.clauses.getD i emptyClause with satisfied := true } }

/-- Clear the satisfied flag of clause `i` (used by the trail rewind). -/
def clearSatisfied (s : St) (i : Nat) : St :=
  { s with clauses := s.clauses.set i { s.clauses.getD i emptyClause with satisfied := false } }

/-- Remove the first occurrence of `v`, the loop of `watchtable_remove`
(lines 836-843) and of the WATCHLIST_ADD undo branch (lines 863-871). -/
def removeFirst (l : List Nat) (v : Nat) : List Nat :=
  match l with
  | [] => []
  | x :: xs => if x = v then xs else x :: removeFirst xs v

/-- Append to a watch list and log, from `watchtable_add`
(lines 821-831). -/
def watchtable_add (s : St) (index : Nat) (value : Nat) : St :=
  { s with
    watch := s.watch.set index (s.watch.getD index [] ++ [value]),
    trail := .watchlistAdd index value :: s.trail }

/-- Remove the first occurrence from a watch list and log, from
`watchtable_remove` (lines 833-850). -/
def watchtable_remove (s : St) (index : Nat) (value : Nat) : St :=
  { s with
    watch := s.watch.set index (removeFirst (s.watch.getD index []) value),
    trail := .watchlistRemove index value :: s.trail }

/-- Undo one trail entry, the body of the while loop of
`undo_to_checkpoint` (lines 852-888). -/
def undoStep (s : St) : St :=
  match s.trail with
  | [] => s
  | e :: rest =>
    let s' : St := { s with trail := rest }
    match e with
    | .assignment v => { s' with assign := s'.assign.set v (-1) }
    | .clauseSatisfy i => clearSatisfied s' i
    | .watchlistAdd idx v =>
        { s' with watch := s'.watch.set idx (removeFirst (s'.watch.getD idx []) v) }
    | .watchlistRemove idx v =>
        { s' with watch := s'.watch.set idx (s'.watch.getD idx [] ++ [v]) }

/-- Undo `n` trail entries. -/
def undoN (s : St) : Nat → St
  | 0 => s
  | n + 1 => undoN (undoStep s) n

/-- Rewind to a checkpoint, from `undo_to_checkpoint` (lines 852-888).
The C checkpoint is a pointer into the singly linked trail; a state whose
trail extends `checkpoint` pops exactly the added prefix, which is the
length difference. -/
def undo_to_checkpoint (s : St) (checkpoint : List UndoEntry) : St :=
  undoN s (s.trail.length - checkpoint.length)

/-- Mark every not-yet-satisfied clause that currently watches literal
`l`, logging each flip.  This is the marking snippet that
`unit_propagate_2watchlit` runs right after forcing an assignment
(lines 452-463 and the identical copy at lines 587-598). -/
def markWatchers (s : St) (l : Literal) : St :=
  (s.watch.getD (watchlist_index l s.numVars) []).foldl
    (fun s indexc =>
      if (s.clauses.getD indexc emptyClause).satisfied then s
      else push_clause_satisfy (setSatisfied s indexc) indexc)
    s

/-- Force literal `l` true (it is checked unassigned at both call sites),
log the assignment, and mark the clauses watching `l`
(`unit_propagate_2watchlit` lines 446-464 and 582-598). -/
def assignAndMark (s : St) (l : Literal) : St :=
  markWatchers (push_assignment (setAssign s l.var (if l.neg then 0 else 1)) l.var) l

/-- Seeding scan of one clause (`unit_propagate_2watchlit` lines
415-429): count the literal occurrences whose variable is unassigned and
remember the first such literal. -/
def seedClause (a : List Int) (ls : List Literal) : Nat × Option Literal :=
  ls.foldl
    (fun acc l =>
      if litUnassigned a l then
        (acc.1 + 1, if acc.1 = 0 then some l else acc.2)
      else acc)
    (0, none)

/-- Initial work queue of `unit_propagate_2watchlit` (lines 404-439):
every unsatisfied clause with exactly one unassigned literal occurrence
contributes that literal, in clause order. -/
def seedQueue (s : St) : List Literal :=
  s.clauses.foldl
    (fun q c =>
      if c.satisfied then q
      else
        match seedClause s.assign c.lits with
        | (1, some l) => q ++ [l]
        | _ => q)
    []

/-- Locate the other watched literal of clause `indexi` (lines 484-512):
scan the clause's literals; a literal other than `oplit` whose watch
list contains `indexi` is the co-watcher.  The C sentinel `other.var == 0`
is rendered as `none`; the two coincide for formulas whose variable ids
are all positive, which the parser guarantees. -/
def findOtherWatcher (s : St) (indexi : Nat) (oplit : Literal) : List Literal → Option Literal
  | [] => none
  | l :: rest =>
    if l.var = oplit.var ∧ l.neg = oplit.neg then findOtherWatcher s indexi oplit rest
    else if (s.watch.getD (watchlist_index l s.numVars) []).contains indexi then some l
    else findOtherWatcher s indexi oplit rest

/-- Scan for a replacement watch (lines 556-577): the first literal that
is keyed differently from the falsified watch, differs from the other
watch, and is unassigned or true.  Returns its watch-list key. -/
def findNewWatch (s : St) (other : Literal) (index : Nat) : List Literal → Option Nat
  | [] => none
  | nlit :: rest =>
    if watchlist_index nlit s.numVars = index ∨ (nlit.var = other.var ∧ nlit.neg = other.neg) then
      findNewWatch s other index rest
    else if litUnassigned s.assign nlit || litSatAt s.assign nlit then
      some (watchlist_index nlit s.numVars)
    else findNewWatch s other index rest

/-- One visit pass over the watch list of the falsified literal `oplit`
(the loop at lines 473-611 of `unit_propagate_2watchlit`).  `index` is
`watchlist_index oplit`, `i` the current position; the list is re-read
every iteration because watch relocation mutates it in place.  Returns
`(false, s, q)` on conflict (the C `return false`), otherwise `(true, _, _)`
with the updated state and queue.  The fuel is passed as the initial
length of the list; since the list only shrinks and `i` grows, the fuel
never runs out before `i` passes the end. -/
def visitLoop (oplit : Literal) (index : Nat) : Nat → Nat → St → List Literal → Bool × St × List Literal
  | 0, _, s, q => (true, s, q)
  | fuel + 1, i, s, q =>
    let wlist := s.watch.getD index []
    if i < wlist.length then
      let indexi := wlist.getD i 0
      let c := s.clauses.getD indexi emptyClause
      if c.satisfied then visitLoop oplit index fuel (i + 1) s q
      else
        match findOtherWatcher s indexi oplit c.lits with
        | none =>
          if c.lits.all (litFalsAt s.assign) then (false, s, q)
          else visitLoop oplit index fuel (i + 1) s (q ++ [oplit])
        | some other =>
          if litSatAt s.assign other then visitLoop oplit index fuel (i + 1) s q
          else
            match findNewWatch s other index c.lits with
            | some indexn =>
              visitLoop oplit index fuel (i + 1)
                (watchtable_add (watchtable_remove s index indexi) indexn indexi) q
            | none =>
              if litUnassigned s.assign other then
                visitLoop oplit index fuel (i + 1) (assignAndMark s other) (q ++ [other])
              else (false, s, q)
    else (true, s, q)

/-- Work-queue loop of `unit_propagate_2watchlit` (lines 441-612).
`false` means conflict.  Fuel exhaustion stops propagating and reports
`true` with the work done so far; every theorem below is stated so that
this truncation direction is harmless (it can only delay, never
fabricate, an UNSAT answer). -/
def propLoop : Nat → St → List Literal → Bool × St
  | 0, s, _ => (true, s)
  | fuel + 1, s, q =>
    match q with
    | [] => (true, s)
    | lit :: q =>
      let s := if litUnassigned s.assign lit then assignAndMark s lit else s
      let oplit : Literal := ⟨lit.var, !lit.neg⟩
      let index := watchlist_index oplit s.numVars
      let r := visitLoop oplit index (s.watch.getD index []).length 0 s q
      if r.1 then propLoop fuel r.2.1 r.2.2 else (false, r.2.1)

/-- Two-watched-literal unit propagation, from `unit_propagate_2watchlit`
(lines 401-616). -/
def unit_propagate_2watchlit (fuel : Nat) (s : St) : Bool × St :=
  propLoop fuel s (seedQueue s)

/-- Polarity scan of `pure_literal_elimination` (lines 620-646): record,
for each unassigned variable, in which polarities it occurs among
unsatisfied clauses.  Result: (positive occurrence vector, negative
occurrence vector), both of length `numVars + 1`. -/
def pureScan (s : St) : List Bool × List Bool :=
  s.clauses.foldl
    (fun pn c =>
      if c.satisfied then pn
      else
        c.lits.foldl
          (fun pn l =>
            if !(litUnassigned s.assign l) then pn
            else if l.neg then (pn.1, pn.2.set l.var true)
            else (pn.1.set l.var true, pn.2))
          pn)
    (List.replicate (s.numVars + 1) false, List.replicate (s.numVars + 1) false)

/-- Assignment loop of `pure_literal_elimination` (lines 648-668):
for each still-unassigned variable occurring in exactly one polarity,
assign the satisfying value, log it, and mark the variable pure.
Processes the variable ids in the supplied list (the C loop runs
`var = 1 .. numVars`); threads the state and the purity vector. -/
def pureAssignLoop (pos neg : List Bool) : St × List Bool → List Nat → St × List Bool
  | acc, [] => acc
  | (s, purity), v :: rest =>
    if !(s.assign.getD v (-1) == -1) then pureAssignLoop pos neg (s, purity) rest
    else if pos.getD v false && !(neg.getD v false) then
      pureAssignLoop pos neg
        (push_assignment (setAssign s v 1) v, purity.set v true) rest
    else if !(pos.getD v false) && neg.getD v false then
      pureAssignLoop pos neg
        (push_assignment (setAssign s v 0) v, purity.set v true) rest
    else pureAssignLoop pos neg (s, purity) rest

/-- Second sweep of `pure_literal_elimination` (lines 670-688): every
clause containing a literal whose variable was marked pure is marked
satisfied and logged.  Note that the C loop does NOT skip clauses whose
satisfied flag is already set. -/
def pureSweep (purity : List Bool) (s : St) : St :=
  (List.range s.clauses.length).foldl
    (fun s i =>
      if (s.clauses.getD i emptyClause).lits.any (fun l => purity.getD l.var false) then
        push_clause_satisfy (setSatisfied s i) i
      else s)
    s

/-- Pure-literal elimination, from `pure_literal_elimination`
(lines 618-695).  Always reports `true` (no conflict), like the C
function. -/
def pure_literal_elimination (s : St) : Bool × St :=
  let pn := pureScan s
  let sp := pureAssignLoop pn.1 pn.2 (s, List.replicate (s.numVars + 1) false)
    ((List.range s.numVars).map (· + 1))
  (true, pureSweep sp.2 sp.1)

/-- Driver satisfaction sweep of `dpll` (lines 263-293): flag unsatisfied
clauses that have a true literal; stop at the first unsatisfied clause
without one and report `false` (`all_satisfied = false`, with the break). -/
def driverSweepAux (s : St) : List Nat → Bool × St
  | [] => (true, s)
  | i :: rest =>
    let c := s.clauses.getD i emptyClause
    if c.satisfied then driverSweepAux s rest
    else if clauseHasTrueLit s.assign c.lits then
      driverSweepAux (push_clause_satisfy (setSatisfied s i) i) rest
    else (false, s)

/-- Driver satisfaction sweep over all clause indices. -/
def driverSweep (s : St) : Bool × St :=
  driverSweepAux s (List.range s.clauses.length)

/-- Flag every clause that a fresh assignment made true, from
`satisfy_clauses_after_assignment` (lines 938-962). -/
def satisfy_clauses_after_assignment (s : St) : St :=
  (List.range s.clauses.length).foldl
    (fun s i =>
      let c := s.clauses.getD i emptyClause
      if c.satisfied then s
      else if clauseHasTrueLit s.assign c.lits then
        push_clause_satisfy (setSatisfied s i) i
      else s)
    s

/-- Branching heuristic scan, from `pick_unassigned_variable`
(lines 697-723): walk the first `numVars` slots of `var_sort`; a slot
holding variable id `0` terminates the scan (`return -1`, here `none`);
otherwise return the first unassigned id. -/
def pickLoop (s : St) : List Nat → Option Nat
  | [] => none
  | i :: rest =>
    let v := s.varSort.getD i 0
    if v = 0 then none
    else if s.assign.getD v (-1) == -1 then some v
    else pickLoop s rest

/-- Branching heuristic, from `pick_unassigned_variable` (lines 697-723). -/
def pick_unassigned_variable (s : St) : Option Nat :=
  pickLoop s (List.range s.numVars)

/-- Stable insertion into a count-descending list: walk past entries with
strictly larger count, settle before the first entry whose count is not
larger.  Together with `get_sorted_indices` this models the
`qsort_r(indices, numVars+1, ..., compare_desc, counter)` call of
lines 108-132; the C comparator orders by descending `counter` value
only, so the order of equal-count entries is the sort implementation's
choice.  glibc's merge-sort based `qsort_r` is stable, which this
insertion sort reproduces: ties stay in input (ascending-id) order. -/
def insertByCountDesc (counter : List Nat) (x : Nat) : List Nat → List Nat
  | [] => [x]
  | y :: ys =>
    if counter.getD x 0 < counter.getD y 0 then y :: insertByCountDesc counter x ys
    else x :: y :: ys

/-- Sorted index array, from `get_sorted_indices` (lines 118-132): the
ids `0 .. numVars` sorted by descending occurrence count (stable). -/
def get_sorted_indices (counter : List Nat) (numVars : Nat) : List Nat :=
  (List.range (numVars + 1)).foldr (insertByCountDesc counter) []

/-- Occurrence counter built in `main` (lines 184-194): for each literal
appearance (both polarities) bump the count of its variable. -/
def occurrenceCounter (numVars : Nat) (clauses : List (List Literal)) : List Nat :=
  clauses.foldl
    (fun counter ls => ls.foldl (fun counter l => counter.set l.var (counter.getD l.var 0 + 1)) counter)
    (List.replicate (numVars + 1) 0)

/-- Initial watch-table population of `main` (lines 158-182): clause `i`
registers its first literal, and if its size is at least two also its
second literal; empty clauses register nowhere. -/
def initWatch (numVars : Nat) (clauses : List (List Literal)) : List (List Nat) :=
  (List.range clauses.length).foldl
    (fun w i =>
      match clauses.getD i [] with
      | [] => w
      | [l0] =>
        w.set (watchlist_index l0 numVars) (w.getD (watchlist_index l0 numVars) [] ++ [i])
      | l0 :: l1 :: _ =>
        let w1 := w.set (watchlist_index l0 numVars) (w.getD (watchlist_index l0 numVars) [] ++ [i])
        w1.set (watchlist_index l1 numVars) (w1.getD (watchlist_index l1 numVars) [] ++ [i]))
    (List.replicate (2 * numVars + 1) [])

/-- Solver state as `main` (lines 158-210) sets it up for a formula that
has already gone through `remove_supersets`: fresh watch table, the
occurrence-sorted variable order, the all-unassigned assignment vector
(slot 0 is never read by the search; the C code leaves it
uninitialized), and an empty trail. -/
def initState (numVars : Nat) (clauses : List (List Literal)) : St :=
  { numVars := numVars
    clauses := clauses.map (fun ls => ⟨ls, false⟩)
    assign := List.replicate (numVars + 1) (-1)
    watch := initWatch numVars clauses
    trail := []
    varSort := get_sorted_indices (occurrenceCounter numVars clauses) numVars }

/-- The DPLL driver, from `dpll` (lines 240-336).  The first fuel
argument models the deadline: each recursive entry consumes one unit and
an exhausted budget returns TIMEOUT, exactly where the C code polls
`timeout_exceeded`.  `pf` is the work-queue fuel handed to each
propagation call. -/
def dpll (pf : Nat) : Nat → St → DPLLResult × St
  | 0, s => (.TIMEOUT, s)
  | fuel + 1, s =>
    let checkpoint := s.trail
    let r1 := unit_propagate_2watchlit pf s
    if !r1.1 then (.UNSAT, undo_to_checkpoint r1.2 checkpoint)
    else
      let r2 := pure_literal_elimination r1.2
      if !r2.1 then (.UNSAT, undo_to_checkpoint r2.2 checkpoint)
      else
        let r3 := driverSweep r2.2
        if r3.1 then (.SAT, r3.2)
        else
          match pick_unassigned_variable r3.2 with
          | none => (.UNSAT, r3.2)
          | some x =>
            let s3 := r3.2
            let checkpoint2 := s3.trail
            let s4 := satisfy_clauses_after_assignment (push_assignment (setAssign s3 x 0) x)
            let b1 := dpll pf fuel s4
            if b1.1 = .UNSAT then
              let s5 := undo_to_checkpoint b1.2 checkpoint2
              let s6 := satisfy_clauses_after_assignment (push_assignment (setAssign s5 x 1) x)
              let b2 := dpll pf fuel s6
              if b2.1 = .UNSAT then (.UNSAT, undo_to_checkpoint b2.2 checkpoint)
              else b2
            else b1

/-- Signed key of a literal, from `lit_key` (lines 966-969):
`neg ? -var : var`. -/
def lit_key (l : Literal) : Int :=
  if l.neg then -(l.var : Int) else (l.var : Int)

/-- Subset test on signed-literal sets, from `clause_subset`
(lines 971-994): every key of `a` occurs among the keys of `b` (the C
code materialises `b`'s keys as a hash set first; membership is all
that matters). -/
def clause_subset (a b : List Literal) : Bool :=
  a.all (fun l => b.any (fun m => lit_key m == lit_key l))

/-- Marking pass of `remove_supersets` (lines 998-1023): scan clauses in
order; an unmarked clause `i` is marked removable as soon as some other
currently-unmarked clause `j` satisfies `|i| >= |j|` and
`clause_subset(j, i)` (the C inner loop breaks at the first such `j`;
only existence matters). -/
def supersetMarkStep (cs : List (List Literal)) (marked : List Bool) (i : Nat) : List Bool :=
  if marked.getD i false then marked
  else if (List.range cs.length).any (fun j =>
      decide (i ≠ j) && !(marked.getD j false) &&
      decide ((cs.getD j []).length ≤ (cs.getD i []).length) &&
      clause_subset (cs.getD j []) (cs.getD i [])) then
    marked.set i true
  else marked

/-- Removal marks computed by `remove_supersets` (lines 998-1023). -/
def supersetMarks (cs : List (List Literal)) : List Bool :=
  (List.range cs.length).foldl (supersetMarkStep cs) (List.replicate cs.length false)

/-- Mark state of `remove_supersets` after the first `k` iterations of
its outer loop. -/
def supersetMarksUpTo (cs : List (List Literal)) (k : Nat) : List Bool :=
  (List.range k).foldl (supersetMarkStep cs) (List.replicate cs.length false)

/-- Subsumption pre-processor, from `remove_supersets` (lines 996-1042):
compute the marks, then compact in place, keeping unmarked clauses in
their original order. -/
def remove_supersets (cs : List (List Literal)) : List (List Literal) :=
  (List.range cs.length).filterMap
    (fun i => if (supersetMarks cs).getD i false then none else some (cs.getD i []))

/-- Wellformedness of a parsed formula: every variable id lies in
`1 .. numVars`.  The DIMACS parser (lines 725-801) guarantees this:
`atoi` results equal to 0 terminate a clause, and ids beyond the
declared maximum do not occur in the benchmark format. -/
def WfFormula (numVars : Nat) (cs : List (List Literal)) : Prop :=
  ∀ c ∈ cs, ∀ l ∈ c, 1 ≤ l.var ∧ l.var ≤ numVars

instance : DecidablePred (fun p : Nat × List (List Literal) => WfFormula p.1 p.2) := by
  intro p
  unfold WfFormula
  infer_instance

/-- Truth of a literal under a total valuation. -/
def litTrue (σ : Nat → Bool) (l : Literal) : Prop :=
  σ l.var = !l.neg

/-- Satisfaction of a CNF formula (a list of clauses, each a list of
literals) by a total valuation. -/
def Sat (σ : Nat → Bool) (cs : List (List Literal)) : Prop :=
  ∀ c ∈ cs, ∃ l ∈ c, litTrue σ l

/-- Satisfiability of a CNF formula. -/
def Satisfiable (cs : List (List Literal)) : Prop :=
  ∃ σ : Nat → Bool, Sat σ cs

/-- Reified search-time operation, the four state mutations that the
search logs on the undo stack (spec section 3, Trail).  `applyOp` runs
one operation exactly as the corresponding C code does, after checking
the guard under which the search performs it: assignments are only made
to in-range unassigned variables (`dpll` line 309/318, propagation lines
446/582, pure-literal lines 651-667), a CLAUSE_SATISFY is only logged
when the flag flips false-to-true at the guarded sites (lines 458-462,
282-285, 592-596, 943-958), and `watchtable_remove` is only invoked on
an element read from the very list (line 572). -/
inductive SearchOp where
  | assign (v : Nat) (val : Int)
  | satisfy (i : Nat)
  | wadd (index : Nat) (value : Nat)
  | wremove (index : Nat) (value : Nat)
deriving DecidableEq, Repr

/-- Run one guarded search operation; `none` when the guard fails. -/
def applyOp (s : St) : SearchOp → Option St
  | .assign v val =>
    if s.assign.getD v (-1) = -1 then some (push_assignment (setAssign s v val) v)
    else none
  | .satisfy i =>
    if i < s.clauses.length ∧ (s.clauses.getD i emptyClause).satisfied = false then
      some (push_clause_satisfy (setSatisfied s i) i)
    else none
  | .wadd index value =>
    if index < s.watch.length then some (watchtable_add s index value) else none
  | .wremove index value =>
    if index < s.watch.length ∧ value ∈ s.watch.getD index [] then
      some (watchtable_remove s index value)
    else none

/-- Run a sequence of guarded search operations. -/
def applyOps (s : St) : List SearchOp → Option St
  | [] => some s
  | op :: ops => (applyOp s op).bind (fun s' => applyOps s' ops)

/-- Concrete state used to refute order-exact trail inversion: one
variable, watch list of literal +1 holds clause indices 1 then 2. -/
def trailCexSt : St :=
  { numVars := 1
    clauses := []
    assign := [-1, -1]
    watch := [[], [1, 2], []]
    trail := []
    varSort := [1, 0] }

/-- Purity vector computed by one `pure_literal_elimination` pass: the
`lit_purity` array right before the second sweep (lines 648-668). -/
def pureVector (s : St) : List Bool :=
  let pn := pureScan s
  (pureAssignLoop pn.1 pn.2 (s, List.replicate (s.numVars + 1) false)
    ((List.range s.numVars).map (· + 1))).2

/-- State right before the second sweep of `pure_literal_elimination`
(after the pure assignments of lines 648-668). -/
def pureMidState (s : St) : St :=
  let pn := pureScan s
  (pureAssignLoop pn.1 pn.2 (s, List.replicate (s.numVars + 1) false)
    ((List.range s.numVars).map (· + 1))).1

/-- Does clause `i` of `s` contain a literal whose variable is marked in
the purity vector `purity`? -/
def clauseHasPureLit (s : St) (purity : List Bool) (i : Nat) : Bool :=
  (s.clauses.getD i emptyClause).lits.any (fun l => purity.getD l.var false)

/-- Concrete state used against claim C5: clause 0 is already satisfied
and contains variable 2, which is pure (positive only, in the
unsatisfied clause 1), so the second sweep re-marks and re-logs it. -/
def pureElimCexSt : St :=
  { numVars := 2
    clauses := [⟨[⟨1, false⟩, ⟨2, false⟩], true⟩, ⟨[⟨2, false⟩], false⟩]
    assign := [-1, 1, -1]
    watch := [[], [0], [0, 1], [], []]
    trail := [.clauseSatisfy 0, .assignment 1]
    varSort := [1, 2, 0] }

/-- Flag completeness: every clause that currently contains a true
literal has its satisfied flag set.  This holds whenever
`unit_propagate_2watchlit` is entered: at the top-level call nothing is
assigned yet, and every recursive `dpll` call runs right after
`satisfy_clauses_after_assignment`, which flags every true clause. -/
def flagComplete (s : St) : Prop :=
  ∀ c ∈ s.clauses, clauseHasTrueLit s.assign c.lits = true → c.satisfied = true

instance : DecidablePred flagComplete := by
  intro s
  unfold flagComplete
  infer_instance

/-- Modelled from the spec (section 4.3, Seeding): scan all unsatisfied
clauses; any clause with exactly one unassigned literal occurrence and
no already-satisfying literal contributes its sole unassigned literal to
the queue. -/
def seedQueueSpec (s : St) : List Literal :=
  s.clauses.filterMap
    (fun c =>
      if !c.satisfied && c.lits.countP (fun l => litUnassigned s.assign l) == 1
          && !(c.lits.any (litSatAt s.assign)) then
        c.lits.find? (fun l => litUnassigned s.assign l)
      else none)

/-- Intended order of the branching heuristic: `a` precedes `b` when its
occurrence count is strictly larger, or the counts tie and `a` has the
smaller id. -/
def heuristicLe (counter : List Nat) (a b : Nat) : Prop :=
  counter.getD b 0 < counter.getD a 0 ∨ (counter.getD a 0 = counter.getD b 0 ∧ a < b)

/-- Every raised satisfied flag is currently justified by a true
literal. -/
def flagsJustified (s : St) : Bool :=
  (List.range s.clauses.length).all
    (fun i =>
      !(s.clauses.getD i emptyClause).satisfied
        || clauseHasTrueLit s.assign (s.clauses.getD i emptyClause).lits)

/-- Trail coherence for flags: undoing any number of trail entries lands
in a state whose flags are all justified.  This is the invariant that
makes the SAT verdict sound across backtracking. -/
def GoodTrail (s : St) : Prop :=
  ∀ k, flagsJustified (undoN s k) = true

/-- Every clause index stored in a watch list is keyed by a literal of
that clause's own vector. -/
def watchKeysOKb (s : St) : Bool :=
  (List.range s.watch.length).all
    (fun idx =>
      (s.watch.getD idx []).all
        (fun ci =>
          (s.clauses.getD ci emptyClause).lits.any
            (fun l => watchlist_index l s.numVars == idx)))

/-- Every WATCHLIST_REMOVE entry on the trail is keyed by a literal of
the removed clause's own vector, so re-appending it on undo keeps
`watchKeysOKb`. -/
def trailKeysOKb (s : St) : Bool :=
  s.trail.all
    (fun e =>
      match e with
      | .watchlistRemove idx ci =>
        (s.clauses.getD ci emptyClause).lits.any
          (fun l => watchlist_index l s.numVars == idx)
      | _ => true)

/-- Total number of watch-list slots clause `ci` occupies. -/
def watchOccurrences (s : St) (ci : Nat) : Nat :=
  s.watch.foldl (fun acc wl => acc + wl.count ci) 0

/-- Watch multiplicity demanded of a clause with the given literal
vector: two slots for size at least two, one slot for unit clauses, none
for empty clauses. -/
def expectedWatchCount (ls : List Literal) : Nat :=
  match ls with
  | [] => 0
  | [_] => 1
  | _ => 2

/-- Every clause occupies exactly its expected number of watch slots. -/
def watchCountsOKb (s : St) : Bool :=
  (List.range s.clauses.length).all
    (fun ci => watchOccurrences s ci == expectedWatchCount (s.clauses.getD ci emptyClause).lits)

/-- Watch-table invariant for claim C4: correct multiplicities and keys
drawn from the clauses' own literal vectors, both globally (whether or
not a clause is currently satisfied, since satisfied clauses keep their
slots untouched). -/
def WatchOK (s : St) : Prop :=
  watchCountsOKb s = true ∧ watchKeysOKb s = true

/-- Variable ids of every stored clause lie in `1 .. numVars`. -/
def VarsOK (s : St) : Prop :=
  ∀ i, ∀ l ∈ (s.clauses.getD i emptyClause).lits, 1 ≤ l.var ∧ l.var ≤ s.numVars

/-- All clauses flagged satisfied (the SAT exit condition of the
driver). -/
def allFlagged (s : St) : Bool :=
  (List.range s.clauses.length).all (fun i => (s.clauses.getD i emptyClause).satisfied)

/-- Formula of the C7 counterexample: clause 1 is fully falsified after
the first propagation/pure/sweep round, yet the call branches on
variable 4 instead of returning UNSAT at that point. -/
def c7Formula : List (List Literal) :=
  [[⟨1, false⟩, ⟨2, false⟩, ⟨3, false⟩], [⟨1, true⟩],
   [⟨4, false⟩, ⟨5, false⟩], [⟨4, true⟩, ⟨5, true⟩]]

/-- C7 counterexample state: the initial state of `c7Formula` with
variable 1 already assigned true (reaching the situation where clause 1
is fully falsified while unassigned variables remain). -/
def c7CexSt : St :=
  { initState 5 c7Formula with assign := (initState 5 c7Formula).assign.set 1 1 }

/-- Post-sweep state of a `dpll` round: propagate, pure-literal pass,
then the driver sweep (the point the C7 claim speaks about). -/
def postSweepState (pf : Nat) (s : St) : St :=
  (driverSweep (pure_literal_elimination (unit_propagate_2watchlit pf s).2).2).2

/-- Formula of the C4 counterexample: the single clause repeats the
literal +1, so both its watch slots live in the same watcher list. -/
def dupLitFormula : List (List Literal) := [[⟨1, false⟩, ⟨1, false⟩]]

/-- Flag simulation: `s` and `t` agree on everything the flag-justification
invariant reads (assignment, trail, clause count and literal vectors),
and `s` has at most the flags of `t`.  Watch tables and the variable
order are unconstrained. -/
def FlagSim (s t : St) : Prop :=
  s.assign = t.assign ∧ s.trail = t.trail ∧ s.clauses.length = t.clauses.length ∧
  (∀ i, (s.clauses.getD i emptyClause).lits = (t.clauses.getD i emptyClause).lits) ∧
  (∀ i, (s.clauses.getD i emptyClause).satisfied = true →
    (t.clauses.getD i emptyClause).satisfied = true)

/-- Structural skeleton equality: the search never changes these
components (variable count, heuristic order, clause count, literal
vectors, vector lengths). -/
def SameSkeleton (s t : St) : Prop :=
  s.numVars = t.numVars ∧ s.varSort = t.varSort ∧ s.clauses.length = t.clauses.length ∧
  (∀ i, (s.clauses.getD i emptyClause).lits = (t.clauses.getD i emptyClause).lits) ∧
  s.assign.length = t.assign.length ∧ s.watch.length = t.watch.length

/-- Relation between a state and its update by a flag-only phase (the
driver sweep, `satisfy_clauses_after_assignment`, the watcher-marking
snippet, the pure-literal second sweep): assignment, watch table and all
static fields unchanged, satisfied flags only raised, trail only
extended. -/
def FlagsOnlyExt (s r : St) : Prop :=
  r.assign = s.assign ∧ r.watch = s.watch ∧ r.numVars = s.numVars ∧ r.varSort = s.varSort ∧
  r.clauses.length = s.clauses.length ∧
  (∀ i, (r.clauses.getD i emptyClause).lits = (s.clauses.getD i emptyClause).lits) ∧
  (∀ i, (s.clauses.getD i emptyClause).satisfied = true →
    (r.clauses.getD i emptyClause).satisfied = true) ∧
  (∃ ext, r.trail = ext ++ s.trail)

/-- Relation between a state and any later state of the same search:
the skeleton is unchanged and the trail is an extension.  Every solver
phase and the whole of `dpll` preserve this relation in the direction
from entry state to result state. -/
def SearchExt (s r : St) : Prop :=
  SameSkeleton s r ∧ ∃ ext, r.trail = ext ++ s.trail

/-- Combined search invariant: trail-coherent flags, watch keys drawn
from the clauses' own literal vectors (both in the table and in the
logged WATCHLIST_REMOVE entries), wellformed variable ids, and the
assignment vector sized `numVars + 1` as `main` allocates it. -/
def SearchInv (s : St) : Prop :=
  GoodTrail s ∧ watchKeysOKb s = true ∧ trailKeysOKb s = true ∧ VarsOK s ∧
    s.assign.length = s.numVars + 1

/-- Decidable form of the variable-id wellformedness of the stored
clauses (`VarsOK` restricted to the stored clause list). -/
def varsOKb (s : St) : Bool :=
  s.clauses.all (fun c => c.lits.all (fun l => decide (1 ≤ l.var) && decide (l.var ≤ s.numVars)))

/-- Total valuation read off the solver's assignment vector: `true`
exactly on the variables assigned 1 (`-1` and `0` both read as false). -/
def assignValuation (a : List Int) : Nat → Bool :=
  fun v => a.getD v (-1) == 1

/-- Unsatisfiable two-clause formula used to witness refutational
completeness: `x1` and `not x1`. -/
def contraFormula : List (List Literal) := [[⟨1, false⟩], [⟨1, true⟩]]

/-- State used to witness the amended C7 exit condition: variable 1 is
assigned 0, the single clause `x1` is unsatisfied, propagation is
quiescent, and no unassigned variable remains, so the driver returns
UNSAT right after the sweep because `pick_unassigned_variable` fails. -/
def c7NoPickSt : St :=
  { numVars := 1
    clauses := [⟨[⟨1, false⟩], false⟩]
    assign := [-1, 0]
    watch := [[], [0], []]
    trail := []
    varSort := [1, 0] }

theorem getD_set_self {α : Type} (l : List α) (v : Nat) (x d : α) (h : v < l.length) :
    (l.set v x).getD v d = x := by
  simp [List.getD_eq_getElem?_getD, List.getElem?_set_self h]

theorem getD_set_ne {α : Type} (l : List α) {v w : Nat} (x d : α) (h : v ≠ w) :
    (l.set v x).getD w d = l.getD w d := by
  simp [List.getD_eq_getElem?_getD, List.getElem?_set_ne h]

theorem set_getD_self {α : Type} (l : List α) (v : Nat) (d : α) :
    l.set v (l.getD v d) = l := by
  rcases Nat.lt_or_ge v l.length with h | h
  · apply List.ext_getElem?
    intro i
    rcases eq_or_ne v i with rfl | hne
    · rw [List.getElem?_set_self h, List.getD_eq_getElem?_getD]
      cases hl : l[v]? with
      | none => exact absurd (List.getElem?_eq_some_iff.2 ⟨h, rfl⟩) (by simp [hl])
      | some a =>
        simp [hl]
    · rw [List.getElem?_set_ne hne]
  · exact List.set_eq_of_length_le h

theorem undoStep_trail (s : St) : (undoStep s).trail = s.trail.tail := by
  unfold undoStep
  cases h : s.trail with
  | nil => simp [h]
  | cons e rest => cases e <;> simp [clearSatisfied]

theorem undoN_add (s : St) (a b : Nat) : undoN s (a + b) = undoN (undoN s a) b := by
  induction a generalizing s with
  | zero => simp [undoN]
  | succ a ih =>
    have : a + 1 + b = (a + b) + 1 := by omega
    rw [this]
    show undoN (undoStep s) (a + b) = undoN (undoN (undoStep s) a) b
    exact ih (undoStep s)

theorem undoN_succ_comm (s : St) (k : Nat) : undoN s (k + 1) = undoStep (undoN s k) := by
  induction k generalizing s with
  | zero => rfl
  | succ k ih =>
    show undoN (undoStep s) (k + 1) = undoStep (undoN (undoStep s) k)
    exact ih (undoStep s)

theorem trail_undoN (s : St) (k : Nat) : (undoN s k).trail = s.trail.drop k := by
  induction k generalizing s with
  | zero => rfl
  | succ k ih =>
    show (undoN (undoStep s) k).trail = s.trail.drop (k + 1)
    rw [ih, undoStep_trail, List.drop_tail]

theorem undoStep_of_trail_nil {s : St} (h : s.trail = []) : undoStep s = s := by
  unfold undoStep
  rw [h]

theorem undoN_of_trail_nil {s : St} (h : s.trail = []) (k : Nat) : undoN s k = s := by
  induction k with
  | zero => rfl
  | succ k ih => rw [undoN_succ_comm, ih, undoStep_of_trail_nil h]

theorem undoN_saturate (s : St) (k : Nat) (h : s.trail.length ≤ k) :
    undoN s k = undoN s s.trail.length := by
  have hk : k = s.trail.length + (k - s.trail.length) := by omega
  rw [hk, undoN_add]
  have : (undoN s s.trail.length).trail = [] := by
    rw [trail_undoN]
    simp
  exact undoN_of_trail_nil this _

theorem goodTrail_of_bounded {s : St}
    (h : ∀ k ≤ s.trail.length, flagsJustified (undoN s k) = true) : GoodTrail s := by
  intro k
  rcases le_or_lt k s.trail.length with hk | hk
  · exact h k hk
  · rw [undoN_saturate s k (le_of_lt hk)]
    exact h _ le_rfl

theorem goodTrail_undoStep {s : St} (h : GoodTrail s) : GoodTrail (undoStep s) := by
  intro k
  exact h (k + 1)

theorem goodTrail_undoN {s : St} (h : GoodTrail s) (k : Nat) : GoodTrail (undoN s k) := by
  induction k generalizing s with
  | zero => exact h
  | succ k ih =>
    rw [undoN_succ_comm]
    exact goodTrail_undoStep (ih h)

theorem goodTrail_undo_to_checkpoint {s : St} (h : GoodTrail s) (cp : List UndoEntry) :
    GoodTrail (undo_to_checkpoint s cp) :=
  goodTrail_undoN h _

theorem setSatisfied_fields (s : St) (j : Nat) :
    (setSatisfied s j).assign = s.assign ∧ (setSatisfied s j).watch = s.watch ∧
    (setSatisfied s j).trail = s.trail ∧ (setSatisfied s j).numVars = s.numVars ∧
    (setSatisfied s j).varSort = s.varSort ∧
    (setSatisfied s j).clauses.length = s.clauses.length := by
  simp [setSatisfied]

theorem setSatisfied_lits (s : St) (j i : Nat) :
    ((setSatisfied s j).clauses.getD i emptyClause).lits
      = (s.clauses.getD i emptyClause).lits := by
  unfold setSatisfied
  rcases le_or_lt s.clauses.length j with h | h
  · rw [List.set_eq_of_length_le h]
  · rcases eq_or_ne j i with rfl | hne
    · simp only [getD_set_self _ _ _ _ h]
    · simp only [getD_set_ne _ _ _ hne]

theorem setSatisfied_flag (s : St) (j i : Nat) :
    ((setSatisfied s j).clauses.getD i emptyClause).satisfied
      = ((s.clauses.getD i emptyClause).satisfied || (decide (i = j) && decide (j < s.clauses.length))) := by
  unfold setSatisfied
  rcases le_or_lt s.clauses.length j with h | h
  · rw [List.set_eq_of_length_le h]
    simp [Nat.not_lt.2 h]
  · rcases eq_or_ne j i with rfl | hne
    · simp [List.getD_eq_getElem?_getD, List.getElem?_set_self h, h]
    · simp [List.getD_eq_getElem?_getD, List.getElem?_set_ne hne, Ne.symm hne]

theorem clearSatisfied_lits (s : St) (j i : Nat) :
    ((clearSatisfied s j).clauses.getD i emptyClause).lits
      = (s.clauses.getD i emptyClause).lits := by
  unfold clearSatisfied
  rcases le_or_lt s.clauses.length j with h | h
  · rw [List.set_eq_of_length_le h]
  · rcases eq_or_ne j i with rfl | hne
    · simp only [getD_set_self _ _ _ _ h]
    · simp only [getD_set_ne _ _ _ hne]

theorem clearSatisfied_flag (s : St) (j i : Nat) :
    ((clearSatisfied s j).clauses.getD i emptyClause).satisfied
      = ((s.clauses.getD i emptyClause).satisfied && !(decide (i = j) && decide (j < s.clauses.length))) := by
  unfold clearSatisfied
  rcases le_or_lt s.clauses.length j with h | h
  · rw [List.set_eq_of_length_le h]
    simp [Nat.not_lt.2 h]
  · rcases eq_or_ne j i with rfl | hne
    · simp [List.getD_eq_getElem?_getD, List.getElem?_set_self h, h]
    · simp [List.getD_eq_getElem?_getD, List.getElem?_set_ne hne, Ne.symm hne]

theorem clearSatisfied_fields (s : St) (j : Nat) :
    (clearSatisfied s j).assign = s.assign ∧ (clearSatisfied s j).watch = s.watch ∧
    (clearSatisfied s j).trail = s.trail ∧ (clearSatisfied s j).numVars = s.numVars ∧
    (clearSatisfied s j).varSort = s.varSort ∧
    (clearSatisfied s j).clauses.length = s.clauses.length := by
  simp [clearSatisfied]

theorem count_removeFirst_mem (l : List Nat) (v : Nat) (h : v ∈ l) :
    (removeFirst l v).count v + 1 = l.count v := by
  induction l with
  | nil => cases h
  | cons x xs ih =>
    by_cases hx : x = v
    · subst hx
      simp [removeFirst, List.count_cons_self]
    · have hv : v ∈ xs := by
        rcases List.mem_cons.1 h with h1 | h1
        · exact absurd h1.symm hx
        · exact h1
      have ihv := ih hv
      simp only [removeFirst, if_neg hx, List.count_cons, beq_iff_eq, if_neg hx]
      omega

theorem count_removeFirst_ne (l : List Nat) (v w : Nat) (h : w ≠ v) :
    (removeFirst l v).count w = l.count w := by
  induction l with
  | nil => rfl
  | cons x xs ih =>
    by_cases hx : x = v
    · subst hx
      have hrf : removeFirst (x :: xs) x = xs := by simp [removeFirst]
      rw [hrf, List.count_cons]
      simp [Ne.symm h]
    · simp only [removeFirst, if_neg hx, List.count_cons, beq_iff_eq, ih]

theorem removeFirst_eq_erase (l : List Nat) (v : Nat) : removeFirst l v = l.erase v := by
  induction l with
  | nil => rfl
  | cons x xs ih =>
    by_cases hx : x = v
    · subst hx
      simp [removeFirst]
    · have herase : (x :: xs).erase v = x :: xs.erase v :=
        @List.erase_cons_tail Nat _ v x xs (by simp [hx])
      rw [herase]
      simp only [removeFirst, if_neg hx]
      rw [ih]

theorem removeFirst_subset (l : List Nat) (v : Nat) : removeFirst l v ⊆ l := by
  induction l with
  | nil => simp [removeFirst]
  | cons x xs ih =>
    by_cases hx : x = v
    · subst hx
      simp only [removeFirst, if_pos rfl]
      exact List.subset_cons_self x xs
    · simp only [removeFirst, if_neg hx]
      exact List.cons_subset_cons x ih

/-- C10: the SAT verdict does not require a total assignment.  For the
parsed input `p cnf 2 1` with single clause `1 0`, the solver answers
SAT while variable 2 is still unassigned (`-1`); the SAT exit only
checks that every clause's satisfied flag is set. -/
theorem sat_verdict_allows_partial_assignment :
    (dpll 10 5 (initState 2 (remove_supersets [[⟨1, false⟩]]))).1 = DPLLResult.SAT ∧
    (dpll 10 5 (initState 2 (remove_supersets [[⟨1, false⟩]]))).2.assign.getD 2 (-1) = -1 ∧
    allFlagged (dpll 10 5 (initState 2 (remove_supersets [[⟨1, false⟩]]))).2 = true := by
  decide

/-- C5 counterexample: in `pureElimCexSt`, clause 0 is already satisfied
and contains a literal of the pure variable 2, yet the second sweep of
`pure_literal_elimination` pushes a fresh CLAUSE_SATISFY entry for it —
the entry count for clause 0 rises from one to two — refuting the claim
that an already-satisfied clause is neither re-marked nor re-logged. -/
theorem pure_elim_relogs_satisfied_clause :
    ((pureElimCexSt.clauses.getD 0 emptyClause).satisfied = true) ∧
    pureElimCexSt.trail.count (UndoEntry.clauseSatisfy 0) = 1 ∧
    (pure_literal_elimination pureElimCexSt).2.trail.count (UndoEntry.clauseSatisfy 0) = 2 := by
  decide

theorem pureSweep_foldl_characterization (purity : List Bool) (L : List Nat) (s : St)
    (hnd : L.Nodup) :
    (∀ i, (((L.foldl (fun s i =>
        if (s.clauses.getD i emptyClause).lits.any (fun l => purity.getD l.var false) then
          push_clause_satisfy (setSatisfied s i) i
        else s) s).clauses.getD i emptyClause).lits = (s.clauses.getD i emptyClause).lits)) ∧
    (∀ i, (((L.foldl (fun s i =>
        if (s.clauses.getD i emptyClause).lits.any (fun l => purity.getD l.var false) then
          push_clause_satisfy (setSatisfied s i) i
        else s) s).clauses.getD i emptyClause).satisfied
      = ((s.clauses.getD i emptyClause).satisfied
          || (decide (i ∈ L) && clauseHasPureLit s purity i)))) ∧
    (∀ i, ((L.foldl (fun s i =>
        if (s.clauses.getD i emptyClause).lits.any (fun l => purity.getD l.var false) then
          push_clause_satisfy (setSatisfied s i) i
        else s) s).trail.count (UndoEntry.clauseSatisfy i)
      = s.trail.count (UndoEntry.clauseSatisfy i)
          + (if i ∈ L ∧ clauseHasPureLit s purity i = true then 1 else 0))) := by
  induction L generalizing s with
  | nil =>
    refine ⟨fun i => rfl, fun i => by simp, fun i => by simp⟩
  | cons j L' ih =>
    have hndt : L'.Nodup := hnd.of_cons
    have hjL : j ∉ L' := (List.nodup_cons.1 hnd).1
    by_cases hc : (s.clauses.getD j emptyClause).lits.any (fun l => purity.getD l.var false) = true
    · -- the head clause contains a pure literal: it is marked and logged
      have hjlen : j < s.clauses.length := by
        by_contra hlen
        rw [List.getD_eq_getElem?_getD, List.getElem?_eq_none (Nat.le_of_not_lt hlen)] at hc
        simp [emptyClause] at hc
      set s1 := push_clause_satisfy (setSatisfied s j) j with hs1
      have hfold : ∀ t : St, (j :: L').foldl (fun s i =>
          if (s.clauses.getD i emptyClause).lits.any (fun l => purity.getD l.var false) then
            push_clause_satisfy (setSatisfied s i) i
          else s) t = L'.foldl (fun s i =>
          if (s.clauses.getD i emptyClause).lits.any (fun l => purity.getD l.var false) then
            push_clause_satisfy (setSatisfied s i) i
          else s) ((fun s i =>
          if (s.clauses.getD i emptyClause).lits.any (fun l => purity.getD l.var false) then
            push_clause_satisfy (setSatisfied s i) i
          else s) t j) := fun t => rfl
      have hlits1 : ∀ i, ((s1.clauses.getD i emptyClause).lits)
          = (s.clauses.getD i emptyClause).lits := by
        intro i
        show (((setSatisfied s j).clauses.getD i emptyClause)).lits = _
        exact setSatisfied_lits s j i
      have hpure1 : ∀ i, clauseHasPureLit s1 purity i = clauseHasPureLit s purity i := by
        intro i
        unfold clauseHasPureLit
        rw [hlits1 i]
      obtain ⟨ihl, ihf, iht⟩ := ih s1 hndt
      rw [hfold s]
      simp only [hc, if_true]
      rw [← hs1]
      refine ⟨?_, ?_, ?_⟩
      · intro i
        rw [ihl i, hlits1 i]
      · intro i
        rw [ihf i, hpure1 i]
        have hflag1 : (s1.clauses.getD i emptyClause).satisfied
            = ((s.clauses.getD i emptyClause).satisfied || decide (i = j)) := by
          show ((setSatisfied s j).clauses.getD i emptyClause).satisfied = _
          rw [setSatisfied_flag]
          simp [hjlen]
        rw [hflag1]
        have hpj : clauseHasPureLit s purity j = true := hc
        by_cases hij : i = j
        · subst hij
          simp [hpj, hjL]
        · simp [hij, Ne.symm hij]
      · intro i
        rw [iht i, hpure1 i]
        have htr1 : s1.trail.count (UndoEntry.clauseSatisfy i)
            = s.trail.count (UndoEntry.clauseSatisfy i) + (if i = j then 1 else 0) := by
          show ((UndoEntry.clauseSatisfy j) :: s.trail).count (UndoEntry.clauseSatisfy i) = _
          rw [List.count_cons]
          by_cases hij : i = j
          · subst hij
            simp
          · simp [hij, Ne.symm hij]
        rw [htr1]
        have hpj : clauseHasPureLit s purity j = true := hc
        by_cases hij : i = j
        · subst hij
          simp [hpj, hjL]
        · have : (i ∈ j :: L' ∧ clauseHasPureLit s purity i = true)
              ↔ (i ∈ L' ∧ clauseHasPureLit s purity i = true) := by
            constructor
            · rintro ⟨hm, hp⟩
              rcases List.mem_cons.1 hm with h1 | h1
              · exact absurd h1 hij
              · exact ⟨h1, hp⟩
            · rintro ⟨hm, hp⟩
              exact ⟨List.mem_cons_of_mem _ hm, hp⟩
          rw [if_congr this rfl rfl]
          simp [hij, Ne.symm hij]
    · -- no pure literal in the head clause: the step is a no-op
      have hstep : (j :: L').foldl (fun s i =>
          if (s.clauses.getD i emptyClause).lits.any (fun l => purity.getD l.var false) then
            push_clause_satisfy (setSatisfied s i) i
          else s) s = L'.foldl (fun s i =>
          if (s.clauses.getD i emptyClause).lits.any (fun l => purity.getD l.var false) then
            push_clause_satisfy (setSatisfied s i) i
          else s) s := by
        show L'.foldl _ (if (s.clauses.getD j emptyClause).lits.any
            (fun l => purity.getD l.var false) then _ else s) = _
        rw [if_neg (by simpa using hc)]
      obtain ⟨ihl, ihf, iht⟩ := ih s hndt
      rw [hstep]
      have hpj : clauseHasPureLit s purity j = false := by
        unfold clauseHasPureLit
        simpa using hc
      refine ⟨ihl, ?_, ?_⟩
      · intro i
        rw [ihf i]
        by_cases hij : i = j
        · subst hij
          simp [hpj]
        · simp [hij]
      · intro i
        rw [iht i]
        by_cases hij : i = j
        · subst hij
          simp [hpj]
        · congr 1
          apply if_congr _ rfl rfl
          constructor
          · rintro ⟨hm, hp⟩
            exact ⟨List.mem_cons_of_mem _ hm, hp⟩
          · rintro ⟨hm, hp⟩
            rcases List.mem_cons.1 hm with h1 | h1
            · exact absurd h1 hij
            · exact ⟨h1, hp⟩

theorem pureAssignLoop_skeleton (pos neg : List Bool) (L : List Nat) (s : St)
    (purity : List Bool) :
    (pureAssignLoop pos neg (s, purity) L).1.clauses = s.clauses ∧
    (pureAssignLoop pos neg (s, purity) L).1.numVars = s.numVars ∧
    (∀ i, (pureAssignLoop pos neg (s, purity) L).1.trail.count (UndoEntry.clauseSatisfy i)
        = s.trail.count (UndoEntry.clauseSatisfy i)) := by
  induction L generalizing s purity with
  | nil => exact ⟨rfl, rfl, fun i => rfl⟩
  | cons v L' ih =>
    show (pureAssignLoop pos neg _ (v :: L')).1.clauses = _ ∧ _
    unfold pureAssignLoop
    cases hb1 : s.assign.getD v (-1) == -1 with
    | false =>
      rw [if_pos (by decide)]
      exact ih s purity
    | true =>
      rw [if_neg (by decide)]
      cases hb2 : pos.getD v false && !neg.getD v false with
      | true =>
        rw [if_pos rfl]
        obtain ⟨hc, hn, ht⟩ := ih (push_assignment (setAssign s v 1) v) (purity.set v true)
        refine ⟨hc, hn, fun i => ?_⟩
        rw [ht i]
        show ((UndoEntry.assignment v) :: s.trail).count _ = _
        rw [List.count_cons]
        simp
      | false =>
        rw [if_neg (by decide)]
        cases hb3 : !pos.getD v false && neg.getD v false with
        | true =>
          rw [if_pos rfl]
          obtain ⟨hc, hn, ht⟩ := ih (push_assignment (setAssign s v 0) v) (purity.set v true)
          refine ⟨hc, hn, fun i => ?_⟩
          rw [ht i]
          show ((UndoEntry.assignment v) :: s.trail).count _ = _
          rw [List.count_cons]
          simp
        | false =>
          rw [if_neg (by decide)]
          exact ih s purity

/-- C5 (amended): in `pure_literal_elimination`, after the pure variables
are assigned, a clause has its satisfied flag set and a CLAUSE_SATISFY
entry pushed if and only if it contains a literal whose variable was
marked pure in this pass, regardless of whether its satisfied flag was
already true: the final flag is the old flag OR-ed with the pure-literal
test, and exactly one CLAUSE_SATISFY entry for the clause is appended
exactly when the test holds — an already-satisfied clause containing a
pure-variable literal is re-marked and re-logged. -/
theorem pure_elim_sweep_characterization (s : St) (i : Nat) (hi : i < s.clauses.length) :
    ((pure_literal_elimination s).2.clauses.getD i emptyClause).satisfied
      = ((s.clauses.getD i emptyClause).satisfied || clauseHasPureLit s (pureVector s) i) ∧
    (pure_literal_elimination s).2.trail.count (UndoEntry.clauseSatisfy i)
      = s.trail.count (UndoEntry.clauseSatisfy i)
          + (if clauseHasPureLit s (pureVector s) i = true then 1 else 0) := by
  have hmid := pureAssignLoop_skeleton (pureScan s).1 (pureScan s).2
    ((List.range s.numVars).map (· + 1)) s (List.replicate (s.numVars + 1) false)
  have heq : (pure_literal_elimination s).2 = pureSweep (pureVector s) (pureMidState s) := rfl
  obtain ⟨hclauses, hnum, htrail⟩ := hmid
  have hmidc : (pureMidState s).clauses = s.clauses := hclauses
  have hmidt : ∀ j, (pureMidState s).trail.count (UndoEntry.clauseSatisfy j)
      = s.trail.count (UndoEntry.clauseSatisfy j) := htrail
  have hsweep := pureSweep_foldl_characterization (pureVector s)
    (List.range (pureMidState s).clauses.length) (pureMidState s) (List.nodup_range _)
  obtain ⟨hl, hf, ht⟩ := hsweep
  have hrange : i ∈ List.range (pureMidState s).clauses.length := by
    rw [List.mem_range, hmidc]
    exact hi
  have hpureEq : clauseHasPureLit (pureMidState s) (pureVector s) i
      = clauseHasPureLit s (pureVector s) i := by
    unfold clauseHasPureLit
    rw [hmidc]
  constructor
  · rw [heq]
    show ((pureSweep (pureVector s) (pureMidState s)).clauses.getD i emptyClause).satisfied = _
    unfold pureSweep
    rw [hf i, hpureEq, hmidc]
    simp [hrange, hi]
  · rw [heq]
    show ((pureSweep (pureVector s) (pureMidState s)).trail).count _ = _
    unfold pureSweep
    rw [ht i, hmidt i, hpureEq]
    congr 1
    by_cases hp : clauseHasPureLit s (pureVector s) i = true
    · simp [hp, hrange]
    · simp [hp]

/-- C5 amended-claim witness at the counterexample state and clause 0. -/
theorem pure_elim_sweep_characterization_witness :
    (0 < pureElimCexSt.clauses.length) ∧
    (((pure_literal_elimination pureElimCexSt).2.clauses.getD 0 emptyClause).satisfied
      = ((pureElimCexSt.clauses.getD 0 emptyClause).satisfied
          || clauseHasPureLit pureElimCexSt (pureVector pureElimCexSt) 0) ∧
    (pure_literal_elimination pureElimCexSt).2.trail.count (UndoEntry.clauseSatisfy 0)
      = pureElimCexSt.trail.count (UndoEntry.clauseSatisfy 0)
          + (if clauseHasPureLit pureElimCexSt (pureVector pureElimCexSt) 0 = true then 1 else 0)) :=
  ⟨by decide, pure_elim_sweep_characterization pureElimCexSt 0 (by decide)⟩

theorem undoStep_assignment {s : St} {v : Nat} {rest : List UndoEntry}
    (h : s.trail = .assignment v :: rest) :
    undoStep s = { s with trail := rest, assign := s.assign.set v (-1) } := by
  unfold undoStep
  rw [h]

theorem undoStep_clauseSatisfy {s : St} {i : Nat} {rest : List UndoEntry}
    (h : s.trail = .clauseSatisfy i :: rest) :
    undoStep s = clearSatisfied { s with trail := rest } i := by
  unfold undoStep
  rw [h]

theorem undoStep_watchlistAdd {s : St} {idx v : Nat} {rest : List UndoEntry}
    (h : s.trail = .watchlistAdd idx v :: rest) :
    undoStep s
      = { s with trail := rest,
                 watch := s.watch.set idx (removeFirst (s.watch.getD idx []) v) } := by
  unfold undoStep
  rw [h]

theorem undoStep_watchlistRemove {s : St} {idx v : Nat} {rest : List UndoEntry}
    (h : s.trail = .watchlistRemove idx v :: rest) :
    undoStep s
      = { s with trail := rest,
                 watch := s.watch.set idx (s.watch.getD idx [] ++ [v]) } := by
  unfold undoStep
  rw [h]

theorem applyOp_trail {s sm : St} {op : SearchOp} (h : applyOp s op = some sm) :
    ∃ e, sm.trail = e :: s.trail := by
  cases op with
  | assign v val =>
    simp only [applyOp] at h
    split at h
    · exact ⟨.assignment v, by cases h; rfl⟩
    · cases h
  | satisfy i =>
    simp only [applyOp] at h
    split at h
    · exact ⟨.clauseSatisfy i, by cases h; rfl⟩
    · cases h
  | wadd idx v =>
    simp only [applyOp] at h
    split at h
    · exact ⟨.watchlistAdd idx v, by cases h; rfl⟩
    · cases h
  | wremove idx v =>
    simp only [applyOp] at h
    split at h
    · exact ⟨.watchlistRemove idx v, by cases h; rfl⟩
    · cases h

theorem applyOps_trail_len {ops : List SearchOp} : ∀ {s s1 : St},
    applyOps s ops = some s1 → s1.trail.length = s.trail.length + ops.length := by
  induction ops with
  | nil =>
    intro s s1 h
    cases h
    simp
  | cons op ops ih =>
    intro s s1 h
    rw [applyOps] at h
    cases happ : applyOp s op with
    | none =>
      rw [happ] at h
      cases h
    | some sm =>
      rw [happ] at h
      have h' : applyOps sm ops = some s1 := h
      obtain ⟨e, he⟩ := applyOp_trail happ
      rw [ih h', he]
      simp
      omega

theorem perm_cons_removeFirst {l : List Nat} {v : Nat} (h : v ∈ l) :
    l.Perm (v :: removeFirst l v) := by
  rw [removeFirst_eq_erase]
  exact List.perm_cons_erase h

/-- C2 counterexample: a single logged `watchtable_remove` of clause 1
from the middle of watch list `[1, 2]`, followed by rewind to the
initial checkpoint, yields the list `[2, 1]`: the multiset is restored
but the element order is not, because the WATCHLIST_REMOVE undo appends
at the end (lines 873-877) instead of re-inserting at the removal
position. -/
theorem trail_undo_not_order_exact :
    applyOps trailCexSt [SearchOp.wremove 1 1] = some (watchtable_remove trailCexSt 1 1) ∧
    trailCexSt.watch = [[], [1, 2], []] ∧
    (undo_to_checkpoint (watchtable_remove trailCexSt 1 1) trailCexSt.trail).watch
      = [[], [2, 1], []] ∧
    (undo_to_checkpoint (watchtable_remove trailCexSt 1 1) trailCexSt.trail).watch
      ≠ trailCexSt.watch := by
  decide

/-- C2 (amended): for every sequence of guarded search-time operations
(assignments of unassigned variables, clause-satisfy flips, watcher-list
adds, and watcher-list removes of present elements, each logged on the
undo stack) starting from a checkpoint, `undo_to_checkpoint` restores
the assignment vector, every clause (hence every satisfied flag), and
the trail exactly, and restores every watcher list up to permutation
(same elements with multiplicity); element order inside a watcher list
is in general not restored. -/
theorem trail_round_trip (ops : List SearchOp) : ∀ (s0 s1 : St),
    applyOps s0 ops = some s1 →
    (undo_to_checkpoint s1 s0.trail).assign = s0.assign ∧
    (undo_to_checkpoint s1 s0.trail).clauses = s0.clauses ∧
    (undo_to_checkpoint s1 s0.trail).trail = s0.trail ∧
    (undo_to_checkpoint s1 s0.trail).numVars = s0.numVars ∧
    (undo_to_checkpoint s1 s0.trail).varSort = s0.varSort ∧
    (undo_to_checkpoint s1 s0.trail).watch.length = s0.watch.length ∧
    ∀ idx, ((undo_to_checkpoint s1 s0.trail).watch.getD idx []).Perm
      (s0.watch.getD idx []) := by
  induction ops with
  | nil =>
    intro s0 s1 h
    cases h
    have hzero : undo_to_checkpoint s0 s0.trail = s0 := by
      unfold undo_to_checkpoint
      rw [Nat.sub_self]
      rfl
    rw [hzero]
    exact ⟨rfl, rfl, rfl, rfl, rfl, rfl, fun idx => List.Perm.refl _⟩
  | cons op ops ih =>
    intro s0 s1 h
    rw [applyOps] at h
    cases happ : applyOp s0 op with
    | none =>
      rw [happ] at h
      cases h
    | some sm =>
      rw [happ] at h
      have h' : applyOps sm ops = some s1 := h
      obtain ⟨e, he⟩ := applyOp_trail happ
      obtain ⟨iha, ihc, iht, ihn, ihv, ihwl, ihw⟩ := ih sm s1 h'
      have hlen1 : s1.trail.length = sm.trail.length + ops.length := applyOps_trail_len h'
      have hlensm : sm.trail.length = s0.trail.length + 1 := by
        rw [he]
        simp
      have hd : s1.trail.length - s0.trail.length = (s1.trail.length - sm.trail.length) + 1 := by
        omega
      have hundo : undo_to_checkpoint s1 s0.trail = undoStep (undo_to_checkpoint s1 sm.trail) := by
        unfold undo_to_checkpoint
        rw [hd, undoN_succ_comm]
      set R := undo_to_checkpoint s1 sm.trail with hR
      have hRtrail : R.trail = sm.trail := iht
      -- case analysis over the operation just undone
      cases op with
      | assign v val =>
        simp only [applyOp] at happ
        split at happ
        case isTrue hguard =>
          have hsm : sm = push_assignment (setAssign s0 v val) v := by
            cases happ
            rfl
          have hetrail : R.trail = .assignment v :: s0.trail := by
            rw [hRtrail, hsm]
            rfl
          rw [hundo, undoStep_assignment hetrail]
          refine ⟨?_, ?_, rfl, ihn.trans (by rw [hsm]; rfl), ihv.trans (by rw [hsm]; rfl),
            ihwl.trans (by rw [hsm]; rfl), ?_⟩
          · show R.assign.set v (-1) = s0.assign
            rw [iha, hsm]
            show (s0.assign.set v val).set v (-1) = s0.assign
            rw [List.set_set]
            have : s0.assign.getD v (-1) = -1 := hguard
            calc s0.assign.set v (-1) = s0.assign.set v (s0.assign.getD v (-1)) := by rw [this]
              _ = s0.assign := set_getD_self _ _ _
          · exact ihc.trans (by rw [hsm]; rfl)
          · intro idx
            show (R.watch.getD idx []).Perm _
            exact (ihw idx).trans (by rw [hsm]; exact List.Perm.refl _)
        case isFalse =>
          cases happ
      | satisfy i =>
        simp only [applyOp] at happ
        split at happ
        case isTrue hguard =>
          have hsm : sm = push_clause_satisfy (setSatisfied s0 i) i := by
            cases happ
            rfl
          have hetrail : R.trail = .clauseSatisfy i :: s0.trail := by
            rw [hRtrail, hsm]
            rfl
          rw [hundo, undoStep_clauseSatisfy hetrail]
          have hclR : R.clauses = s0.clauses.set i
              { s0.clauses.getD i emptyClause with satisfied := true } := by
            rw [ihc, hsm]
            rfl
          refine ⟨?_, ?_, ?_, ?_, ?_, ?_, ?_⟩
          · show R.assign = s0.assign
            exact iha.trans (by rw [hsm]; rfl)
          · show (clearSatisfied { R with trail := s0.trail } i).clauses = s0.clauses
            unfold clearSatisfied
            show (R.clauses.set i { R.clauses.getD i emptyClause with satisfied := false })
              = s0.clauses
            rw [hclR]
            rw [getD_set_self _ _ _ _ (by simpa using hguard.1), List.set_set]
            have hflag : (s0.clauses.getD i emptyClause).satisfied = false := hguard.2
            have : ({ s0.clauses.getD i emptyClause with satisfied := false } : Clause)
                = s0.clauses.getD i emptyClause := by
              cases hget : s0.clauses.getD i emptyClause with
              | mk ls sat =>
                rw [hget] at hflag
                simp at hflag
                rw [hflag]
            rw [this, set_getD_self]
          · rfl
          · exact ihn.trans (by rw [hsm]; rfl)
          · exact ihv.trans (by rw [hsm]; rfl)
          · exact ihwl.trans (by rw [hsm]; rfl)
          · intro idx
            exact (ihw idx).trans (by rw [hsm]; exact List.Perm.refl _)
        case isFalse =>
          cases happ
      | wadd idx v =>
        simp only [applyOp] at happ
        split at happ
        case isTrue hguard =>
          have hsm : sm = watchtable_add s0 idx v := by
            cases happ
            rfl
          have hetrail : R.trail = .watchlistAdd idx v :: s0.trail := by
            rw [hRtrail, hsm]
            rfl
          rw [hundo, undoStep_watchlistAdd hetrail]
          have hwlR : R.watch.length = s0.watch.length := by
            rw [ihwl, hsm]
            show (s0.watch.set idx _).length = _
            simp
          refine ⟨iha.trans (by rw [hsm]; rfl), ihc.trans (by rw [hsm]; rfl), rfl,
            ihn.trans (by rw [hsm]; rfl), ihv.trans (by rw [hsm]; rfl), ?_, ?_⟩
          · show (R.watch.set idx _).length = s0.watch.length
            simp [hwlR]
          · intro j
            rcases eq_or_ne idx j with rfl | hne
            · show ((R.watch.set idx (removeFirst (R.watch.getD idx []) v)).getD idx []).Perm _
              rw [getD_set_self _ _ _ _ (by rw [hwlR]; exact hguard)]
              have hpm : (R.watch.getD idx []).Perm (s0.watch.getD idx [] ++ [v]) := by
                have hx := ihw idx
                rw [hsm] at hx
                have hy : (watchtable_add s0 idx v).watch.getD idx []
                    = s0.watch.getD idx [] ++ [v] := by
                  show ((s0.watch.set idx (s0.watch.getD idx [] ++ [v])).getD idx []) = _
                  exact getD_set_self _ _ _ _ hguard
                rw [hy] at hx
                exact hx
              rw [removeFirst_eq_erase]
              have h2 : ((s0.watch.getD idx [] ++ [v]).erase v).Perm (s0.watch.getD idx []) := by
                have h1 := (List.perm_append_singleton v (s0.watch.getD idx [])).erase v
                have h3 : (v :: s0.watch.getD idx []).erase v = s0.watch.getD idx [] := by
                  simp
                rw [h3] at h1
                exact h1
              exact (hpm.erase v).trans h2
            · show ((R.watch.set idx _).getD j []).Perm _
              rw [getD_set_ne _ _ _ hne]
              have hx := ihw j
              rw [hsm] at hx
              have hy : (watchtable_add s0 idx v).watch.getD j [] = s0.watch.getD j [] := by
                show ((s0.watch.set idx _).getD j []) = _
                exact getD_set_ne _ _ _ hne
              rw [hy] at hx
              exact hx
        case isFalse =>
          cases happ
      | wremove idx v =>
        simp only [applyOp] at happ
        split at happ
        case isTrue hguard =>
          have hsm : sm = watchtable_remove s0 idx v := by
            cases happ
            rfl
          have hetrail : R.trail = .watchlistRemove idx v :: s0.trail := by
            rw [hRtrail, hsm]
            rfl
          rw [hundo, undoStep_watchlistRemove hetrail]
          have hwlR : R.watch.length = s0.watch.length := by
            rw [ihwl, hsm]
            show (s0.watch.set idx _).length = _
            simp
          refine ⟨iha.trans (by rw [hsm]; rfl), ihc.trans (by rw [hsm]; rfl), rfl,
            ihn.trans (by rw [hsm]; rfl), ihv.trans (by rw [hsm]; rfl), ?_, ?_⟩
          · show (R.watch.set idx _).length = s0.watch.length
            simp [hwlR]
          · intro j
            rcases eq_or_ne idx j with rfl | hne
            · show ((R.watch.set idx (R.watch.getD idx [] ++ [v])).getD idx []).Perm _
              rw [getD_set_self _ _ _ _ (by rw [hwlR]; exact hguard.1)]
              have hpm : (R.watch.getD idx []).Perm (removeFirst (s0.watch.getD idx []) v) := by
                have hx := ihw idx
                rw [hsm] at hx
                have hy : (watchtable_remove s0 idx v).watch.getD idx []
                    = removeFirst (s0.watch.getD idx []) v := by
                  show ((s0.watch.set idx _).getD idx []) = _
                  exact getD_set_self _ _ _ _ hguard.1
                rw [hy] at hx
                exact hx
              have hstep1 : (R.watch.getD idx [] ++ [v]).Perm
                  (removeFirst (s0.watch.getD idx []) v ++ [v]) := hpm.append_right [v]
              have hstep2 : (removeFirst (s0.watch.getD idx []) v ++ [v]).Perm
                  (v :: removeFirst (s0.watch.getD idx []) v) :=
                List.perm_append_singleton v _
              exact (hstep1.trans hstep2).trans (perm_cons_removeFirst hguard.2).symm
            · show ((R.watch.set idx _).getD j []).Perm _
              rw [getD_set_ne _ _ _ hne]
              have hx := ihw j
              rw [hsm] at hx
              have hy : (watchtable_remove s0 idx v).watch.getD j [] = s0.watch.getD j [] := by
                show ((s0.watch.set idx _).getD j []) = _
                exact getD_set_ne _ _ _ hne
              rw [hy] at hx
              exact hx
        case isFalse =>
          cases happ

/-- C2 amended-claim witness: a concrete one-operation run through
`trail_round_trip`. -/
theorem trail_round_trip_witness :
    (applyOps trailCexSt [SearchOp.wremove 1 1] = some (watchtable_remove trailCexSt 1 1)) ∧
    ((undo_to_checkpoint (watchtable_remove trailCexSt 1 1) trailCexSt.trail).assign
        = trailCexSt.assign ∧
      (undo_to_checkpoint (watchtable_remove trailCexSt 1 1) trailCexSt.trail).clauses
        = trailCexSt.clauses ∧
      (undo_to_checkpoint (watchtable_remove trailCexSt 1 1) trailCexSt.trail).trail
        = trailCexSt.trail ∧
      (undo_to_checkpoint (watchtable_remove trailCexSt 1 1) trailCexSt.trail).numVars
        = trailCexSt.numVars ∧
      (undo_to_checkpoint (watchtable_remove trailCexSt 1 1) trailCexSt.trail).varSort
        = trailCexSt.varSort ∧
      (undo_to_checkpoint (watchtable_remove trailCexSt 1 1) trailCexSt.trail).watch.length
        = trailCexSt.watch.length ∧
      ∀ idx, ((undo_to_checkpoint (watchtable_remove trailCexSt 1 1) trailCexSt.trail).watch.getD
          idx []).Perm (trailCexSt.watch.getD idx [])) :=
  ⟨by decide,
   trail_round_trip [SearchOp.wremove 1 1] trailCexSt (watchtable_remove trailCexSt 1 1)
     (by decide)⟩

theorem filterMap_congr_mem {α β : Type} (l : List α) (f g : α → Option β)
    (h : ∀ a ∈ l, f a = g a) : l.filterMap f = l.filterMap g := by
  induction l with
  | nil => rfl
  | cons x xs ih =>
    rw [List.filterMap_cons, List.filterMap_cons, h x (List.mem_cons_self x xs),
      ih (fun a ha => h a (List.mem_cons_of_mem x ha))]

theorem seedClause_go (a : List Int) (ls : List Literal) : ∀ (n : Nat) (o : Option Literal),
    ls.foldl (fun acc l =>
        if litUnassigned a l then (acc.1 + 1, if acc.1 = 0 then some l else acc.2) else acc)
      (n, o)
    = (n + ls.countP (fun l => litUnassigned a l),
       if n = 0 then (ls.find? (fun l => litUnassigned a l)).elim o some else o) := by
  induction ls with
  | nil =>
    intro n o
    simp
  | cons l ls ih =>
    intro n o
    cases hl : litUnassigned a l with
    | true =>
      show ls.foldl _ (if litUnassigned a l then (n + 1, if n = 0 then some l else o)
        else (n, o)) = _
      rw [hl, if_pos rfl, ih]
      rw [List.countP_cons, List.find?_cons]
      rw [hl]
      simp only [if_pos rfl]
      rw [Prod.mk.injEq]
      refine ⟨by simp; omega, ?_⟩
      rw [if_neg (Nat.succ_ne_zero n)]
      have hsome : (some l).elim o some = some l := rfl
      rw [hsome]
    | false =>
      show ls.foldl _ (if litUnassigned a l then (n + 1, if n = 0 then some l else o)
        else (n, o)) = _
      rw [hl, if_neg (by simp), ih]
      rw [List.countP_cons, List.find?_cons]
      rw [hl]
      simp

theorem seedClause_spec (a : List Int) (ls : List Literal) :
    seedClause a ls
      = (ls.countP (fun l => litUnassigned a l), ls.find? (fun l => litUnassigned a l)) := by
  unfold seedClause
  rw [seedClause_go]
  simp only [Nat.zero_add, if_pos rfl]
  cases ls.find? (fun l => litUnassigned a l) <;> rfl

theorem seedQueue_go (s : St) : ∀ (cs : List Clause) (q : List Literal),
    cs.foldl (fun q c =>
        if c.satisfied then q
        else
          match seedClause s.assign c.lits with
          | (1, some l) => q ++ [l]
          | _ => q) q
      = q ++ cs.filterMap (fun c =>
          if c.satisfied then none
          else
            match seedClause s.assign c.lits with
            | (1, some l) => some l
            | _ => none) := by
  intro cs
  induction cs with
  | nil =>
    intro q
    simp
  | cons c cs ih =>
    intro q
    rw [List.foldl_cons, List.filterMap_cons, ih]
    cases hc : c.satisfied with
    | true => simp
    | false =>
      have hneg : ¬(false = true) := by decide
      simp only [if_neg hneg]
      rcases hsc : seedClause s.assign c.lits with ⟨cnt, fo⟩
      match cnt, fo with
      | 0, _ => simp
      | 1, none => simp
      | 1, some l => simp
      | (n + 2), _ => simp

theorem litSatAt_replicate_neg (n : Nat) (l : Literal) :
    litSatAt (List.replicate n (-1)) l = false := by
  unfold litSatAt
  have hget : (List.replicate n (-1 : Int)).getD l.var (-1) = -1 := by
    rw [List.getD_eq_getElem?_getD]
    rcases lt_or_ge l.var n with h | h
    · rw [List.getElem?_replicate]
      simp [h]
    · rw [List.getElem?_eq_none (by simpa using h)]
      rfl
  rw [hget]
  simp

theorem satisfy_after_step (s : St) (j : Nat) :
    (let c := s.clauses.getD j emptyClause
     if c.satisfied then s
     else if clauseHasTrueLit s.assign c.lits then push_clause_satisfy (setSatisfied s j) j
     else s)
    = if ((s.clauses.getD j emptyClause).satisfied = false
          ∧ clauseHasTrueLit s.assign ((s.clauses.getD j emptyClause).lits) = true)
      then push_clause_satisfy (setSatisfied s j) j
      else s := by
  show (if (s.clauses.getD j emptyClause).satisfied then s
    else if clauseHasTrueLit s.assign (s.clauses.getD j emptyClause).lits then
      push_clause_satisfy (setSatisfied s j) j
    else s) = _
  cases hflag : (s.clauses.getD j emptyClause).satisfied with
  | true => simp
  | false =>
    cases htrue : clauseHasTrueLit s.assign (s.clauses.getD j emptyClause).lits with
    | true => simp
    | false => simp

theorem satisfy_after_go (L : List Nat) : ∀ (s : St),
    ((L.foldl (fun s i =>
        let c := s.clauses.getD i emptyClause
        if c.satisfied then s
        else if clauseHasTrueLit s.assign c.lits then
          push_clause_satisfy (setSatisfied s i) i
        else s) s).assign = s.assign) ∧
    ((L.foldl (fun s i =>
        let c := s.clauses.getD i emptyClause
        if c.satisfied then s
        else if clauseHasTrueLit s.assign c.lits then
          push_clause_satisfy (setSatisfied s i) i
        else s) s).clauses.length = s.clauses.length) ∧
    (∀ i, ((L.foldl (fun s i =>
        let c := s.clauses.getD i emptyClause
        if c.satisfied then s
        else if clauseHasTrueLit s.assign c.lits then
          push_clause_satisfy (setSatisfied s i) i
        else s) s).clauses.getD i emptyClause).lits = (s.clauses.getD i emptyClause).lits) ∧
    (∀ i, (s.clauses.getD i emptyClause).satisfied = true →
      ((L.foldl (fun s i =>
        let c := s.clauses.getD i emptyClause
        if c.satisfied then s
        else if clauseHasTrueLit s.assign c.lits then
          push_clause_satisfy (setSatisfied s i) i
        else s) s).clauses.getD i emptyClause).satisfied = true) ∧
    (∀ i ∈ L, clauseHasTrueLit s.assign (s.clauses.getD i emptyClause).lits = true →
      ((L.foldl (fun s i =>
        let c := s.clauses.getD i emptyClause
        if c.satisfied then s
        else if clauseHasTrueLit s.assign c.lits then
          push_clause_satisfy (setSatisfied s i) i
        else s) s).clauses.getD i emptyClause).satisfied = true) := by
  induction L with
  | nil =>
    intro s
    exact ⟨rfl, rfl, fun i => rfl, fun i h => h, fun i hi => absurd hi (List.not_mem_nil i)⟩
  | cons j L' ih =>
    intro s
    rw [List.foldl_cons]
    by_cases hcond : ((s.clauses.getD j emptyClause).satisfied = false
        ∧ clauseHasTrueLit s.assign ((s.clauses.getD j emptyClause).lits) = true)
    · have hred : (let c := s.clauses.getD j emptyClause
          if c.satisfied then s
          else if clauseHasTrueLit s.assign c.lits then
            push_clause_satisfy (setSatisfied s j) j
          else s) = push_clause_satisfy (setSatisfied s j) j := by
        rw [satisfy_after_step s j, if_pos hcond]
      rw [hred]
      obtain ⟨iha, ihl, ihlits, ihmono, ihset⟩ := ih (push_clause_satisfy (setSatisfied s j) j)
      have hjlen : j < s.clauses.length := by
        by_contra hlen
        have hoob := List.getD_eq_getElem?_getD s.clauses j emptyClause
        rw [List.getElem?_eq_none (Nat.le_of_not_lt hlen)] at hoob
        rw [hoob] at hcond
        simp [emptyClause, clauseHasTrueLit] at hcond
      refine ⟨iha, ihl.trans (by simp [push_clause_satisfy, setSatisfied]),
        fun i => (ihlits i).trans (setSatisfied_lits s j i), ?_, ?_⟩
      · intro i h
        apply ihmono i
        show ((setSatisfied s j).clauses.getD i emptyClause).satisfied = true
        rw [setSatisfied_flag, h]
        simp
      · intro i hi htrue
        rcases List.mem_cons.1 hi with rfl | hiL
        · apply ihmono i
          show ((setSatisfied s i).clauses.getD i emptyClause).satisfied = true
          rw [setSatisfied_flag]
          simp [hjlen]
        · apply ihset i hiL
          show clauseHasTrueLit (push_clause_satisfy (setSatisfied s j) j).assign
            (((setSatisfied s j).clauses.getD i emptyClause).lits) = true
          rw [setSatisfied_lits s j i]
          exact htrue
    · have hred : (let c := s.clauses.getD j emptyClause
          if c.satisfied then s
          else if clauseHasTrueLit s.assign c.lits then
            push_clause_satisfy (setSatisfied s j) j
          else s) = s := by
        rw [satisfy_after_step s j, if_neg hcond]
      rw [hred]
      obtain ⟨iha, ihl, ihlits, ihmono, ihset⟩ := ih s
      refine ⟨iha, ihl, ihlits, ihmono, ?_⟩
      intro i hi htrue
      rcases List.mem_cons.1 hi with rfl | hiL
      · rcases not_and_or.1 hcond with hf | ht
        · have hfl : (s.clauses.getD i emptyClause).satisfied = true := by
            cases hb : (s.clauses.getD i emptyClause).satisfied with
            | false => exact absurd hb hf
            | true => rfl
          exact ihmono i hfl
        · exact absurd htrue ht
      · exact ihset i hiL htrue

/-- C6: seeding condition of the propagator.  Under flag completeness
(every clause containing a currently-true literal is flagged satisfied,
which holds at every entry of `unit_propagate_2watchlit`: at the
top-level call nothing is assigned, and every recursive call runs right
after `satisfy_clauses_after_assignment`), the initial queue is exactly
one literal per clause that is unsatisfied, has exactly one unassigned
literal occurrence, and has no already-satisfying literal — namely that
clause's sole (first) unassigned literal — and no literal is seeded from
a clause containing an already-satisfying literal. -/
theorem seed_queue_characterization :
    (∀ s : St, flagComplete s → seedQueue s = seedQueueSpec s) ∧
    (∀ s : St, flagComplete (satisfy_clauses_after_assignment s)) ∧
    (∀ (numVars : Nat) (cs : List (List Literal)), flagComplete (initState numVars cs)) := by
  refine ⟨?_, ?_, ?_⟩
  · intro s hfc
    unfold seedQueue seedQueueSpec
    rw [seedQueue_go]
    rw [List.nil_append]
    apply filterMap_congr_mem
    intro c hc
    cases hsat : c.satisfied with
    | true => simp [hsat]
    | false =>
      rw [if_neg (by simp [hsat])]
      have hnotrue : (c.lits.any (litSatAt s.assign)) = false := by
        cases hany : c.lits.any (litSatAt s.assign) with
        | false => rfl
        | true =>
          have := hfc c hc hany
          rw [hsat] at this
          cases this
      rw [seedClause_spec]
      rw [hnotrue]
      simp only [Bool.not_false, Bool.true_and, Bool.and_true]
      cases hcnt : c.lits.countP (fun l => litUnassigned s.assign l) with
      | zero => simp
      | succ n =>
        cases n with
        | zero =>
          have hpos : 0 < c.lits.countP (fun l => litUnassigned s.assign l) := by omega
          rw [List.countP_pos_iff] at hpos
          obtain ⟨l, hl, hul⟩ := hpos
          have hfind : (c.lits.find? (fun l => litUnassigned s.assign l)).isSome := by
            rw [List.find?_isSome]
            exact ⟨l, hl, hul⟩
          simp only [beq_iff_eq, if_pos rfl]
          cases hfo : c.lits.find? (fun l => litUnassigned s.assign l) with
          | none => rw [hfo] at hfind; cases hfind
          | some l0 => simp
        | succ m => simp
  · intro s c hc htrue
    obtain ⟨ga, gl, glits, gmono, gset⟩ := satisfy_after_go (List.range s.clauses.length) s
    obtain ⟨i, hilen, hieq⟩ := List.getElem_of_mem hc
    have hilen' : i < s.clauses.length := by
      have hlen : (satisfy_clauses_after_assignment s).clauses.length = s.clauses.length := gl
      omega
    have hgetD : ((List.range s.clauses.length).foldl (fun s i =>
        let c := s.clauses.getD i emptyClause
        if c.satisfied then s
        else if clauseHasTrueLit s.assign c.lits then
          push_clause_satisfy (setSatisfied s i) i
        else s) s).clauses.getD i emptyClause = c := by
      show (satisfy_clauses_after_assignment s).clauses.getD i emptyClause = c
      rw [List.getD_eq_getElem?_getD, List.getElem?_eq_getElem hilen, hieq]
      rfl
    have hlitsc : (s.clauses.getD i emptyClause).lits = c.lits := by
      have hx := glits i
      rw [hgetD] at hx
      exact hx.symm
    have htr : clauseHasTrueLit s.assign (s.clauses.getD i emptyClause).lits = true := by
      rw [hlitsc]
      have hassign : (satisfy_clauses_after_assignment s).assign = s.assign := ga
      rw [← hassign]
      exact htrue
    have hfin := gset i (List.mem_range.2 hilen') htr
    rw [hgetD] at hfin
    exact hfin
  · intro numVars cs
    intro c hc htrue
    exfalso
    have hfalse : clauseHasTrueLit (initState numVars cs).assign c.lits = false := by
      unfold clauseHasTrueLit
      rw [List.any_eq_false]
      intro l _
      show ¬litSatAt (List.replicate (numVars + 1) (-1)) l = true
      rw [litSatAt_replicate_neg]
      decide
    rw [htrue] at hfalse
    cases hfalse

/-- C6 witness: the seeding characterization applied to the initial
state of the unit-chain formula S3, whose first clause seeds literal
+1. -/
theorem seed_queue_characterization_witness :
    flagComplete (initState 3 [[⟨1, false⟩], [⟨1, true⟩, ⟨2, false⟩], [⟨2, true⟩, ⟨3, false⟩]]) ∧
    seedQueue (initState 3 [[⟨1, false⟩], [⟨1, true⟩, ⟨2, false⟩], [⟨2, true⟩, ⟨3, false⟩]])
      = seedQueueSpec (initState 3 [[⟨1, false⟩], [⟨1, true⟩, ⟨2, false⟩], [⟨2, true⟩, ⟨3, false⟩]]) :=
  ⟨by decide,
   seed_queue_characterization.1
     (initState 3 [[⟨1, false⟩], [⟨1, true⟩, ⟨2, false⟩], [⟨2, true⟩, ⟨3, false⟩]]) (by decide)⟩

theorem insertByCountDesc_perm (counter : List Nat) (x : Nat) (l : List Nat) :
    (insertByCountDesc counter x l).Perm (x :: l) := by
  induction l with
  | nil => exact List.Perm.refl _
  | cons y ys ih =>
    unfold insertByCountDesc
    by_cases h : counter.getD x 0 < counter.getD y 0
    · rw [if_pos h]
      exact (List.Perm.cons y ih).trans (List.Perm.swap x y ys)
    · rw [if_neg h]

theorem insertByCountDesc_pairwise (counter : List Nat) (x : Nat) (l : List Nat)
    (hl : l.Pairwise (heuristicLe counter)) (hx : ∀ y ∈ l, x < y) :
    (insertByCountDesc counter x l).Pairwise (heuristicLe counter) := by
  induction l with
  | nil =>
    simp [insertByCountDesc]
  | cons y ys ih =>
    rw [List.pairwise_cons] at hl
    unfold insertByCountDesc
    by_cases h : counter.getD x 0 < counter.getD y 0
    · rw [if_pos h]
      rw [List.pairwise_cons]
      constructor
      · intro z hz
        have hz' := (insertByCountDesc_perm counter x ys).mem_iff.1 hz
        rcases List.mem_cons.1 hz' with rfl | hzys
        · exact Or.inl h
        · exact hl.1 z hzys
      · exact ih hl.2 (fun z hz => hx z (List.mem_cons_of_mem y hz))
    · rw [if_neg h]
      rw [List.pairwise_cons]
      constructor
      · intro z hz
        have hyx : counter.getD y 0 ≤ counter.getD x 0 := Nat.le_of_not_lt h
        rcases List.mem_cons.1 hz with rfl | hzys
        · rcases Nat.lt_or_ge (counter.getD z 0) (counter.getD x 0) with hc | hc
          · exact Or.inl hc
          · exact Or.inr ⟨by omega, hx z (List.mem_cons_self z ys)⟩
        · have hyz := hl.1 z hzys
          rcases Nat.lt_or_ge (counter.getD z 0) (counter.getD x 0) with hc | hc
          · exact Or.inl hc
          · refine Or.inr ⟨?_, hx z (List.mem_cons_of_mem y hzys)⟩
            unfold heuristicLe at hyz
            rcases hyz with h1 | h1
            · omega
            · omega
      · rw [List.pairwise_cons]
        exact ⟨hl.1, hl.2⟩

theorem get_sorted_indices_foldr (counter : List Nat) (L : List Nat)
    (hL : L.Pairwise (· < ·)) :
    (L.foldr (insertByCountDesc counter) []).Perm L ∧
    (L.foldr (insertByCountDesc counter) []).Pairwise (heuristicLe counter) := by
  induction L with
  | nil => exact ⟨List.Perm.refl _, List.Pairwise.nil⟩
  | cons x xs ih =>
    rw [List.pairwise_cons] at hL
    obtain ⟨hperm, hpw⟩ := ih hL.2
    rw [List.foldr_cons]
    constructor
    · exact (insertByCountDesc_perm counter x _).trans (List.Perm.cons x hperm)
    · exact insertByCountDesc_pairwise counter x _ hpw
        (fun y hy => hL.1 y (hperm.mem_iff.1 hy))

/-- C8 counterexample: for the one-variable formula consisting of the
single unit clause `1 0`, the precomputed order `var_sort` is `[1, 0]`,
which is not a permutation of the variable ids `1..N = [1]`: the array
built by `get_sorted_indices` (lines 119-132) has `numVars + 1` entries
and always contains the id `0`. -/
theorem heuristic_order_contains_zero :
    get_sorted_indices (occurrenceCounter 1 [[⟨1, false⟩]]) 1 = [1, 0] ∧
    ¬ (get_sorted_indices (occurrenceCounter 1 [[⟨1, false⟩]]) 1).Perm [1] := by
  decide

/-- C8 (amended): the precomputed order used by
`pick_unassigned_variable` is a permutation of `0..N` — the variable ids
1..N together with the sentinel id 0 — sorted by descending number of
literal occurrences (counting both polarities) in the post-subsumption
formula, with ties broken by ascending id.  (The C comparator orders by
count only; the tie order is the sort implementation's choice, modelled
here as the stable order of glibc's merge-sort based `qsort_r`.) -/
theorem heuristic_order_sorted (numVars : Nat) (cs : List (List Literal)) :
    (get_sorted_indices (occurrenceCounter numVars cs) numVars).Perm
      (List.range (numVars + 1)) ∧
    (get_sorted_indices (occurrenceCounter numVars cs) numVars).Pairwise
      (heuristicLe (occurrenceCounter numVars cs)) := by
  unfold get_sorted_indices
  exact get_sorted_indices_foldr _ _ (List.pairwise_lt_range (numVars + 1))

theorem lit_key_inj {l m : Literal} (hl : 1 ≤ l.var) (hm : 1 ≤ m.var)
    (h : lit_key l = lit_key m) : l = m := by
  unfold lit_key at h
  cases l with
  | mk lv ln =>
    cases m with
    | mk mv mn =>
      simp only at h hl hm
      cases ln with
      | false =>
        cases mn with
        | false =>
          rw [if_neg (by decide), if_neg (by decide)] at h
          have : lv = mv := by omega
          rw [this]
        | true =>
          rw [if_neg (by decide), if_pos (by decide)] at h
          omega
      | true =>
        cases mn with
        | false =>
          rw [if_pos (by decide), if_neg (by decide)] at h
          omega
        | true =>
          rw [if_pos (by decide), if_pos (by decide)] at h
          have : lv = mv := by omega
          rw [this]

theorem clause_subset_elim {a b : List Literal} (h : clause_subset a b = true) :
    ∀ l ∈ a, ∃ m ∈ b, lit_key m = lit_key l := by
  unfold clause_subset at h
  rw [List.all_eq_true] at h
  intro l hl
  have := h l hl
  rw [List.any_eq_true] at this
  obtain ⟨m, hm, hbeq⟩ := this
  exact ⟨m, hm, by simpa using hbeq⟩

theorem clause_subset_intro {a b : List Literal}
    (h : ∀ l ∈ a, ∃ m ∈ b, lit_key m = lit_key l) : clause_subset a b = true := by
  unfold clause_subset
  rw [List.all_eq_true]
  intro l hl
  rw [List.any_eq_true]
  obtain ⟨m, hm, hk⟩ := h l hl
  exact ⟨m, hm, by simpa using hk⟩

theorem clause_subset_trans {a b c : List Literal} (h1 : clause_subset a b = true)
    (h2 : clause_subset b c = true) : clause_subset a c = true := by
  apply clause_subset_intro
  intro l hl
  obtain ⟨m, hm, hk⟩ := clause_subset_elim h1 l hl
  obtain ⟨p, hp, hk2⟩ := clause_subset_elim h2 m hm
  exact ⟨p, hp, hk2.trans hk⟩

theorem clause_subset_truth {a b : List Literal} (T : Literal → Prop)
    (hsub : clause_subset a b = true)
    (ha : ∀ l ∈ a, 1 ≤ l.var) (hb : ∀ m ∈ b, 1 ≤ m.var)
    (h : ∃ l ∈ a, T l) : ∃ m ∈ b, T m := by
  obtain ⟨l, hl, hT⟩ := h
  obtain ⟨m, hm, hk⟩ := clause_subset_elim hsub l hl
  have : m = l := lit_key_inj (hb m hm) (ha l hl) hk
  exact ⟨m, hm, this ▸ hT⟩

theorem supersetMarkStep_getD_ne (cs : List (List Literal)) (m : List Bool) {i j : Nat}
    (h : i ≠ j) : (supersetMarkStep cs m i).getD j false = m.getD j false := by
  unfold supersetMarkStep
  split
  · rfl
  · split
    · exact getD_set_ne _ _ _ h
    · rfl

theorem supersetMarkStep_mono (cs : List (List Literal)) (m : List Bool) {i j : Nat}
    (h : m.getD j false = true) : (supersetMarkStep cs m i).getD j false = true := by
  rcases eq_or_ne i j with rfl | hne
  · unfold supersetMarkStep
    rw [if_pos h]
    exact h
  · rw [supersetMarkStep_getD_ne cs m hne]
    exact h

theorem supersetMarkStep_length (cs : List (List Literal)) (m : List Bool) (i : Nat) :
    (supersetMarkStep cs m i).length = m.length := by
  unfold supersetMarkStep
  split
  · rfl
  · split
    · simp
    · rfl

theorem supersetMarksUpTo_succ (cs : List (List Literal)) (k : Nat) :
    supersetMarksUpTo cs (k + 1) = supersetMarkStep cs (supersetMarksUpTo cs k) k := by
  unfold supersetMarksUpTo
  rw [List.range_succ, List.foldl_append]
  rfl

theorem supersetMarksUpTo_length (cs : List (List Literal)) (k : Nat) :
    (supersetMarksUpTo cs k).length = cs.length := by
  induction k with
  | zero => simp [supersetMarksUpTo]
  | succ k ih => rw [supersetMarksUpTo_succ, supersetMarkStep_length, ih]

theorem supersetMarksUpTo_stable (cs : List (List Literal)) (j : Nat) :
    ∀ k, j < k →
      (supersetMarksUpTo cs k).getD j false = (supersetMarksUpTo cs (j + 1)).getD j false := by
  intro k
  induction k with
  | zero => omega
  | succ k ih =>
    intro hjk
    rcases Nat.lt_or_ge j k with h | h
    · rw [supersetMarksUpTo_succ, supersetMarkStep_getD_ne cs _ (by omega), ih h]
    · have : j = k := by omega
      subst this
      rfl

theorem supersetMarksUpTo_self_false (cs : List (List Literal)) (i : Nat) :
    ∀ k, k ≤ i → (supersetMarksUpTo cs k).getD i false = false := by
  intro k
  induction k with
  | zero =>
    intro _
    show (List.replicate cs.length false).getD i false = false
    rw [List.getD_eq_getElem?_getD]
    rcases Nat.lt_or_ge i cs.length with h | h
    · rw [List.getElem?_replicate]
      simp [h]
    · rw [List.getElem?_eq_none (by simpa using h)]
      rfl
  | succ k ih =>
    intro hk
    rw [supersetMarksUpTo_succ, supersetMarkStep_getD_ne cs _ (by omega)]
    exact ih (by omega)

theorem supersetMarks_eq_upTo (cs : List (List Literal)) :
    supersetMarks cs = supersetMarksUpTo cs cs.length := rfl

theorem supersetMarks_marked_elim (cs : List (List Literal)) {i : Nat}
    (h : (supersetMarks cs).getD i false = true) :
    i < cs.length ∧ ∃ j, j < cs.length ∧ i ≠ j ∧
      (supersetMarksUpTo cs i).getD j false = false ∧
      (cs.getD j []).length ≤ (cs.getD i []).length ∧
      clause_subset (cs.getD j []) (cs.getD i []) = true := by
  have hlen : i < cs.length := by
    by_contra hge
    rw [supersetMarks_eq_upTo, List.getD_eq_getElem?_getD,
      List.getElem?_eq_none (by rw [supersetMarksUpTo_length]; omega)] at h
    cases h
  refine ⟨hlen, ?_⟩
  rw [supersetMarks_eq_upTo, supersetMarksUpTo_stable cs i cs.length hlen,
    supersetMarksUpTo_succ] at h
  have hself := supersetMarksUpTo_self_false cs i i le_rfl
  unfold supersetMarkStep at h
  rw [if_neg (by rw [hself]; decide)] at h
  cases hc2 : ((List.range cs.length).any fun j =>
      decide (i ≠ j) && !(supersetMarksUpTo cs i).getD j false &&
        decide ((cs.getD j []).length ≤ (cs.getD i []).length) &&
        clause_subset (cs.getD j []) (cs.getD i [])) with
  | false =>
    rw [hc2] at h
    rw [if_neg (by decide)] at h
    rw [hself] at h
    cases h
  | true =>
    rw [List.any_eq_true] at hc2
    obtain ⟨j, hjr, hcond⟩ := hc2
    rw [Bool.and_eq_true, Bool.and_eq_true, Bool.and_eq_true] at hcond
    obtain ⟨⟨⟨hne, hunm⟩, hsize⟩, hsub⟩ := hcond
    refine ⟨j, List.mem_range.1 hjr, by simpa using hne, by simpa using hunm,
      by simpa using hsize, hsub⟩

theorem getD_mem_of_lt {α : Type} (l : List α) (i : Nat) (d : α) (h : i < l.length) :
    l.getD i d ∈ l := by
  rw [List.getD_eq_getElem?_getD, List.getElem?_eq_getElem h]
  exact List.getElem_mem h

theorem supersetMarks_chain (cs : List (List Literal)) :
    ∀ (d i : Nat), cs.length - i ≤ d → (supersetMarks cs).getD i false = true →
    ∃ j, j < cs.length ∧ (supersetMarks cs).getD j false = false ∧
      clause_subset (cs.getD j []) (cs.getD i []) = true := by
  intro d
  induction d with
  | zero =>
    intro i hd h
    obtain ⟨hlen, _⟩ := supersetMarks_marked_elim cs h
    omega
  | succ d ih =>
    intro i hd h
    obtain ⟨hlen, j, hjlen, hne, hunm, _, hsub⟩ := supersetMarks_marked_elim cs h
    rcases Nat.lt_or_ge j i with hji | hij
    · -- j was processed before i and never marked afterwards
      refine ⟨j, hjlen, ?_, hsub⟩
      rw [supersetMarks_eq_upTo, supersetMarksUpTo_stable cs j cs.length hjlen]
      rw [supersetMarksUpTo_stable cs j i hji] at hunm
      exact hunm
    · have hji : i < j := by omega
      cases hj : (supersetMarks cs).getD j false with
      | false => exact ⟨j, hjlen, hj, hsub⟩
      | true =>
        obtain ⟨k, hklen, hkunm, hksub⟩ := ih j (by omega) hj
        exact ⟨k, hklen, hkunm, clause_subset_trans hksub hsub⟩

theorem mem_remove_supersets {cs : List (List Literal)} {c : List Literal}
    (h : c ∈ remove_supersets cs) :
    ∃ i, i < cs.length ∧ (supersetMarks cs).getD i false = false ∧ c = cs.getD i [] := by
  unfold remove_supersets at h
  rw [List.mem_filterMap] at h
  obtain ⟨i, hir, hf⟩ := h
  rcases hm : (supersetMarks cs).getD i false with _ | _
  · rw [hm] at hf
    rw [if_neg (by decide)] at hf
    exact ⟨i, List.mem_range.1 hir, hm, (Option.some.inj hf).symm⟩
  · rw [hm] at hf
    rw [if_pos rfl] at hf
    cases hf

theorem kept_mem_remove_supersets {cs : List (List Literal)} {i : Nat}
    (hi : i < cs.length) (hm : (supersetMarks cs).getD i false = false) :
    cs.getD i [] ∈ remove_supersets cs := by
  unfold remove_supersets
  rw [List.mem_filterMap]
  refine ⟨i, List.mem_range.2 hi, ?_⟩
  rw [hm]
  rw [if_neg (by decide)]

/-- C9: subsumption preserves satisfiability.  For every input formula
whose variable ids are positive (as the DIMACS parser guarantees), the
formula produced by `remove_supersets` — which marks clause `i`
removable when some other clause `j` has a signed-literal set included
in `i`'s and `|i| >= |j|`, then compacts — is satisfiable exactly when
the input formula is satisfiable. -/
theorem remove_supersets_equisat (cs : List (List Literal))
    (hwf : ∀ c ∈ cs, ∀ l ∈ c, 1 ≤ l.var) :
    Satisfiable cs ↔ Satisfiable (remove_supersets cs) := by
  constructor
  · rintro ⟨σ, hσ⟩
    refine ⟨σ, ?_⟩
    intro c hc
    obtain ⟨i, hi, _, rfl⟩ := mem_remove_supersets hc
    exact hσ _ (getD_mem_of_lt cs i [] hi)
  · rintro ⟨σ, hσ⟩
    refine ⟨σ, ?_⟩
    intro c hc
    obtain ⟨i, hilen, hieq⟩ := List.getElem_of_mem hc
    have hci : c = cs.getD i [] := by
      rw [List.getD_eq_getElem?_getD, List.getElem?_eq_getElem hilen, hieq]
      rfl
    cases hm : (supersetMarks cs).getD i false with
    | false =>
      exact hσ _ (hci ▸ kept_mem_remove_supersets hilen hm)
    | true =>
      obtain ⟨j, hjlen, hjunm, hjsub⟩ := supersetMarks_chain cs cs.length i (by omega) hm
      have hj := hσ _ (kept_mem_remove_supersets hjlen hjunm)
      rw [hci]
      exact clause_subset_truth (litTrue σ) hjsub
        (fun l hl => hwf _ (getD_mem_of_lt cs j [] hjlen) l hl)
        (fun m hmm => hwf _ (getD_mem_of_lt cs i [] hilen) m hmm) hj

/-- C9 witness: the clause `1 2` is subsumed by the unit clause `1`;
equisatisfiability instantiated at that concrete formula. -/
theorem remove_supersets_equisat_witness :
    Satisfiable [[⟨1, false⟩, ⟨2, false⟩], [⟨1, false⟩]]
      ↔ Satisfiable (remove_supersets [[⟨1, false⟩, ⟨2, false⟩], [⟨1, false⟩]]) :=
  remove_supersets_equisat [[⟨1, false⟩, ⟨2, false⟩], [⟨1, false⟩]] (by decide)

theorem flagSim_refl (s : St) : FlagSim s s :=
  ⟨rfl, rfl, rfl, fun _ => rfl, fun _ h => h⟩

theorem flagsJustified_of_flagSim {s t : St} (h : FlagSim s t)
    (ht : flagsJustified t = true) : flagsJustified s = true := by
  obtain ⟨ha, htr, hlen, hlits, hflag⟩ := h
  unfold flagsJustified at ht ⊢
  rw [List.all_eq_true] at ht ⊢
  intro i hi
  have hi' : i ∈ List.range t.clauses.length := by
    rw [List.mem_range] at hi ⊢
    omega
  have hti := ht i hi'
  rw [Bool.or_eq_true] at hti ⊢
  cases hfs : (s.clauses.getD i emptyClause).satisfied with
  | false =>
    left
    simp
  | true =>
    right
    have hft := hflag i hfs
    rcases hti with hnot | htrue
    · rw [hft] at hnot
      simp at hnot
    · unfold clauseHasTrueLit at htrue ⊢
      rw [ha, hlits i]
      exact htrue

theorem flagSim_undoStep {s t : St} (h : FlagSim s t) : FlagSim (undoStep s) (undoStep t) := by
  obtain ⟨ha, htr, hlen, hlits, hflag⟩ := h
  cases he : s.trail with
  | nil =>
    have het : t.trail = [] := by
      rw [← htr]
      exact he
    rw [undoStep_of_trail_nil he, undoStep_of_trail_nil het]
    exact ⟨ha, htr, hlen, hlits, hflag⟩
  | cons e rest =>
    have het : t.trail = e :: rest := by
      rw [← htr]
      exact he
    cases e with
    | assignment v =>
      rw [undoStep_assignment he, undoStep_assignment het]
      exact ⟨by rw [ha], rfl, hlen, hlits, hflag⟩
    | clauseSatisfy i =>
      rw [undoStep_clauseSatisfy he, undoStep_clauseSatisfy het]
      refine ⟨ha, rfl, ?_, ?_, ?_⟩
      · show (clearSatisfied { s with trail := rest } i).clauses.length = _
        have h1 := (clearSatisfied_fields { s with trail := rest } i).2.2.2.2.2
        have h2 := (clearSatisfied_fields { t with trail := rest } i).2.2.2.2.2
        rw [h1, h2]
        exact hlen
      · intro j
        have h1 := clearSatisfied_lits { s with trail := rest } i j
        have h2 := clearSatisfied_lits { t with trail := rest } i j
        rw [h1, h2]
        exact hlits j
      · intro j hj
        have h1 := clearSatisfied_flag { s with trail := rest } i j
        have h2 := clearSatisfied_flag { t with trail := rest } i j
        rw [h1] at hj
        rw [h2]
        rw [Bool.and_eq_true] at hj ⊢
        refine ⟨hflag j hj.1, ?_⟩
        have := hj.2
        show (!(decide (j = i) && decide (i < t.clauses.length))) = true
        rw [← hlen]
        exact this
    | watchlistAdd idx v =>
      rw [undoStep_watchlistAdd he, undoStep_watchlistAdd het]
      exact ⟨ha, rfl, hlen, hlits, hflag⟩
    | watchlistRemove idx v =>
      rw [undoStep_watchlistRemove he, undoStep_watchlistRemove het]
      exact ⟨ha, rfl, hlen, hlits, hflag⟩

theorem flagSim_undoN {s t : St} (h : FlagSim s t) (k : Nat) :
    FlagSim (undoN s k) (undoN t k) := by
  induction k generalizing s t with
  | zero => exact h
  | succ k ih =>
    show FlagSim (undoN (undoStep s) k) (undoN (undoStep t) k)
    exact ih (flagSim_undoStep h)

theorem goodTrail_of_flagSim {s t : St} (h : FlagSim s t) (hg : GoodTrail t) : GoodTrail s :=
  fun k => flagsJustified_of_flagSim (flagSim_undoN h k) (hg k)

theorem litSatAt_extend {a : List Int} {v : Nat} {val : Int} {l : Literal}
    (hun : a.getD v (-1) = -1) (h : litSatAt a l = true) :
    litSatAt (a.set v val) l = true := by
  unfold litSatAt at h ⊢
  rcases eq_or_ne v l.var with rfl | hne
  · rw [hun] at h
    simp at h
  · rw [getD_set_ne _ _ _ hne]
    exact h

theorem clauseHasTrueLit_extend {a : List Int} {v : Nat} {val : Int} {ls : List Literal}
    (hun : a.getD v (-1) = -1) (h : clauseHasTrueLit a ls = true) :
    clauseHasTrueLit (a.set v val) ls = true := by
  unfold clauseHasTrueLit at h ⊢
  rw [List.any_eq_true] at h ⊢
  obtain ⟨l, hl, hsat⟩ := h
  exact ⟨l, hl, litSatAt_extend hun hsat⟩

theorem goodTrail_opAssign {s : St} {v : Nat} (val : Int)
    (hun : s.assign.getD v (-1) = -1) (hg : GoodTrail s) :
    GoodTrail (push_assignment (setAssign s v val) v) := by
  have hset : (s.assign.set v val).set v (-1) = s.assign := by
    rw [List.set_set]
    calc s.assign.set v (-1) = s.assign.set v (s.assign.getD v (-1)) := by rw [hun]
      _ = s.assign := set_getD_self _ _ _
  have hstep : undoStep (push_assignment (setAssign s v val) v) = s := by
    rw [undoStep_assignment rfl]
    show ({ s with assign := (s.assign.set v val).set v (-1), trail := s.trail } : St) = s
    rw [hset]
  intro k
  cases k with
  | zero =>
    show flagsJustified (push_assignment (setAssign s v val) v) = true
    have h0 := hg 0
    unfold flagsJustified at h0 ⊢
    rw [List.all_eq_true] at h0 ⊢
    intro i hi
    have := h0 i hi
    rw [Bool.or_eq_true] at this ⊢
    rcases this with hnot | htrue
    · exact Or.inl hnot
    · exact Or.inr (clauseHasTrueLit_extend hun htrue)
  | succ k =>
    show flagsJustified (undoN (undoStep (push_assignment (setAssign s v val) v)) k) = true
    rw [hstep]
    exact hg k

theorem goodTrail_opSatisfy {s : St} {i : Nat}
    (htrue : clauseHasTrueLit s.assign (s.clauses.getD i emptyClause).lits = true)
    (hg : GoodTrail s) :
    GoodTrail (push_clause_satisfy (setSatisfied s i) i) := by
  have hsim : FlagSim (clearSatisfied { push_clause_satisfy (setSatisfied s i) i with
      trail := s.trail } i) s := by
    refine ⟨rfl, rfl, ?_, ?_, ?_⟩
    · show (clearSatisfied { setSatisfied s i with trail := s.trail } i).clauses.length = _
      rw [(clearSatisfied_fields _ i).2.2.2.2.2]
      exact (setSatisfied_fields s i).2.2.2.2.2
    · intro j
      show ((clearSatisfied { setSatisfied s i with trail := s.trail } i).clauses.getD
        j emptyClause).lits = _
      rw [clearSatisfied_lits]
      exact setSatisfied_lits s i j
    · intro j hj
      have hj' : ((clearSatisfied { setSatisfied s i with trail := s.trail } i).clauses.getD
          j emptyClause).satisfied = true := hj
      rw [clearSatisfied_flag, Bool.and_eq_true] at hj'
      obtain ⟨h1, h2⟩ := hj'
      have h1' : ((setSatisfied s i).clauses.getD j emptyClause).satisfied = true := h1
      rw [setSatisfied_flag, Bool.or_eq_true] at h1'
      rcases h1' with hflag | hcase
      · exact hflag
      · exfalso
        rw [Bool.and_eq_true, decide_eq_true_eq, decide_eq_true_eq] at hcase
        have hcontra : (decide (j = i) && decide (i <
            ({ setSatisfied s i with trail := s.trail } : St).clauses.length)) = true := by
          rw [Bool.and_eq_true, decide_eq_true_eq, decide_eq_true_eq]
          refine ⟨hcase.1, ?_⟩
          show i < (setSatisfied s i).clauses.length
          rw [(setSatisfied_fields s i).2.2.2.2.2]
          exact hcase.2
        rw [hcontra] at h2
        simp at h2
  intro k
  cases k with
  | zero =>
    show flagsJustified (push_clause_satisfy (setSatisfied s i) i) = true
    have h0 : flagsJustified s = true := hg 0
    unfold flagsJustified at h0 ⊢
    rw [List.all_eq_true] at h0 ⊢
    intro j hj
    have hlen : (push_clause_satisfy (setSatisfied s i) i).clauses.length
        = s.clauses.length := (setSatisfied_fields s i).2.2.2.2.2
    have hj' : j ∈ List.range s.clauses.length := by
      rw [List.mem_range] at hj ⊢
      omega
    rw [Bool.or_eq_true]
    cases hfs : ((push_clause_satisfy (setSatisfied s i) i).clauses.getD
        j emptyClause).satisfied with
    | false =>
      left
      simp
    | true =>
      right
      have hflag : ((setSatisfied s i).clauses.getD j emptyClause).satisfied = true := hfs
      rw [setSatisfied_flag, Bool.or_eq_true] at hflag
      show clauseHasTrueLit s.assign (((setSatisfied s i).clauses.getD j emptyClause).lits)
        = true
      rw [setSatisfied_lits]
      rcases hflag with hf | hc
      · have hh := h0 j hj'
        rw [Bool.or_eq_true] at hh
        rcases hh with hnot | ht
        · rw [hf] at hnot
          simp at hnot
        · exact ht
      · rw [Bool.and_eq_true, decide_eq_true_eq, decide_eq_true_eq] at hc
        rw [hc.1]
        exact htrue
  | succ k =>
    show flagsJustified (undoN (undoStep (push_clause_satisfy (setSatisfied s i) i)) k) = true
    rw [undoStep_clauseSatisfy rfl]
    exact goodTrail_of_flagSim hsim hg k

theorem goodTrail_watchAdd {s : St} (idx v : Nat) (hg : GoodTrail s) :
    GoodTrail (watchtable_add s idx v) := by
  intro k
  cases k with
  | zero => exact hg 0
  | succ k =>
    show flagsJustified (undoN (undoStep (watchtable_add s idx v)) k) = true
    rw [undoStep_watchlistAdd rfl]
    have hsim : FlagSim
        { watchtable_add s idx v with
          trail := s.trail
          watch := (watchtable_add s idx v).watch.set idx
            (removeFirst ((watchtable_add s idx v).watch.getD idx []) v) } s :=
      ⟨rfl, rfl, rfl, fun _ => rfl, fun _ h => h⟩
    exact goodTrail_of_flagSim hsim hg k

theorem goodTrail_watchRemove {s : St} (idx v : Nat) (hg : GoodTrail s) :
    GoodTrail (watchtable_remove s idx v) := by
  intro k
  cases k with
  | zero => exact hg 0
  | succ k =>
    show flagsJustified (undoN (undoStep (watchtable_remove s idx v)) k) = true
    rw [undoStep_watchlistRemove rfl]
    have hsim : FlagSim
        { watchtable_remove s idx v with
          trail := s.trail
          watch := (watchtable_remove s idx v).watch.set idx
            ((watchtable_remove s idx v).watch.getD idx [] ++ [v]) } s :=
      ⟨rfl, rfl, rfl, fun _ => rfl, fun _ h => h⟩
    exact goodTrail_of_flagSim hsim hg k

theorem getD_eq_default {α : Type} (l : List α) (d : α) {i : Nat} (h : l.length ≤ i) :
    l.getD i d = d := by
  rw [List.getD_eq_getElem?_getD, List.getElem?_eq_none h]
  rfl

theorem watchKeysOKb_iff (s : St) : watchKeysOKb s = true ↔
    ∀ idx, idx < s.watch.length → ∀ ci ∈ s.watch.getD idx [],
      ∃ l ∈ (s.clauses.getD ci emptyClause).lits, watchlist_index l s.numVars = idx := by
  unfold watchKeysOKb
  rw [List.all_eq_true]
  constructor
  · intro h idx hidx ci hci
    have h1 := h idx (List.mem_range.2 hidx)
    rw [List.all_eq_true] at h1
    have h2 := h1 ci hci
    rw [List.any_eq_true] at h2
    obtain ⟨l, hl, hk⟩ := h2
    exact ⟨l, hl, by simpa using hk⟩
  · intro h idx hidx
    rw [List.all_eq_true]
    intro ci hci
    rw [List.any_eq_true]
    obtain ⟨l, hl, hk⟩ := h idx (List.mem_range.1 hidx) ci hci
    exact ⟨l, hl, by simpa using hk⟩

theorem trailKeysOKb_iff (s : St) : trailKeysOKb s = true ↔
    ∀ idx ci, UndoEntry.watchlistRemove idx ci ∈ s.trail →
      ∃ l ∈ (s.clauses.getD ci emptyClause).lits, watchlist_index l s.numVars = idx := by
  unfold trailKeysOKb
  rw [List.all_eq_true]
  constructor
  · intro h idx ci hmem
    have h1 := h _ hmem
    rw [List.any_eq_true] at h1
    obtain ⟨l, hl, hk⟩ := h1
    exact ⟨l, hl, by simpa using hk⟩
  · intro h e he
    cases e with
    | assignment v => rfl
    | clauseSatisfy i => rfl
    | watchlistAdd idx v => rfl
    | watchlistRemove idx ci =>
      show ((s.clauses.getD ci emptyClause).lits.any
        (fun l => watchlist_index l s.numVars == idx)) = true
      rw [List.any_eq_true]
      obtain ⟨l, hl, hk⟩ := h idx ci he
      exact ⟨l, hl, by simpa using hk⟩

theorem flagsJustified_iff (s : St) : flagsJustified s = true ↔
    ∀ i, (s.clauses.getD i emptyClause).satisfied = true →
      clauseHasTrueLit s.assign (s.clauses.getD i emptyClause).lits = true := by
  unfold flagsJustified
  rw [List.all_eq_true]
  constructor
  · intro h i hflag
    rcases Nat.lt_or_ge i s.clauses.length with hi | hi
    · have h1 := h i (List.mem_range.2 hi)
      rw [Bool.or_eq_true] at h1
      rcases h1 with h1 | h1
      · rw [hflag] at h1
        simp at h1
      · exact h1
    · rw [getD_eq_default _ _ hi] at hflag
      simp [emptyClause] at hflag
  · intro h i _
    rw [Bool.or_eq_true]
    cases hflag : (s.clauses.getD i emptyClause).satisfied with
    | false => exact Or.inl (by simp)
    | true => exact Or.inr (h i hflag)

theorem allFlagged_iff (s : St) : allFlagged s = true ↔
    ∀ i, i < s.clauses.length → (s.clauses.getD i emptyClause).satisfied = true := by
  unfold allFlagged
  rw [List.all_eq_true]
  constructor
  · intro h i hi
    exact h i (List.mem_range.2 hi)
  · intro h i hi
    exact h i (List.mem_range.1 hi)

theorem watchCountsOKb_iff (s : St) : watchCountsOKb s = true ↔
    ∀ ci, ci < s.clauses.length →
      watchOccurrences s ci = expectedWatchCount (s.clauses.getD ci emptyClause).lits := by
  unfold watchCountsOKb
  rw [List.all_eq_true]
  constructor
  · intro h ci hci
    have h1 := h ci (List.mem_range.2 hci)
    exact by simpa using h1
  · intro h ci hci
    simpa using h ci (List.mem_range.1 hci)

theorem varsOK_of_b {s : St} (h : varsOKb s = true) : VarsOK s := by
  unfold varsOKb at h
  rw [List.all_eq_true] at h
  intro i l hl
  rcases Nat.lt_or_ge i s.clauses.length with hi | hi
  · have hmem : s.clauses.getD i emptyClause ∈ s.clauses := getD_mem_of_lt _ _ _ hi
    have h1 := h _ hmem
    rw [List.all_eq_true] at h1
    have h2 := h1 l hl
    rw [Bool.and_eq_true, decide_eq_true_eq, decide_eq_true_eq] at h2
    exact h2
  · rw [getD_eq_default _ _ hi] at hl
    simp [emptyClause] at hl

theorem litUnassigned_iff (a : List Int) (l : Literal) :
    litUnassigned a l = true ↔ a.getD l.var (-1) = -1 := by
  unfold litUnassigned
  simp

theorem watchlist_index_inj {n : Nat} {l m : Literal}
    (hl1 : 1 ≤ l.var) (hl2 : l.var ≤ n) (hm1 : 1 ≤ m.var) (hm2 : m.var ≤ n)
    (h : watchlist_index l n = watchlist_index m n) : l.var = m.var ∧ l.neg = m.neg := by
  unfold watchlist_index at h
  cases hln : l.neg <;> cases hmn : m.neg <;> rw [hln, hmn] at h <;> simp at h <;>
    first
      | exact ⟨h, rfl⟩
      | omega

theorem sameSkeleton_refl (s : St) : SameSkeleton s s :=
  ⟨rfl, rfl, rfl, fun _ => rfl, rfl, rfl⟩

theorem sameSkeleton_trans {s t u : St} (h1 : SameSkeleton s t) (h2 : SameSkeleton t u) :
    SameSkeleton s u := by
  obtain ⟨a1, b1, c1, d1, e1, f1⟩ := h1
  obtain ⟨a2, b2, c2, d2, e2, f2⟩ := h2
  exact ⟨a1.trans a2, b1.trans b2, c1.trans c2, fun i => (d1 i).trans (d2 i),
    e1.trans e2, f1.trans f2⟩

theorem sameSkeleton_opAssign (s : St) (v : Nat) (val : Int) :
    SameSkeleton s (push_assignment (setAssign s v val) v) :=
  ⟨rfl, rfl, rfl, fun _ => rfl, (List.length_set _ _ _).symm, rfl⟩

theorem sameSkeleton_opSatisfy (s : St) (i : Nat) :
    SameSkeleton s (push_clause_satisfy (setSatisfied s i) i) :=
  ⟨rfl, rfl, (List.length_set _ _ _).symm, fun j => (setSatisfied_lits s i j).symm, rfl, rfl⟩

theorem sameSkeleton_watchAdd (s : St) (index value : Nat) :
    SameSkeleton s (watchtable_add s index value) :=
  ⟨rfl, rfl, rfl, fun _ => rfl, rfl, (List.length_set _ _ _).symm⟩

theorem sameSkeleton_watchRemove (s : St) (index value : Nat) :
    SameSkeleton s (watchtable_remove s index value) :=
  ⟨rfl, rfl, rfl, fun _ => rfl, rfl, (List.length_set _ _ _).symm⟩

theorem sameSkeleton_undoStep (s : St) : SameSkeleton s (undoStep s) := by
  cases he : s.trail with
  | nil => rw [undoStep_of_trail_nil he]; exact sameSkeleton_refl s
  | cons e rest =>
    cases e with
    | assignment v =>
      rw [undoStep_assignment he]
      exact ⟨rfl, rfl, rfl, fun _ => rfl, (List.length_set _ _ _).symm, rfl⟩
    | clauseSatisfy i =>
      rw [undoStep_clauseSatisfy he]
      refine ⟨rfl, rfl, ?_, ?_, rfl, rfl⟩
      · exact ((clearSatisfied_fields { s with trail := rest } i).2.2.2.2.2).symm
      · intro j
        exact (clearSatisfied_lits { s with trail := rest } i j).symm
    | watchlistAdd idx v =>
      rw [undoStep_watchlistAdd he]
      exact ⟨rfl, rfl, rfl, fun _ => rfl, rfl, (List.length_set _ _ _).symm⟩
    | watchlistRemove idx v =>
      rw [undoStep_watchlistRemove he]
      exact ⟨rfl, rfl, rfl, fun _ => rfl, rfl, (List.length_set _ _ _).symm⟩

theorem sameSkeleton_undoN (s : St) (k : Nat) : SameSkeleton s (undoN s k) := by
  induction k generalizing s with
  | zero => exact sameSkeleton_refl s
  | succ k ih =>
    show SameSkeleton s (undoN (undoStep s) k)
    exact sameSkeleton_trans (sameSkeleton_undoStep s) (ih (undoStep s))

theorem searchInv_opAssign {s : St} {v : Nat} (val : Int)
    (hun : s.assign.getD v (-1) = -1) (h : SearchInv s) :
    SearchInv (push_assignment (setAssign s v val) v) := by
  obtain ⟨hg, hk, ht, hv, hl⟩ := h
  refine ⟨goodTrail_opAssign val hun hg, hk, ?_, hv, ?_⟩
  · rw [trailKeysOKb_iff] at ht ⊢
    intro idx ci hmem
    have hmem' : UndoEntry.watchlistRemove idx ci ∈ UndoEntry.assignment v :: s.trail := hmem
    rcases List.mem_cons.1 hmem' with hcontra | htail
    · exact absurd hcontra (by simp)
    · exact ht idx ci htail
  · show (s.assign.set v val).length = s.numVars + 1
    rw [List.length_set]
    exact hl

theorem searchInv_opSatisfy {s : St} {i : Nat}
    (htrue : clauseHasTrueLit s.assign (s.clauses.getD i emptyClause).lits = true)
    (h : SearchInv s) : SearchInv (push_clause_satisfy (setSatisfied s i) i) := by
  obtain ⟨hg, hk, ht, hv, hl⟩ := h
  refine ⟨goodTrail_opSatisfy htrue hg, ?_, ?_, ?_, hl⟩
  · rw [watchKeysOKb_iff] at hk ⊢
    intro idx hidx ci hci
    obtain ⟨l, hlm, hlk⟩ := hk idx hidx ci hci
    refine ⟨l, ?_, hlk⟩
    show l ∈ ((setSatisfied s i).clauses.getD ci emptyClause).lits
    rw [setSatisfied_lits]
    exact hlm
  · rw [trailKeysOKb_iff] at ht ⊢
    intro idx ci hmem
    have hmem' : UndoEntry.watchlistRemove idx ci ∈ UndoEntry.clauseSatisfy i :: s.trail := hmem
    rcases List.mem_cons.1 hmem' with hcontra | htail
    · exact absurd hcontra (by simp)
    · obtain ⟨l, hlm, hlk⟩ := ht idx ci htail
      refine ⟨l, ?_, hlk⟩
      show l ∈ ((setSatisfied s i).clauses.getD ci emptyClause).lits
      rw [setSatisfied_lits]
      exact hlm
  · intro j l hl
    have hl' : l ∈ ((setSatisfied s i).clauses.getD j emptyClause).lits := hl
    rw [setSatisfied_lits] at hl'
    exact hv j l hl'

theorem searchInv_watchAdd {s : St} {index value : Nat}
    (hj : ∃ l ∈ (s.clauses.getD value emptyClause).lits, watchlist_index l s.numVars = index)
    (h : SearchInv s) : SearchInv (watchtable_add s index value) := by
  obtain ⟨hg, hk, ht, hv, hl⟩ := h
  refine ⟨goodTrail_watchAdd index value hg, ?_, ?_, hv, hl⟩
  · rw [watchKeysOKb_iff] at hk ⊢
    intro idx hidx ci hci
    have hidx' : idx < s.watch.length := by
      have hlen : (watchtable_add s index value).watch.length = s.watch.length :=
        List.length_set _ _ _
      omega
    have hci' : ci ∈ (s.watch.set index (s.watch.getD index [] ++ [value])).getD idx [] := hci
    rcases eq_or_ne index idx with rfl | hne
    · rcases Nat.lt_or_ge index s.watch.length with hrange | hrange
      · rw [getD_set_self _ _ _ _ hrange] at hci'
        rcases List.mem_append.1 hci' with hold | hnew
        · exact hk index hrange ci hold
        · have : ci = value := by simpa using hnew
          subst this
          exact hj
      · rw [List.set_eq_of_length_le hrange] at hci'
        exact hk index hidx' ci hci'
    · rw [getD_set_ne _ _ _ hne] at hci'
      exact hk idx hidx' ci hci'
  · rw [trailKeysOKb_iff] at ht ⊢
    intro idx ci hmem
    have hmem' : UndoEntry.watchlistRemove idx ci
        ∈ UndoEntry.watchlistAdd index value :: s.trail := hmem
    rcases List.mem_cons.1 hmem' with hcontra | htail
    · exact absurd hcontra (by simp)
    · exact ht idx ci htail

theorem searchInv_watchRemove {s : St} {index value : Nat}
    (hj : ∃ l ∈ (s.clauses.getD value emptyClause).lits, watchlist_index l s.numVars = index)
    (h : SearchInv s) : SearchInv (watchtable_remove s index value) := by
  obtain ⟨hg, hk, ht, hv, hl⟩ := h
  refine ⟨goodTrail_watchRemove index value hg, ?_, ?_, hv, hl⟩
  · rw [watchKeysOKb_iff] at hk ⊢
    intro idx hidx ci hci
    have hidx' : idx < s.watch.length := by
      have hlen : (watchtable_remove s index value).watch.length = s.watch.length :=
        List.length_set _ _ _
      omega
    have hci' : ci ∈ (s.watch.set index (removeFirst (s.watch.getD index []) value)).getD
        idx [] := hci
    rcases eq_or_ne index idx with rfl | hne
    · rcases Nat.lt_or_ge index s.watch.length with hrange | hrange
      · rw [getD_set_self _ _ _ _ hrange] at hci'
        exact hk index hrange ci (removeFirst_subset _ _ hci')
      · rw [List.set_eq_of_length_le hrange] at hci'
        exact hk index hidx' ci hci'
    · rw [getD_set_ne _ _ _ hne] at hci'
      exact hk idx hidx' ci hci'
  · rw [trailKeysOKb_iff] at ht ⊢
    intro idx ci hmem
    have hmem' : UndoEntry.watchlistRemove idx ci
        ∈ UndoEntry.watchlistRemove index value :: s.trail := hmem
    rcases List.mem_cons.1 hmem' with hhead | htail
    · have h1 : idx = index ∧ ci = value := by
        injection hhead with ha hb
        exact ⟨ha, hb⟩
      obtain ⟨rfl, rfl⟩ := h1
      exact hj
    · exact ht idx ci htail

theorem searchInv_undoStep {s : St} (h : SearchInv s) : SearchInv (undoStep s) := by
  obtain ⟨hg, hk, ht, hv, hl⟩ := h
  have hg' : GoodTrail (undoStep s) := goodTrail_undoStep hg
  cases he : s.trail with
  | nil =>
    rw [undoStep_of_trail_nil he]
    exact ⟨hg, hk, ht, hv, hl⟩
  | cons e rest =>
    have htail : ∀ idx ci, UndoEntry.watchlistRemove idx ci ∈ rest →
        ∃ l ∈ (s.clauses.getD ci emptyClause).lits, watchlist_index l s.numVars = idx := by
      intro idx ci hmem
      exact (trailKeysOKb_iff s).1 ht idx ci (by rw [he]; exact List.mem_cons_of_mem _ hmem)
    cases e with
    | assignment v =>
      rw [undoStep_assignment he]
      refine ⟨by rw [← undoStep_assignment he]; exact hg', hk, ?_, hv, ?_⟩
      · rw [trailKeysOKb_iff]
        intro idx ci hmem
        exact htail idx ci hmem
      · show (s.assign.set v (-1)).length = s.numVars + 1
        rw [List.length_set]
        exact hl
    | clauseSatisfy i =>
      rw [undoStep_clauseSatisfy he]
      refine ⟨by rw [← undoStep_clauseSatisfy he]; exact hg', ?_, ?_, ?_, hl⟩
      · rw [watchKeysOKb_iff] at hk ⊢
        intro idx hidx ci hci
        obtain ⟨l, hlm, hlk⟩ := hk idx hidx ci hci
        refine ⟨l, ?_, hlk⟩
        show l ∈ ((clearSatisfied { s with trail := rest } i).clauses.getD ci emptyClause).lits
        rw [clearSatisfied_lits]
        exact hlm
      · rw [trailKeysOKb_iff]
        intro idx ci hmem
        obtain ⟨l, hlm, hlk⟩ := htail idx ci hmem
        refine ⟨l, ?_, hlk⟩
        show l ∈ ((clearSatisfied { s with trail := rest } i).clauses.getD ci emptyClause).lits
        rw [clearSatisfied_lits]
        exact hlm
      · intro j l hlm
        have hlm' : l ∈ ((clearSatisfied { s with trail := rest } i).clauses.getD
            j emptyClause).lits := hlm
        rw [clearSatisfied_lits] at hlm'
        exact hv j l hlm'
    | watchlistAdd idx0 v =>
      rw [undoStep_watchlistAdd he]
      refine ⟨by rw [← undoStep_watchlistAdd he]; exact hg', ?_, ?_, hv, hl⟩
      · rw [watchKeysOKb_iff] at hk ⊢
        intro idx hidx ci hci
        have hidx' : idx < s.watch.length := by
          have hlen : (s.watch.set idx0 (removeFirst (s.watch.getD idx0 []) v)).length
              = s.watch.length := List.length_set _ _ _
          exact by
            have : idx < (s.watch.set idx0 (removeFirst (s.watch.getD idx0 []) v)).length :=
              hidx
            omega
        have hci' : ci ∈ (s.watch.set idx0 (removeFirst (s.watch.getD idx0 []) v)).getD
            idx [] := hci
        rcases eq_or_ne idx0 idx with rfl | hne
        · rcases Nat.lt_or_ge idx0 s.watch.length with hrange | hrange
          · rw [getD_set_self _ _ _ _ hrange] at hci'
            exact hk idx0 hrange ci (removeFirst_subset _ _ hci')
          · rw [List.set_eq_of_length_le hrange] at hci'
            exact hk idx0 hidx' ci hci'
        · rw [getD_set_ne _ _ _ hne] at hci'
          exact hk idx hidx' ci hci'
      · rw [trailKeysOKb_iff]
        intro idx ci hmem
        exact htail idx ci hmem
    | watchlistRemove idx0 v =>
      rw [undoStep_watchlistRemove he]
      refine ⟨by rw [← undoStep_watchlistRemove he]; exact hg', ?_, ?_, hv, hl⟩
      · rw [watchKeysOKb_iff] at hk ⊢
        intro idx hidx ci hci
        have hidx' : idx < s.watch.length := by
          have hlen : (s.watch.set idx0 (s.watch.getD idx0 [] ++ [v])).length
              = s.watch.length := List.length_set _ _ _
          exact by
            have : idx < (s.watch.set idx0 (s.watch.getD idx0 [] ++ [v])).length := hidx
            omega
        have hci' : ci ∈ (s.watch.set idx0 (s.watch.getD idx0 [] ++ [v])).getD idx [] := hci
        rcases eq_or_ne idx0 idx with rfl | hne
        · rcases Nat.lt_or_ge idx0 s.watch.length with hrange | hrange
          · rw [getD_set_self _ _ _ _ hrange] at hci'
            rcases List.mem_append.1 hci' with hold | hnew
            · exact hk idx0 hrange ci hold
            · have hcv : ci = v := by simpa using hnew
              subst hcv
              exact (trailKeysOKb_iff s).1 ht idx0 ci (by rw [he]; exact List.mem_cons_self _ _)
          · rw [List.set_eq_of_length_le hrange] at hci'
            exact hk idx0 hidx' ci hci'
        · rw [getD_set_ne _ _ _ hne] at hci'
          exact hk idx hidx' ci hci'
      · rw [trailKeysOKb_iff]
        intro idx ci hmem
        exact htail idx ci hmem

theorem searchInv_undoN {s : St} (h : SearchInv s) (k : Nat) : SearchInv (undoN s k) := by
  induction k generalizing s with
  | zero => exact h
  | succ k ih =>
    show SearchInv (undoN (undoStep s) k)
    exact ih (searchInv_undoStep h)

theorem searchInv_undo_to_checkpoint {s : St} (h : SearchInv s) (cp : List UndoEntry) :
    SearchInv (undo_to_checkpoint s cp) :=
  searchInv_undoN h _

theorem flagsOnlyExt_refl (s : St) : FlagsOnlyExt s s :=
  ⟨rfl, rfl, rfl, rfl, rfl, fun _ => rfl, fun _ h => h, ⟨[], rfl⟩⟩

theorem flagsOnlyExt_trans {s t u : St} (h1 : FlagsOnlyExt s t) (h2 : FlagsOnlyExt t u) :
    FlagsOnlyExt s u := by
  obtain ⟨a1, w1, n1, v1, c1, l1, f1, e1, he1⟩ := h1
  obtain ⟨a2, w2, n2, v2, c2, l2, f2, e2, he2⟩ := h2
  refine ⟨a2.trans a1, w2.trans w1, n2.trans n1, v2.trans v1, c2.trans c1,
    fun i => (l2 i).trans (l1 i), fun i h => f2 i (f1 i h), ⟨e2 ++ e1, ?_⟩⟩
  rw [he2, he1, List.append_assoc]

theorem sameSkeleton_of_flagsOnlyExt {s r : St} (h : FlagsOnlyExt s r) : SameSkeleton s r := by
  obtain ⟨ha, hw, hn, hv, hc, hl, _, _⟩ := h
  exact ⟨hn.symm, hv.symm, hc.symm, fun i => (hl i).symm, by rw [ha], by rw [hw]⟩

theorem searchExt_refl (s : St) : SearchExt s s :=
  ⟨sameSkeleton_refl s, ⟨[], rfl⟩⟩

theorem searchExt_trans {s t u : St} (h1 : SearchExt s t) (h2 : SearchExt t u) :
    SearchExt s u := by
  obtain ⟨k1, e1, he1⟩ := h1
  obtain ⟨k2, e2, he2⟩ := h2
  exact ⟨sameSkeleton_trans k1 k2, ⟨e2 ++ e1, by rw [he2, he1, List.append_assoc]⟩⟩

theorem searchExt_of_flagsOnlyExt {s r : St} (h : FlagsOnlyExt s r) : SearchExt s r :=
  ⟨sameSkeleton_of_flagsOnlyExt h, h.2.2.2.2.2.2.2⟩

theorem flagsOnlyExt_opSatisfy (s : St) (i : Nat) :
    FlagsOnlyExt s (push_clause_satisfy (setSatisfied s i) i) := by
  refine ⟨rfl, rfl, rfl, rfl, List.length_set _ _ _, fun j => setSatisfied_lits s i j,
    fun j h => ?_, ⟨[.clauseSatisfy i], rfl⟩⟩
  show ((setSatisfied s i).clauses.getD j emptyClause).satisfied = true
  rw [setSatisfied_flag, Bool.or_eq_true]
  exact Or.inl h

theorem litSatAt_congr (a : List Int) {l m : Literal} (h1 : m.var = l.var)
    (h2 : m.neg = l.neg) : litSatAt a m = litSatAt a l := by
  unfold litSatAt
  rw [h1, h2]

theorem markWatchersAux (L : List Nat) : ∀ (s : St),
    SearchInv s →
    (∀ indexc ∈ L, clauseHasTrueLit s.assign (s.clauses.getD indexc emptyClause).lits = true) →
    SearchInv (L.foldl (fun s indexc =>
      if (s.clauses.getD indexc emptyClause).satisfied then s
      else push_clause_satisfy (setSatisfied s indexc) indexc) s) ∧
    FlagsOnlyExt s (L.foldl (fun s indexc =>
      if (s.clauses.getD indexc emptyClause).satisfied then s
      else push_clause_satisfy (setSatisfied s indexc) indexc) s) := by
  induction L with
  | nil => exact fun s hinv _ => ⟨hinv, flagsOnlyExt_refl s⟩
  | cons j L' ih =>
    intro s hinv hL
    have hstep : ∀ t : St, (j :: L').foldl (fun s indexc =>
        if (s.clauses.getD indexc emptyClause).satisfied then s
        else push_clause_satisfy (setSatisfied s indexc) indexc) t
      = L'.foldl (fun s indexc =>
        if (s.clauses.getD indexc emptyClause).satisfied then s
        else push_clause_satisfy (setSatisfied s indexc) indexc)
        (if (t.clauses.getD j emptyClause).satisfied then t
         else push_clause_satisfy (setSatisfied t j) j) := fun t => rfl
    rw [hstep s]
    by_cases hflag : (s.clauses.getD j emptyClause).satisfied = true
    · rw [if_pos hflag]
      exact ih s hinv (fun indexc hm => hL indexc (List.mem_cons_of_mem _ hm))
    · rw [if_neg hflag]
      have htrue : clauseHasTrueLit s.assign (s.clauses.getD j emptyClause).lits = true :=
        hL j (List.mem_cons_self _ _)
      have hinv1 : SearchInv (push_clause_satisfy (setSatisfied s j) j) :=
        searchInv_opSatisfy htrue hinv
      have hext1 : FlagsOnlyExt s (push_clause_satisfy (setSatisfied s j) j) :=
        flagsOnlyExt_opSatisfy s j
      have hL1 : ∀ indexc ∈ L', clauseHasTrueLit
          (push_clause_satisfy (setSatisfied s j) j).assign
          ((push_clause_satisfy (setSatisfied s j) j).clauses.getD indexc emptyClause).lits
          = true := by
        intro indexc hm
        have := hL indexc (List.mem_cons_of_mem _ hm)
        rw [hext1.1, hext1.2.2.2.2.2.1 indexc]
        exact this
      obtain ⟨hinv2, hext2⟩ := ih _ hinv1 hL1
      exact ⟨hinv2, flagsOnlyExt_trans hext1 hext2⟩

theorem searchInv_markWatchers {s : St} {l : Literal}
    (hb1 : 1 ≤ l.var) (hb2 : l.var ≤ s.numVars)
    (hsat : litSatAt s.assign l = true) (h : SearchInv s) :
    SearchInv (markWatchers s l) ∧ FlagsOnlyExt s (markWatchers s l) := by
  have hL : ∀ indexc ∈ s.watch.getD (watchlist_index l s.numVars) [],
      clauseHasTrueLit s.assign (s.clauses.getD indexc emptyClause).lits = true := by
    intro indexc hmem
    have hklt : watchlist_index l s.numVars < s.watch.length := by
      by_contra hge
      rw [getD_eq_default _ _ (Nat.le_of_not_lt hge)] at hmem
      simp at hmem
    obtain ⟨m, hmm, hmk⟩ := (watchKeysOKb_iff s).1 h.2.1 _ hklt indexc hmem
    obtain ⟨hm1, hm2⟩ := h.2.2.2.1 indexc m hmm
    obtain ⟨hvar, hneg⟩ := watchlist_index_inj hm1 hm2 hb1 hb2 hmk
    unfold clauseHasTrueLit
    rw [List.any_eq_true]
    refine ⟨m, hmm, ?_⟩
    rw [litSatAt_congr s.assign hvar hneg]
    exact hsat
  exact markWatchersAux _ s h hL

theorem searchInv_assignAndMark {s : St} {l : Literal}
    (hb1 : 1 ≤ l.var) (hb2 : l.var ≤ s.numVars)
    (hun : litUnassigned s.assign l = true) (h : SearchInv s) :
    SearchInv (assignAndMark s l) ∧ SearchExt s (assignAndMark s l) ∧
    (assignAndMark s l).watch = s.watch ∧ (assignAndMark s l).numVars = s.numVars := by
  have hun' : s.assign.getD l.var (-1) = -1 := (litUnassigned_iff _ _).1 hun
  have hinv1 : SearchInv (push_assignment (setAssign s l.var (if l.neg then 0 else 1)) l.var) :=
    searchInv_opAssign _ hun' h
  have hvlt : l.var < s.assign.length := by
    rw [h.2.2.2.2]
    omega
  have hsat1 : litSatAt
      (push_assignment (setAssign s l.var (if l.neg then 0 else 1)) l.var).assign l = true := by
    show litSatAt (s.assign.set l.var (if l.neg then 0 else 1)) l = true
    unfold litSatAt
    rw [getD_set_self _ _ _ _ hvlt]
    cases hln : l.neg <;> simp [hln]
  obtain ⟨hinv2, hext2⟩ := @searchInv_markWatchers
    (push_assignment (setAssign s l.var (if l.neg then 0 else 1)) l.var) l hb1 hb2 hsat1 hinv1
  refine ⟨hinv2, ⟨?_, ?_⟩, ?_, ?_⟩
  · exact sameSkeleton_trans (sameSkeleton_opAssign s l.var _)
      (sameSkeleton_of_flagsOnlyExt hext2)
  · obtain ⟨ext, hext⟩ := hext2.2.2.2.2.2.2.2
    refine ⟨ext ++ [.assignment l.var], ?_⟩
    show (markWatchers (push_assignment (setAssign s l.var (if l.neg then 0 else 1)) l.var)
      l).trail = ext ++ [UndoEntry.assignment l.var] ++ s.trail
    rw [hext, List.append_assoc]
    rfl
  · show (markWatchers (push_assignment (setAssign s l.var (if l.neg then 0 else 1)) l.var)
      l).watch = s.watch
    rw [hext2.2.1]
    rfl
  · show (markWatchers (push_assignment (setAssign s l.var (if l.neg then 0 else 1)) l.var)
      l).numVars = s.numVars
    rw [hext2.2.2.1]
    rfl

theorem findOtherWatcher_mem {s : St} {indexi : Nat} {oplit : Literal} :
    ∀ {ls : List Literal} {other : Literal},
      findOtherWatcher s indexi oplit ls = some other → other ∈ ls := by
  intro ls
  induction ls with
  | nil => intro other h; simp [findOtherWatcher] at h
  | cons l rest ih =>
    intro other h
    unfold findOtherWatcher at h
    by_cases h1 : l.var = oplit.var ∧ l.neg = oplit.neg
    · rw [if_pos h1] at h
      exact List.mem_cons_of_mem _ (ih h)
    · rw [if_neg h1] at h
      by_cases h2 : (s.watch.getD (watchlist_index l s.numVars) []).contains indexi = true
      · rw [if_pos h2] at h
        injection h with h
        exact h ▸ List.mem_cons_self _ _
      · rw [if_neg h2] at h
        exact List.mem_cons_of_mem _ (ih h)

theorem findNewWatch_some_key {s : St} {other : Literal} {index : Nat} :
    ∀ {ls : List Literal} {indexn : Nat},
      findNewWatch s other index ls = some indexn →
      ∃ nlit ∈ ls, watchlist_index nlit s.numVars = indexn := by
  intro ls
  induction ls with
  | nil => intro indexn h; simp [findNewWatch] at h
  | cons nlit rest ih =>
    intro indexn h
    unfold findNewWatch at h
    by_cases h1 : watchlist_index nlit s.numVars = index
        ∨ (nlit.var = other.var ∧ nlit.neg = other.neg)
    · rw [if_pos h1] at h
      obtain ⟨m, hm, hk⟩ := ih h
      exact ⟨m, List.mem_cons_of_mem _ hm, hk⟩
    · rw [if_neg h1] at h
      by_cases h2 : (litUnassigned s.assign nlit || litSatAt s.assign nlit) = true
      · rw [if_pos h2] at h
        injection h with h
        exact ⟨nlit, List.mem_cons_self _ _, h⟩
      · rw [if_neg h2] at h
        obtain ⟨m, hm, hk⟩ := ih h
        exact ⟨m, List.mem_cons_of_mem _ hm, hk⟩

theorem searchExt_watchAdd (s : St) (index value : Nat) :
    SearchExt s (watchtable_add s index value) :=
  ⟨sameSkeleton_watchAdd s index value, ⟨[.watchlistAdd index value], rfl⟩⟩

theorem searchExt_watchRemove (s : St) (index value : Nat) :
    SearchExt s (watchtable_remove s index value) :=
  ⟨sameSkeleton_watchRemove s index value, ⟨[.watchlistRemove index value], rfl⟩⟩

theorem searchInv_visitLoop (oplit : Literal) (index : Nat) :
    ∀ (fuel : Nat) (i : Nat) (s : St) (q : List Literal),
    SearchInv s → 1 ≤ oplit.var → oplit.var ≤ s.numVars →
    (∀ m ∈ q, 1 ≤ m.var ∧ m.var ≤ s.numVars) →
    SearchInv (visitLoop oplit index fuel i s q).2.1 ∧
    SearchExt s (visitLoop oplit index fuel i s q).2.1 ∧
    (∀ m ∈ (visitLoop oplit index fuel i s q).2.2, 1 ≤ m.var ∧ m.var ≤ s.numVars) := by
  intro fuel
  induction fuel with
  | zero =>
    intro i s q hinv _ _ hq
    exact ⟨hinv, searchExt_refl s, hq⟩
  | succ fuel ih =>
    intro i s q hinv hob1 hob2 hq
    simp only [visitLoop]
    by_cases hi : i < (s.watch.getD index []).length
    · rw [if_pos hi]
      by_cases hcs : (s.clauses.getD ((s.watch.getD index []).getD i 0)
          emptyClause).satisfied = true
      · rw [hcs, if_pos rfl]
        exact ih (i + 1) s q hinv hob1 hob2 hq
      · rw [Bool.not_eq_true] at hcs
        have hneg : ¬(false = true) := by decide
        rw [hcs, if_neg hneg]
        cases hfow : findOtherWatcher s ((s.watch.getD index []).getD i 0) oplit
            (s.clauses.getD ((s.watch.getD index []).getD i 0) emptyClause).lits with
        | none =>
          dsimp only
          by_cases hall : (s.clauses.getD ((s.watch.getD index []).getD i 0)
              emptyClause).lits.all (litFalsAt s.assign) = true
          · rw [hall, if_pos rfl]
            exact ⟨hinv, searchExt_refl s, hq⟩
          · rw [Bool.not_eq_true] at hall
            rw [hall, if_neg hneg]
            refine ih (i + 1) s (q ++ [oplit]) hinv hob1 hob2 ?_
            intro m hm
            rcases List.mem_append.1 hm with hm | hm
            · exact hq m hm
            · have : m = oplit := by simpa using hm
              subst this
              exact ⟨hob1, hob2⟩
        | some other =>
          dsimp only
          by_cases hos : litSatAt s.assign other = true
          · rw [hos, if_pos rfl]
            exact ih (i + 1) s q hinv hob1 hob2 hq
          · rw [Bool.not_eq_true] at hos
            rw [hos, if_neg hneg]
            have hoth : other ∈ (s.clauses.getD ((s.watch.getD index []).getD i 0)
                emptyClause).lits := findOtherWatcher_mem hfow
            have hob := hinv.2.2.2.1 ((s.watch.getD index []).getD i 0) other hoth
            cases hfnw : findNewWatch s other index
                (s.clauses.getD ((s.watch.getD index []).getD i 0) emptyClause).lits with
            | some indexn =>
              dsimp only
              have hwne : s.watch.getD index [] ≠ [] := by
                intro hcon
                rw [hcon] at hi
                simp at hi
              have hilt : index < s.watch.length := by
                by_contra hge
                exact hwne (getD_eq_default _ _ (Nat.le_of_not_lt hge))
              have hmem : ((s.watch.getD index []).getD i 0) ∈ s.watch.getD index [] :=
                getD_mem_of_lt _ _ _ hi
              have hjrem : ∃ l ∈ (s.clauses.getD ((s.watch.getD index []).getD i 0)
                  emptyClause).lits, watchlist_index l s.numVars = index :=
                (watchKeysOKb_iff s).1 hinv.2.1 index hilt _ hmem
              have hinv1 : SearchInv (watchtable_remove s index
                  ((s.watch.getD index []).getD i 0)) :=
                searchInv_watchRemove hjrem hinv
              have hjadd0 : ∃ l ∈ (s.clauses.getD ((s.watch.getD index []).getD i 0)
                  emptyClause).lits, watchlist_index l s.numVars = indexn :=
                findNewWatch_some_key hfnw
              have hjadd : ∃ l ∈ ((watchtable_remove s index
                  ((s.watch.getD index []).getD i 0)).clauses.getD
                  ((s.watch.getD index []).getD i 0) emptyClause).lits,
                  watchlist_index l (watchtable_remove s index
                    ((s.watch.getD index []).getD i 0)).numVars = indexn := hjadd0
              have hinv2 : SearchInv (watchtable_add (watchtable_remove s index
                  ((s.watch.getD index []).getD i 0)) indexn
                  ((s.watch.getD index []).getD i 0)) :=
                searchInv_watchAdd hjadd hinv1
              have hext2 : SearchExt s (watchtable_add (watchtable_remove s index
                  ((s.watch.getD index []).getD i 0)) indexn
                  ((s.watch.getD index []).getD i 0)) :=
                searchExt_trans (searchExt_watchRemove s index _)
                  (searchExt_watchAdd _ indexn _)
              obtain ⟨hia, hib, hic⟩ := ih (i + 1) _ q hinv2 hob1 hob2 hq
              exact ⟨hia, searchExt_trans hext2 hib, hic⟩
            | none =>
              dsimp only
              by_cases hun : litUnassigned s.assign other = true
              · rw [hun, if_pos rfl]
                obtain ⟨hinv1, hext1, hw1, hn1⟩ :=
                  searchInv_assignAndMark hob.1 hob.2 hun hinv
                have hqb : ∀ m ∈ q ++ [other],
                    1 ≤ m.var ∧ m.var ≤ (assignAndMark s other).numVars := by
                  intro m hm
                  rw [hn1]
                  rcases List.mem_append.1 hm with hm | hm
                  · exact hq m hm
                  · have : m = other := by simpa using hm
                    subst this
                    exact hob
                obtain ⟨hia, hib, hic⟩ := ih (i + 1) (assignAndMark s other) (q ++ [other])
                  hinv1 hob1 (by rw [hn1]; exact hob2) hqb
                refine ⟨hia, searchExt_trans hext1 hib, ?_⟩
                intro m hm
                have := hic m hm
                rw [hn1] at this
                exact this
              · rw [Bool.not_eq_true] at hun
                rw [hun, if_neg hneg]
                exact ⟨hinv, searchExt_refl s, hq⟩
    · rw [if_neg hi]
      exact ⟨hinv, searchExt_refl s, hq⟩

theorem varsOK_mem {s : St} (hv : VarsOK s) :
    ∀ c ∈ s.clauses, ∀ l ∈ c.lits, 1 ≤ l.var ∧ l.var ≤ s.numVars := by
  intro c hc l hl
  obtain ⟨i, hi, hceq⟩ := List.getElem_of_mem hc
  have hgd : s.clauses.getD i emptyClause = c := by
    rw [List.getD_eq_getElem?_getD, List.getElem?_eq_getElem hi, hceq]
    rfl
  exact hv i l (by rw [hgd]; exact hl)

theorem seedQueue_bounds {s : St} (hv : VarsOK s) :
    ∀ m ∈ seedQueue s, 1 ≤ m.var ∧ m.var ≤ s.numVars := by
  intro m hm
  unfold seedQueue at hm
  rw [seedQueue_go s s.clauses []] at hm
  rw [List.nil_append, List.mem_filterMap] at hm
  obtain ⟨c, hc, hfc⟩ := hm
  by_cases hcs : c.satisfied = true
  · rw [if_pos hcs] at hfc
    exact absurd hfc (by simp)
  · rw [if_neg hcs] at hfc
    rw [seedClause_spec] at hfc
    have hmem : m ∈ c.lits := by
      rcases hcnt : c.lits.countP (fun l => litUnassigned s.assign l) with _ | n
      · rw [hcnt] at hfc
        exact absurd hfc (by simp)
      · rcases n with _ | n
        · rw [hcnt] at hfc
          cases hf : c.lits.find? (fun l => litUnassigned s.assign l) with
          | none =>
            rw [hf] at hfc
            exact absurd hfc (by simp)
          | some l =>
            rw [hf] at hfc
            have : l = m := by simpa using hfc
            subst this
            exact List.mem_of_find?_eq_some hf
        · rw [hcnt] at hfc
          exact absurd hfc (by simp)
    exact varsOK_mem hv c hc m hmem

theorem searchInv_propLoop : ∀ (fuel : Nat) (s : St) (q : List Literal),
    SearchInv s → (∀ m ∈ q, 1 ≤ m.var ∧ m.var ≤ s.numVars) →
    SearchInv (propLoop fuel s q).2 ∧ SearchExt s (propLoop fuel s q).2 := by
  intro fuel
  induction fuel with
  | zero =>
    intro s q hinv _
    exact ⟨hinv, searchExt_refl s⟩
  | succ fuel ih =>
    intro s q hinv hq
    cases q with
    | nil => exact ⟨hinv, searchExt_refl s⟩
    | cons lit qt =>
      simp only [propLoop]
      have hlb := hq lit (List.mem_cons_self _ _)
      by_cases hun : litUnassigned s.assign lit = true
      · rw [hun, if_pos rfl]
        obtain ⟨hinv1, hext1, hw1, hn1⟩ := searchInv_assignAndMark hlb.1 hlb.2 hun hinv
        have hqt : ∀ m ∈ qt, 1 ≤ m.var ∧ m.var ≤ (assignAndMark s lit).numVars := by
          intro m hm
          rw [hn1]
          exact hq m (List.mem_cons_of_mem _ hm)
        obtain ⟨hva, hvb, hvc⟩ := searchInv_visitLoop ⟨lit.var, !lit.neg⟩
          (watchlist_index ⟨lit.var, !lit.neg⟩ (assignAndMark s lit).numVars)
          ((assignAndMark s lit).watch.getD
            (watchlist_index ⟨lit.var, !lit.neg⟩ (assignAndMark s lit).numVars) []).length
          0 (assignAndMark s lit) qt hinv1 hlb.1 (by rw [hn1]; exact hlb.2) hqt
        cases hb : (visitLoop ⟨lit.var, !lit.neg⟩
            (watchlist_index ⟨lit.var, !lit.neg⟩ (assignAndMark s lit).numVars)
            ((assignAndMark s lit).watch.getD
              (watchlist_index ⟨lit.var, !lit.neg⟩ (assignAndMark s lit).numVars) []).length
            0 (assignAndMark s lit) qt).1 with
        | true =>
          rw [if_pos rfl]
          have hq2 : ∀ m ∈ (visitLoop ⟨lit.var, !lit.neg⟩
              (watchlist_index ⟨lit.var, !lit.neg⟩ (assignAndMark s lit).numVars)
              ((assignAndMark s lit).watch.getD
                (watchlist_index ⟨lit.var, !lit.neg⟩ (assignAndMark s lit).numVars) []).length
              0 (assignAndMark s lit) qt).2.2, 1 ≤ m.var ∧ m.var ≤ (visitLoop ⟨lit.var, !lit.neg⟩
              (watchlist_index ⟨lit.var, !lit.neg⟩ (assignAndMark s lit).numVars)
              ((assignAndMark s lit).watch.getD
                (watchlist_index ⟨lit.var, !lit.neg⟩ (assignAndMark s lit).numVars) []).length
              0 (assignAndMark s lit) qt).2.1.numVars := by
            intro m hm
            rw [← hvb.1.1]
            exact hvc m hm
          obtain ⟨hfa, hfb⟩ := ih _ _ hva hq2
          exact ⟨hfa, searchExt_trans hext1 (searchExt_trans hvb hfb)⟩
        | false =>
          have hneg : ¬(false = true) := by decide
          rw [if_neg hneg]
          exact ⟨hva, searchExt_trans hext1 hvb⟩
      · rw [Bool.not_eq_true] at hun
        rw [hun]
        have hneg : ¬(false = true) := by decide
        rw [if_neg hneg]
        obtain ⟨hva, hvb, hvc⟩ := searchInv_visitLoop ⟨lit.var, !lit.neg⟩
          (watchlist_index ⟨lit.var, !lit.neg⟩ s.numVars)
          (s.watch.getD (watchlist_index ⟨lit.var, !lit.neg⟩ s.numVars) []).length
          0 s qt hinv hlb.1 hlb.2 (fun m hm => hq m (List.mem_cons_of_mem _ hm))
        cases hb : (visitLoop ⟨lit.var, !lit.neg⟩
            (watchlist_index ⟨lit.var, !lit.neg⟩ s.numVars)
            (s.watch.getD (watchlist_index ⟨lit.var, !lit.neg⟩ s.numVars) []).length
            0 s qt).1 with
        | true =>
          rw [if_pos rfl]
          have hq2 : ∀ m ∈ (visitLoop ⟨lit.var, !lit.neg⟩
              (watchlist_index ⟨lit.var, !lit.neg⟩ s.numVars)
              (s.watch.getD (watchlist_index ⟨lit.var, !lit.neg⟩ s.numVars) []).length
              0 s qt).2.2, 1 ≤ m.var ∧ m.var ≤ (visitLoop ⟨lit.var, !lit.neg⟩
              (watchlist_index ⟨lit.var, !lit.neg⟩ s.numVars)
              (s.watch.getD (watchlist_index ⟨lit.var, !lit.neg⟩ s.numVars) []).length
              0 s qt).2.1.numVars := by
            intro m hm
            rw [← hvb.1.1]
            exact hvc m hm
          obtain ⟨hfa, hfb⟩ := ih _ _ hva hq2
          exact ⟨hfa, searchExt_trans hvb hfb⟩
        | false =>
          rw [if_neg hneg]
          exact ⟨hva, hvb⟩

theorem searchInv_unit_propagate (pf : Nat) (s : St) (hinv : SearchInv s) :
    SearchInv (unit_propagate_2watchlit pf s).2 ∧
    SearchExt s (unit_propagate_2watchlit pf s).2 :=
  searchInv_propLoop pf s (seedQueue s) hinv (seedQueue_bounds hinv.2.2.2.1)

theorem satisfyAux_searchInv (L : List Nat) : ∀ (s : St), SearchInv s →
    SearchInv (L.foldl (fun s i =>
      let c := s.clauses.getD i emptyClause
      if c.satisfied then s
      else if clauseHasTrueLit s.assign c.lits then
        push_clause_satisfy (setSatisfied s i) i
      else s) s) ∧
    FlagsOnlyExt s (L.foldl (fun s i =>
      let c := s.clauses.getD i emptyClause
      if c.satisfied then s
      else if clauseHasTrueLit s.assign c.lits then
        push_clause_satisfy (setSatisfied s i) i
      else s) s) := by
  induction L with
  | nil => exact fun s hinv => ⟨hinv, flagsOnlyExt_refl s⟩
  | cons j L' ih =>
    intro s hinv
    have hstep : ∀ t : St, (j :: L').foldl (fun s i =>
        let c := s.clauses.getD i emptyClause
        if c.satisfied then s
        else if clauseHasTrueLit s.assign c.lits then
          push_clause_satisfy (setSatisfied s i) i
        else s) t
      = L'.foldl (fun s i =>
        let c := s.clauses.getD i emptyClause
        if c.satisfied then s
        else if clauseHasTrueLit s.assign c.lits then
          push_clause_satisfy (setSatisfied s i) i
        else s)
        (let c := t.clauses.getD j emptyClause
         if c.satisfied then t
         else if clauseHasTrueLit t.assign c.lits then
           push_clause_satisfy (setSatisfied t j) j
         else t) := fun t => rfl
    rw [hstep s]
    show SearchInv (L'.foldl _
        (if (s.clauses.getD j emptyClause).satisfied then s
         else if clauseHasTrueLit s.assign (s.clauses.getD j emptyClause).lits then
           push_clause_satisfy (setSatisfied s j) j
         else s)) ∧ _
    by_cases hflag : (s.clauses.getD j emptyClause).satisfied = true
    · rw [if_pos hflag]
      exact ih s hinv
    · rw [if_neg hflag]
      by_cases htrue : clauseHasTrueLit s.assign (s.clauses.getD j emptyClause).lits = true
      · rw [if_pos htrue]
        obtain ⟨ha, hb⟩ := ih _ (searchInv_opSatisfy htrue hinv)
        exact ⟨ha, flagsOnlyExt_trans (flagsOnlyExt_opSatisfy s j) hb⟩
      · rw [if_neg htrue]
        exact ih s hinv

theorem searchInv_satisfy_clauses {s : St} (hinv : SearchInv s) :
    SearchInv (satisfy_clauses_after_assignment s) ∧
    FlagsOnlyExt s (satisfy_clauses_after_assignment s) :=
  satisfyAux_searchInv (List.range s.clauses.length) s hinv

theorem driverSweepAux_searchInv (L : List Nat) : ∀ (s : St), SearchInv s →
    SearchInv (driverSweepAux s L).2 ∧ FlagsOnlyExt s (driverSweepAux s L).2 ∧
    ((driverSweepAux s L).1 = true →
      ∀ i ∈ L, ((driverSweepAux s L).2.clauses.getD i emptyClause).satisfied = true) := by
  induction L with
  | nil =>
    intro s hinv
    exact ⟨hinv, flagsOnlyExt_refl s, fun _ i hi => absurd hi (by simp)⟩
  | cons j L' ih =>
    intro s hinv
    have hred : driverSweepAux s (j :: L')
        = (if (s.clauses.getD j emptyClause).satisfied then driverSweepAux s L'
           else if clauseHasTrueLit s.assign (s.clauses.getD j emptyClause).lits then
             driverSweepAux (push_clause_satisfy (setSatisfied s j) j) L'
           else (false, s)) := rfl
    rw [hred]
    by_cases hflag : (s.clauses.getD j emptyClause).satisfied = true
    · rw [if_pos hflag]
      obtain ⟨ha, hb, hc⟩ := ih s hinv
      refine ⟨ha, hb, fun htrue i hi => ?_⟩
      rcases List.mem_cons.1 hi with rfl | hi'
      · exact hb.2.2.2.2.2.2.1 i hflag
      · exact hc htrue i hi'
    · rw [if_neg hflag]
      by_cases htrue : clauseHasTrueLit s.assign (s.clauses.getD j emptyClause).lits = true
      · rw [if_pos htrue]
        have hjlt : j < s.clauses.length := by
          by_contra hge
          rw [getD_eq_default _ _ (Nat.le_of_not_lt hge)] at htrue
          simp [emptyClause, clauseHasTrueLit] at htrue
        obtain ⟨ha, hb, hc⟩ := ih _ (searchInv_opSatisfy htrue hinv)
        refine ⟨ha, flagsOnlyExt_trans (flagsOnlyExt_opSatisfy s j) hb, fun hres i hi => ?_⟩
        rcases List.mem_cons.1 hi with rfl | hi'
        · refine hb.2.2.2.2.2.2.1 i ?_
          show ((setSatisfied s i).clauses.getD i emptyClause).satisfied = true
          rw [setSatisfied_flag]
          simp [hjlt]
        · exact hc hres i hi'
      · rw [if_neg htrue]
        refine ⟨hinv, flagsOnlyExt_refl s, fun hres => ?_⟩
        exact absurd hres (by simp)

theorem searchInv_driverSweep {s : St} (hinv : SearchInv s) :
    SearchInv (driverSweep s).2 ∧ FlagsOnlyExt s (driverSweep s).2 ∧
    ((driverSweep s).1 = true → allFlagged (driverSweep s).2 = true) := by
  obtain ⟨ha, hb, hc⟩ := driverSweepAux_searchInv (List.range s.clauses.length) s hinv
  refine ⟨ha, hb, fun hres => ?_⟩
  rw [allFlagged_iff]
  intro i hi
  have hi' : i < s.clauses.length := by
    rw [← hb.2.2.2.2.1]
    exact hi
  exact hc hres i (List.mem_range.2 hi')

theorem pickLoop_some_unassigned {s : St} : ∀ {L : List Nat} {v : Nat},
    pickLoop s L = some v → s.assign.getD v (-1) = -1 := by
  intro L
  induction L with
  | nil => intro v h; simp [pickLoop] at h
  | cons i rest ih =>
    intro v h
    unfold pickLoop at h
    by_cases h0 : s.varSort.getD i 0 = 0
    · rw [if_pos h0] at h
      exact absurd h (by simp)
    · rw [if_neg h0] at h
      by_cases hun : (s.assign.getD (s.varSort.getD i 0) (-1) == -1) = true
      · rw [if_pos hun] at h
        injection h with h
        subst h
        simpa using hun
      · rw [if_neg hun] at h
        exact ih h

theorem pick_some_unassigned {s : St} {v : Nat}
    (h : pick_unassigned_variable s = some v) : s.assign.getD v (-1) = -1 :=
  pickLoop_some_unassigned h

theorem undo_to_checkpoint_trail {s : St} {ext cp : List UndoEntry} (h : s.trail = ext ++ cp) :
    (undo_to_checkpoint s cp).trail = cp := by
  unfold undo_to_checkpoint
  rw [trail_undoN, h]
  have hlen : (ext ++ cp).length - cp.length = ext.length := by
    rw [List.length_append]
    omega
  rw [hlen]
  exact List.drop_left ext cp

theorem undo_to_checkpoint_assign_head {s : St} {ext : List UndoEntry} {v : Nat}
    {cp : List UndoEntry} (h : s.trail = ext ++ (.assignment v :: cp)) :
    (undo_to_checkpoint s cp).assign.getD v (-1) = -1 := by
  unfold undo_to_checkpoint
  have hlen : s.trail.length - cp.length = ext.length + 1 := by
    rw [h, List.length_append, List.length_cons]
    omega
  rw [hlen, undoN_succ_comm]
  have htr : (undoN s ext.length).trail = .assignment v :: cp := by
    rw [trail_undoN, h]
    exact List.drop_left ext _
  rw [undoStep_assignment htr]
  show ((undoN s ext.length).assign.set v (-1)).getD v (-1) = -1
  rcases Nat.lt_or_ge v (undoN s ext.length).assign.length with hv | hv
  · rw [getD_set_self _ _ _ _ hv]
  · rw [List.set_eq_of_length_le hv, getD_eq_default _ _ hv]

theorem getD_replicate {α : Type} (n : Nat) (x : α) (i : Nat) :
    (List.replicate n x).getD i x = x := by
  rcases Nat.lt_or_ge i n with h | h
  · rw [List.getD_eq_getElem?_getD, List.getElem?_eq_getElem (by simpa using h)]
    simp
  · rw [getD_eq_default]
    simpa using h

theorem getD_set_true {xs : List Bool} {w v : Nat} (h : xs.getD v false = true) :
    (xs.set w true).getD v false = true := by
  rcases eq_or_ne w v with rfl | hne
  · rcases Nat.lt_or_ge w xs.length with hw | hw
    · rw [getD_set_self _ _ _ _ hw]
    · rw [List.set_eq_of_length_le hw]
      exact h
  · rw [getD_set_ne _ _ _ hne]
    exact h

theorem pureScanLits_facts (a : List Int) (ls : List Literal) : ∀ (pn : List Bool × List Bool),
    (ls.foldl (fun pn l =>
      if !(litUnassigned a l) then pn
      else if l.neg then (pn.1, pn.2.set l.var true)
      else (pn.1.set l.var true, pn.2)) pn).1.length = pn.1.length ∧
    (ls.foldl (fun pn l =>
      if !(litUnassigned a l) then pn
      else if l.neg then (pn.1, pn.2.set l.var true)
      else (pn.1.set l.var true, pn.2)) pn).2.length = pn.2.length ∧
    (∀ v, pn.1.getD v false = true → (ls.foldl (fun pn l =>
      if !(litUnassigned a l) then pn
      else if l.neg then (pn.1, pn.2.set l.var true)
      else (pn.1.set l.var true, pn.2)) pn).1.getD v false = true) ∧
    (∀ v, pn.2.getD v false = true → (ls.foldl (fun pn l =>
      if !(litUnassigned a l) then pn
      else if l.neg then (pn.1, pn.2.set l.var true)
      else (pn.1.set l.var true, pn.2)) pn).2.getD v false = true) ∧
    (∀ l ∈ ls, litUnassigned a l = true →
      (l.neg = true → l.var < pn.2.length → (ls.foldl (fun pn l =>
        if !(litUnassigned a l) then pn
        else if l.neg then (pn.1, pn.2.set l.var true)
        else (pn.1.set l.var true, pn.2)) pn).2.getD l.var false = true) ∧
      (l.neg = false → l.var < pn.1.length → (ls.foldl (fun pn l =>
        if !(litUnassigned a l) then pn
        else if l.neg then (pn.1, pn.2.set l.var true)
        else (pn.1.set l.var true, pn.2)) pn).1.getD l.var false = true)) := by
  induction ls with
  | nil =>
    intro pn
    exact ⟨rfl, rfl, fun v h => h, fun v h => h, fun l hl => absurd hl (by simp)⟩
  | cons l0 rest ih =>
    intro pn
    rw [List.foldl_cons]
    by_cases hu : litUnassigned a l0 = true
    · rw [hu]
      have hnt : (!true) = false := rfl
      rw [hnt]
      have hneg : ¬(false = true) := by decide
      rw [if_neg hneg]
      cases hn : l0.neg with
      | true =>
        rw [if_pos rfl]
        obtain ⟨ha, hb, hc, hd, he⟩ := ih (pn.1, pn.2.set l0.var true)
        refine ⟨ha, by rw [hb, List.length_set], hc, ?_, ?_⟩
        · intro v hv
          exact hd v (getD_set_true hv)
        · intro l hl hul
          rcases List.mem_cons.1 hl with rfl | hl'
          · refine ⟨fun _ hlt => ?_, fun hnf _ => ?_⟩
            · refine hd l.var ?_
              show (pn.2.set l.var true).getD l.var false = true
              rw [getD_set_self _ _ _ _ hlt]
            · rw [hn] at hnf
              exact absurd hnf (by simp)
          · obtain ⟨h1, h2⟩ := he l hl' hul
            refine ⟨fun hng hlt => h1 hng (by rw [List.length_set] at h1 ⊢; exact hlt),
              fun hng hlt => h2 hng hlt⟩
      | false =>
        have hneg2 : ¬(false = true) := by decide
        rw [if_neg hneg2]
        obtain ⟨ha, hb, hc, hd, he⟩ := ih (pn.1.set l0.var true, pn.2)
        refine ⟨by rw [ha, List.length_set], hb, ?_, hd, ?_⟩
        · intro v hv
          exact hc v (getD_set_true hv)
        · intro l hl hul
          rcases List.mem_cons.1 hl with rfl | hl'
          · refine ⟨fun hng _ => ?_, fun _ hlt => ?_⟩
            · rw [hn] at hng
              exact absurd hng (by simp)
            · refine hc l.var ?_
              show (pn.1.set l.var true).getD l.var false = true
              rw [getD_set_self _ _ _ _ hlt]
          · obtain ⟨h1, h2⟩ := he l hl' hul
            exact ⟨fun hng hlt => h1 hng hlt,
              fun hng hlt => h2 hng (by rw [List.length_set] at h2 ⊢; exact hlt)⟩
    · rw [Bool.not_eq_true] at hu
      rw [hu]
      have hnt : (!false) = true := rfl
      rw [hnt, if_pos rfl]
      obtain ⟨ha, hb, hc, hd, he⟩ := ih pn
      refine ⟨ha, hb, hc, hd, ?_⟩
      intro l hl hul
      rcases List.mem_cons.1 hl with rfl | hl'
      · rw [hul] at hu
        exact absurd hu (by simp)
      · exact he l hl' hul

theorem pureScanClauses_facts (a : List Int) (cs : List Clause) :
    ∀ (pn : List Bool × List Bool),
    (cs.foldl (fun pn c =>
      if c.satisfied then pn
      else c.lits.foldl (fun pn l =>
        if !(litUnassigned a l) then pn
        else if l.neg then (pn.1, pn.2.set l.var true)
        else (pn.1.set l.var true, pn.2)) pn) pn).1.length = pn.1.length ∧
    (cs.foldl (fun pn c =>
      if c.satisfied then pn
      else c.lits.foldl (fun pn l =>
        if !(litUnassigned a l) then pn
        else if l.neg then (pn.1, pn.2.set l.var true)
        else (pn.1.set l.var true, pn.2)) pn) pn).2.length = pn.2.length ∧
    (∀ v, pn.1.getD v false = true → (cs.foldl (fun pn c =>
      if c.satisfied then pn
      else c.lits.foldl (fun pn l =>
        if !(litUnassigned a l) then pn
        else if l.neg then (pn.1, pn.2.set l.var true)
        else (pn.1.set l.var true, pn.2)) pn) pn).1.getD v false = true) ∧
    (∀ v, pn.2.getD v false = true → (cs.foldl (fun pn c =>
      if c.satisfied then pn
      else c.lits.foldl (fun pn l =>
        if !(litUnassigned a l) then pn
        else if l.neg then (pn.1, pn.2.set l.var true)
        else (pn.1.set l.var true, pn.2)) pn) pn).2.getD v false = true) ∧
    (∀ c ∈ cs, c.satisfied = false → ∀ l ∈ c.lits, litUnassigned a l = true →
      (l.neg = true → l.var < pn.2.length → (cs.foldl (fun pn c =>
        if c.satisfied then pn
        else c.lits.foldl (fun pn l =>
          if !(litUnassigned a l) then pn
          else if l.neg then (pn.1, pn.2.set l.var true)
          else (pn.1.set l.var true, pn.2)) pn) pn).2.getD l.var false = true) ∧
      (l.neg = false → l.var < pn.1.length → (cs.foldl (fun pn c =>
        if c.satisfied then pn
        else c.lits.foldl (fun pn l =>
          if !(litUnassigned a l) then pn
          else if l.neg then (pn.1, pn.2.set l.var true)
          else (pn.1.set l.var true, pn.2)) pn) pn).1.getD l.var false = true)) := by
  induction cs with
  | nil =>
    intro pn
    exact ⟨rfl, rfl, fun v h => h, fun v h => h, fun c hc => absurd hc (by simp)⟩
  | cons c0 rest ih =>
    intro pn
    rw [List.foldl_cons]
    by_cases hcs : c0.satisfied = true
    · rw [hcs, if_pos rfl]
      obtain ⟨ha, hb, hc, hd, he⟩ := ih pn
      refine ⟨ha, hb, hc, hd, ?_⟩
      intro c hcmem hcf l hl hul
      rcases List.mem_cons.1 hcmem with rfl | hcm'
      · rw [hcf] at hcs
        exact absurd hcs (by simp)
      · exact he c hcm' hcf l hl hul
    · rw [Bool.not_eq_true] at hcs
      have hneg : ¬(false = true) := by decide
      rw [hcs, if_neg hneg]
      obtain ⟨ia, ib, ic, id, ie⟩ := pureScanLits_facts a c0.lits pn
      obtain ⟨ha, hb, hc, hd, he⟩ := ih (c0.lits.foldl (fun pn l =>
        if !(litUnassigned a l) then pn
        else if l.neg then (pn.1, pn.2.set l.var true)
        else (pn.1.set l.var true, pn.2)) pn)
      refine ⟨by rw [ha, ia], by rw [hb, ib], ?_, ?_, ?_⟩
      · intro v hv
        exact hc v (ic v hv)
      · intro v hv
        exact hd v (id v hv)
      · intro c hcmem hcf l hl hul
        rcases List.mem_cons.1 hcmem with rfl | hcm'
        · obtain ⟨j1, j2⟩ := ie l hl hul
          refine ⟨fun hng hlt => ?_, fun hng hlt => ?_⟩
          · exact hd l.var (j1 hng hlt)
          · exact hc l.var (j2 hng hlt)
        · obtain ⟨j1, j2⟩ := he c hcm' hcf l hl hul
          exact ⟨fun hng hlt => j1 hng (by rw [ib]; exact hlt),
            fun hng hlt => j2 hng (by rw [ia]; exact hlt)⟩

theorem pureScan_complete {s : St} {c : Clause} (hc : c ∈ s.clauses)
    (hcf : c.satisfied = false) {l : Literal} (hl : l ∈ c.lits)
    (hul : litUnassigned s.assign l = true) (hvlt : l.var < s.numVars + 1) :
    (l.neg = true → (pureScan s).2.getD l.var false = true) ∧
    (l.neg = false → (pureScan s).1.getD l.var false = true) := by
  obtain ⟨_, _, _, _, he⟩ := pureScanClauses_facts s.assign s.clauses
    (List.replicate (s.numVars + 1) false, List.replicate (s.numVars + 1) false)
  have hlen1 : (List.replicate (s.numVars + 1) (false : Bool)).length = s.numVars + 1 :=
    List.length_replicate _ _
  obtain ⟨j1, j2⟩ := he c hc hcf l hl hul
  constructor
  · intro hng
    exact j1 hng (by rw [hlen1]; exact hvlt)
  · intro hng
    exact j2 hng (by rw [hlen1]; exact hvlt)

theorem pureAssignLoop_assign_not_mem (pos neg : List Bool) :
    ∀ (L : List Nat) (s : St) (purity : List Bool) (w : Nat), w ∉ L →
      (pureAssignLoop pos neg (s, purity) L).1.assign.getD w (-1)
        = s.assign.getD w (-1) := by
  intro L
  induction L with
  | nil => intro s purity w _; rfl
  | cons v rest ih =>
    intro s purity w hw
    have hwv : w ≠ v := fun h => hw (h ▸ List.mem_cons_self _ _)
    have hwr : w ∉ rest := fun h => hw (List.mem_cons_of_mem _ h)
    show (pureAssignLoop pos neg _ (v :: rest)).1.assign.getD w (-1) = _
    unfold pureAssignLoop
    cases hb1 : s.assign.getD v (-1) == -1 with
    | false =>
      rw [if_pos (by decide)]
      exact ih s purity w hwr
    | true =>
      rw [if_neg (by decide)]
      cases hb2 : pos.getD v false && !neg.getD v false with
      | true =>
        rw [if_pos rfl]
        rw [ih _ _ w hwr]
        show ((s.assign.set v 1).getD w (-1)) = s.assign.getD w (-1)
        rw [getD_set_ne _ _ _ (Ne.symm hwv)]
      | false =>
        rw [if_neg (by decide)]
        cases hb3 : !pos.getD v false && neg.getD v false with
        | true =>
          rw [if_pos rfl]
          rw [ih _ _ w hwr]
          show ((s.assign.set v 0).getD w (-1)) = s.assign.getD w (-1)
          rw [getD_set_ne _ _ _ (Ne.symm hwv)]
        | false =>
          rw [if_neg (by decide)]
          exact ih s purity w hwr


theorem pureAssignLoop_purity_elim (pos neg : List Bool) :
    ∀ (L : List Nat) (s : St) (purity : List Bool),
    L.Nodup → (∀ w ∈ L, w < purity.length) → (∀ w ∈ L, w < s.assign.length) →
    ∀ v, (pureAssignLoop pos neg (s, purity) L).2.getD v false = true →
      purity.getD v false = true ∨
      (v ∈ L ∧ s.assign.getD v (-1) = -1 ∧
        ((pos.getD v false = true ∧ neg.getD v false = false ∧
            (pureAssignLoop pos neg (s, purity) L).1.assign.getD v (-1) = 1) ∨
         (pos.getD v false = false ∧ neg.getD v false = true ∧
            (pureAssignLoop pos neg (s, purity) L).1.assign.getD v (-1) = 0))) := by
  intro L
  induction L with
  | nil =>
    intro s purity _ _ _ v hv
    exact Or.inl hv
  | cons v0 rest ih =>
    intro s purity hnd hpl hal v hv
    have hndr : rest.Nodup := hnd.of_cons
    have hv0r : v0 ∉ rest := (List.nodup_cons.1 hnd).1
    have hplr : ∀ w ∈ rest, w < purity.length := fun w hw => hpl w (List.mem_cons_of_mem _ hw)
    have halr : ∀ w ∈ rest, w < s.assign.length := fun w hw => hal w (List.mem_cons_of_mem _ hw)
    have hv0a : v0 < s.assign.length := hal v0 (List.mem_cons_self _ _)
    unfold pureAssignLoop at hv ⊢
    cases hb1 : s.assign.getD v0 (-1) == -1 with
    | false =>
      rw [hb1] at hv
      rw [if_pos (by decide)] at hv ⊢
      rcases ih s purity hndr hplr halr v hv with h | ⟨hm, hun, hcase⟩
      · exact Or.inl h
      · exact Or.inr ⟨List.mem_cons_of_mem _ hm, hun, hcase⟩
    | true =>
      rw [hb1] at hv
      rw [if_neg (by decide)] at hv ⊢
      cases hb2 : pos.getD v0 false && !neg.getD v0 false with
      | true =>
        rw [hb2] at hv
        rw [if_pos rfl] at hv ⊢
        have hplr2 : ∀ w ∈ rest, w < (purity.set v0 true).length := by
          intro w hw
          rw [List.length_set]
          exact hplr w hw
        have halr2 : ∀ w ∈ rest,
            w < (push_assignment (setAssign s v0 1) v0).assign.length := by
          intro w hw
          show w < (s.assign.set v0 1).length
          rw [List.length_set]
          exact halr w hw
        rcases ih _ _ hndr hplr2 halr2 v hv with h | ⟨hm, hun, hcase⟩
        · by_cases hvv : v = v0
          · subst hvv
            refine Or.inr ⟨List.mem_cons_self _ _, by simpa using hb1, Or.inl ⟨?_, ?_, ?_⟩⟩
            · rw [Bool.and_eq_true] at hb2
              exact hb2.1
            · rw [Bool.and_eq_true] at hb2
              have h2 := hb2.2
              revert h2
              cases neg.getD v false <;> simp
            · rw [pureAssignLoop_assign_not_mem pos neg rest _ _ v hv0r]
              show ((s.assign.set v 1).getD v (-1)) = 1
              rw [getD_set_self _ _ _ _ hv0a]
          · rw [getD_set_ne _ _ _ (Ne.symm hvv)] at h
            exact Or.inl h
        · have hvv : v ≠ v0 := fun hh => hv0r (hh ▸ hm)
          refine Or.inr ⟨List.mem_cons_of_mem _ hm, ?_, hcase⟩
          have hun' : (s.assign.set v0 1).getD v (-1) = -1 := hun
          rw [getD_set_ne _ _ _ (Ne.symm hvv)] at hun'
          exact hun'
      | false =>
        rw [hb2] at hv
        rw [if_neg (by decide)] at hv ⊢
        cases hb3 : !pos.getD v0 false && neg.getD v0 false with
        | true =>
          rw [hb3] at hv
          rw [if_pos rfl] at hv ⊢
          have hplr2 : ∀ w ∈ rest, w < (purity.set v0 true).length := by
            intro w hw
            rw [List.length_set]
            exact hplr w hw
          have halr2 : ∀ w ∈ rest,
              w < (push_assignment (setAssign s v0 0) v0).assign.length := by
            intro w hw
            show w < (s.assign.set v0 0).length
            rw [List.length_set]
            exact halr w hw
          rcases ih _ _ hndr hplr2 halr2 v hv with h | ⟨hm, hun, hcase⟩
          · by_cases hvv : v = v0
            · subst hvv
              refine Or.inr ⟨List.mem_cons_self _ _, by simpa using hb1,
                Or.inr ⟨?_, ?_, ?_⟩⟩
              · rw [Bool.and_eq_true] at hb3
                have h2 := hb3.1
                revert h2
                cases pos.getD v false <;> simp
              · rw [Bool.and_eq_true] at hb3
                exact hb3.2
              · rw [pureAssignLoop_assign_not_mem pos neg rest _ _ v hv0r]
                show ((s.assign.set v 0).getD v (-1)) = 0
                rw [getD_set_self _ _ _ _ hv0a]
            · rw [getD_set_ne _ _ _ (Ne.symm hvv)] at h
              exact Or.inl h
          · have hvv : v ≠ v0 := fun hh => hv0r (hh ▸ hm)
            refine Or.inr ⟨List.mem_cons_of_mem _ hm, ?_, hcase⟩
            have hun' : (s.assign.set v0 0).getD v (-1) = -1 := hun
            rw [getD_set_ne _ _ _ (Ne.symm hvv)] at hun'
            exact hun'
        | false =>
          rw [hb3] at hv
          rw [if_neg (by decide)] at hv ⊢
          rcases ih s purity hndr hplr halr v hv with h | ⟨hm, hun, hcase⟩
          · exact Or.inl h
          · exact Or.inr ⟨List.mem_cons_of_mem _ hm, hun, hcase⟩

theorem searchExt_opAssign (s : St) (v : Nat) (val : Int) :
    SearchExt s (push_assignment (setAssign s v val) v) :=
  ⟨sameSkeleton_opAssign s v val, ⟨[.assignment v], rfl⟩⟩

theorem pureAssignLoop_searchInv (pos neg : List Bool) :
    ∀ (L : List Nat) (s : St) (purity : List Bool), SearchInv s →
      SearchInv (pureAssignLoop pos neg (s, purity) L).1 ∧
      SearchExt s (pureAssignLoop pos neg (s, purity) L).1 := by
  intro L
  induction L with
  | nil =>
    intro s purity hinv
    exact ⟨hinv, searchExt_refl s⟩
  | cons v0 rest ih =>
    intro s purity hinv
    show SearchInv (pureAssignLoop pos neg _ (v0 :: rest)).1 ∧ _
    unfold pureAssignLoop
    cases hb1 : s.assign.getD v0 (-1) == -1 with
    | false =>
      rw [if_pos (by decide)]
      exact ih s purity hinv
    | true =>
      rw [if_neg (by decide)]
      have hun : s.assign.getD v0 (-1) = -1 := by simpa using hb1
      cases hb2 : pos.getD v0 false && !neg.getD v0 false with
      | true =>
        rw [if_pos rfl]
        obtain ⟨ha, hb⟩ := ih (push_assignment (setAssign s v0 1) v0) (purity.set v0 true)
          (searchInv_opAssign 1 hun hinv)
        exact ⟨ha, searchExt_trans (searchExt_opAssign s v0 1) hb⟩
      | false =>
        rw [if_neg (by decide)]
        cases hb3 : !pos.getD v0 false && neg.getD v0 false with
        | true =>
          rw [if_pos rfl]
          obtain ⟨ha, hb⟩ := ih (push_assignment (setAssign s v0 0) v0) (purity.set v0 true)
            (searchInv_opAssign 0 hun hinv)
          exact ⟨ha, searchExt_trans (searchExt_opAssign s v0 0) hb⟩
        | false =>
          rw [if_neg (by decide)]
          exact ih s purity hinv

theorem pureSweepAux_searchInv (purity : List Bool) (m : St) :
    ∀ (L : List Nat) (cur : St), SearchInv cur →
    cur.assign = m.assign →
    (∀ i, (cur.clauses.getD i emptyClause).lits = (m.clauses.getD i emptyClause).lits) →
    (∀ i, (m.clauses.getD i emptyClause).satisfied = true →
      (cur.clauses.getD i emptyClause).satisfied = true) →
    (∀ i l, l ∈ (m.clauses.getD i emptyClause).lits → purity.getD l.var false = true →
      (m.clauses.getD i emptyClause).satisfied = false → litSatAt m.assign l = true) →
    SearchInv (L.foldl (fun s i =>
      if (s.clauses.getD i emptyClause).lits.any (fun l => purity.getD l.var false) then
        push_clause_satisfy (setSatisfied s i) i
      else s) cur) ∧
    FlagsOnlyExt cur (L.foldl (fun s i =>
      if (s.clauses.getD i emptyClause).lits.any (fun l => purity.getD l.var false) then
        push_clause_satisfy (setSatisfied s i) i
      else s) cur) := by
  intro L
  induction L with
  | nil =>
    intro cur hinv _ _ _ _
    exact ⟨hinv, flagsOnlyExt_refl cur⟩
  | cons j L' ih =>
    intro cur hinv hassign hlits hmono H
    have hred : (j :: L').foldl (fun s i =>
        if (s.clauses.getD i emptyClause).lits.any (fun l => purity.getD l.var false) then
          push_clause_satisfy (setSatisfied s i) i
        else s) cur
      = L'.foldl (fun s i =>
        if (s.clauses.getD i emptyClause).lits.any (fun l => purity.getD l.var false) then
          push_clause_satisfy (setSatisfied s i) i
        else s)
        (if (cur.clauses.getD j emptyClause).lits.any (fun l => purity.getD l.var false) then
          push_clause_satisfy (setSatisfied cur j) j
        else cur) := rfl
    rw [hred]
    by_cases hpure : (cur.clauses.getD j emptyClause).lits.any
        (fun l => purity.getD l.var false) = true
    · rw [if_pos hpure]
      have htrue : clauseHasTrueLit cur.assign (cur.clauses.getD j emptyClause).lits = true := by
        by_cases hcf : (cur.clauses.getD j emptyClause).satisfied = true
        · have h0 : flagsJustified cur = true := hinv.1 0
          exact (flagsJustified_iff cur).1 h0 j hcf
        · have hmf : (m.clauses.getD j emptyClause).satisfied = false := by
            cases hmfc : (m.clauses.getD j emptyClause).satisfied with
            | true => exact absurd (hmono j hmfc) hcf
            | false => rfl
          obtain ⟨l, hlm, hlp⟩ := List.any_eq_true.1 hpure
          have hlm' : l ∈ (m.clauses.getD j emptyClause).lits := by
            rw [← hlits j]
            exact hlm
          have hls := H j l hlm' hlp hmf
          unfold clauseHasTrueLit
          rw [List.any_eq_true]
          refine ⟨l, hlm, ?_⟩
          rw [hassign]
          exact hls
      have hinv1 := searchInv_opSatisfy htrue hinv
      have hext1 := flagsOnlyExt_opSatisfy cur j
      obtain ⟨ha, hb⟩ := ih (push_clause_satisfy (setSatisfied cur j) j) hinv1
        (hext1.1.trans hassign)
        (fun i => (hext1.2.2.2.2.2.1 i).trans (hlits i))
        (fun i hh => hext1.2.2.2.2.2.2.1 i (hmono i hh)) H
      exact ⟨ha, flagsOnlyExt_trans hext1 hb⟩
    · rw [if_neg hpure]
      exact ih cur hinv hassign hlits hmono H

theorem searchInv_pure_elim (s : St) (hinv : SearchInv s) :
    SearchInv (pure_literal_elimination s).2 ∧ SearchExt s (pure_literal_elimination s).2 := by
  obtain ⟨hinvm, hextm⟩ := pureAssignLoop_searchInv (pureScan s).1 (pureScan s).2
    ((List.range s.numVars).map (· + 1)) s (List.replicate (s.numVars + 1) false) hinv
  have hinvm' : SearchInv (pureMidState s) := hinvm
  have hextm' : SearchExt s (pureMidState s) := hextm
  have hmc : (pureMidState s).clauses = s.clauses :=
    (pureAssignLoop_skeleton (pureScan s).1 (pureScan s).2
      ((List.range s.numVars).map (· + 1)) s (List.replicate (s.numVars + 1) false)).1
  have H : ∀ i l, l ∈ ((pureMidState s).clauses.getD i emptyClause).lits →
      (pureVector s).getD l.var false = true →
      ((pureMidState s).clauses.getD i emptyClause).satisfied = false →
      litSatAt (pureMidState s).assign l = true := by
    intro i l hlm hlp hmf
    rw [hmc] at hlm hmf
    have hil : i < s.clauses.length := by
      by_contra hge
      rw [getD_eq_default _ _ (Nat.le_of_not_lt hge)] at hlm
      simp [emptyClause] at hlm
    have hbounds := hinv.2.2.2.1 i l hlm
    have hnodup : ((List.range s.numVars).map (· + 1)).Nodup :=
      (List.nodup_range _).map (fun a b hab => by omega)
    have hpl : ∀ w ∈ (List.range s.numVars).map (· + 1),
        w < (List.replicate (s.numVars + 1) (false : Bool)).length := by
      intro w hw
      rw [List.length_replicate]
      obtain ⟨j, hj, rfl⟩ := List.mem_map.1 hw
      rw [List.mem_range] at hj
      omega
    have hal : ∀ w ∈ (List.range s.numVars).map (· + 1), w < s.assign.length := by
      intro w hw
      rw [hinv.2.2.2.2]
      obtain ⟨j, hj, rfl⟩ := List.mem_map.1 hw
      rw [List.mem_range] at hj
      omega
    have helim := pureAssignLoop_purity_elim (pureScan s).1 (pureScan s).2
      ((List.range s.numVars).map (· + 1)) s (List.replicate (s.numVars + 1) false)
      hnodup hpl hal l.var hlp
    rcases helim with hleft | ⟨_, hsun, hcase⟩
    · rw [getD_replicate] at hleft
      exact absurd hleft (by simp)
    · have hcmem : s.clauses.getD i emptyClause ∈ s.clauses := getD_mem_of_lt _ _ _ hil
      obtain ⟨k1, k2⟩ := pureScan_complete hcmem hmf hlm ((litUnassigned_iff _ _).2 hsun)
        (by omega)
      rcases hcase with ⟨hpos, hneg, hval⟩ | ⟨hpos, hneg, hval⟩
      · cases hln : l.neg with
        | false =>
          have hval' : (pureMidState s).assign.getD l.var (-1) = 1 := hval
          unfold litSatAt
          rw [hln, hval']
          simp
        | true =>
          have hcontra := k1 hln
          rw [hneg] at hcontra
          exact absurd hcontra (by simp)
      · cases hln : l.neg with
        | true =>
          have hval' : (pureMidState s).assign.getD l.var (-1) = 0 := hval
          unfold litSatAt
          rw [hln, hval']
          simp
        | false =>
          have hcontra := k2 hln
          rw [hpos] at hcontra
          exact absurd hcontra (by simp)
  obtain ⟨hfin, hfext⟩ := pureSweepAux_searchInv (pureVector s) (pureMidState s)
    (List.range (pureMidState s).clauses.length) (pureMidState s) hinvm' rfl
    (fun _ => rfl) (fun _ h => h) H
  have heq : (pure_literal_elimination s).2
      = pureSweep (pureVector s) (pureMidState s) := rfl
  rw [heq]
  exact ⟨hfin, searchExt_trans hextm' (searchExt_of_flagsOnlyExt hfext)⟩

set_option maxHeartbeats 2000000 in
theorem dpll_master (pf : Nat) : ∀ (fuel : Nat) (s : St), SearchInv s →
    SearchInv (dpll pf fuel s).2 ∧ SearchExt s (dpll pf fuel s).2 ∧
    ((dpll pf fuel s).1 = .SAT → allFlagged (dpll pf fuel s).2 = true) := by
  intro fuel
  induction fuel with
  | zero =>
    intro s hinv
    exact ⟨hinv, searchExt_refl s,
      fun hc => absurd hc (by decide : ¬(DPLLResult.TIMEOUT = DPLLResult.SAT))⟩
  | succ fuel ih =>
    intro s hinv
    simp only [dpll]
    obtain ⟨hp1, hp2⟩ := searchInv_unit_propagate pf s hinv
    cases hb1 : (unit_propagate_2watchlit pf s).1 with
    | false =>
      rw [Bool.not_false, if_pos rfl]
      obtain ⟨ext1, hext1⟩ := hp2.2
      refine ⟨searchInv_undo_to_checkpoint hp1 s.trail,
        ⟨sameSkeleton_trans hp2.1 (sameSkeleton_undoN _ _), ⟨[], ?_⟩⟩,
        fun hc => absurd hc (by decide : ¬(DPLLResult.UNSAT = DPLLResult.SAT))⟩
      rw [undo_to_checkpoint_trail hext1, List.nil_append]
    | true =>
      rw [Bool.not_true]
      have hneg : ¬(false = true) := by decide
      rw [if_neg hneg]
      obtain ⟨hq1, hq2⟩ := searchInv_pure_elim (unit_propagate_2watchlit pf s).2 hp1
      have hps : (pure_literal_elimination (unit_propagate_2watchlit pf s).2).1 = true := rfl
      rw [hps, Bool.not_true, if_neg hneg]
      obtain ⟨hr1, hr2, hr3⟩ := searchInv_driverSweep hq1
      have hext3 : SearchExt s
          (driverSweep (pure_literal_elimination (unit_propagate_2watchlit pf s).2).2).2 :=
        searchExt_trans hp2 (searchExt_trans hq2 (searchExt_of_flagsOnlyExt hr2))
      cases hb3 : (driverSweep
          (pure_literal_elimination (unit_propagate_2watchlit pf s).2).2).1 with
      | true =>
        rw [if_pos rfl]
        exact ⟨hr1, hext3, fun _ => hr3 hb3⟩
      | false =>
        rw [if_neg hneg]
        cases hpick : pick_unassigned_variable
            (driverSweep (pure_literal_elimination (unit_propagate_2watchlit pf s).2).2).2 with
        | none =>
          dsimp only
          exact ⟨hr1, hext3,
            fun hc => absurd hc (by decide : ¬(DPLLResult.UNSAT = DPLLResult.SAT))⟩
        | some x =>
          dsimp only
          set s3 := (driverSweep
            (pure_literal_elimination (unit_propagate_2watchlit pf s).2).2).2 with hs3
          have hinv3 : SearchInv s3 := hr1
          have hx3 : s3.assign.getD x (-1) = -1 := pick_some_unassigned hpick
          set s4 := satisfy_clauses_after_assignment
            (push_assignment (setAssign s3 x 0) x) with hs4
          have hinv4a : SearchInv (push_assignment (setAssign s3 x 0) x) :=
            searchInv_opAssign 0 hx3 hinv3
          obtain ⟨hinv4, hext4f⟩ := searchInv_satisfy_clauses hinv4a
          have hext4 : SearchExt s3 s4 :=
            searchExt_trans (searchExt_opAssign s3 x 0) (searchExt_of_flagsOnlyExt hext4f)
          obtain ⟨hinvb1, hextb1, hsatb1⟩ := ih s4 hinv4
          by_cases hbr : (dpll pf fuel s4).1 = .UNSAT
          · rw [if_pos hbr]
            obtain ⟨extb1, hextb1t⟩ := hextb1.2
            obtain ⟨ext4s, hext4s⟩ := hext4f.2.2.2.2.2.2.2
            have hpat : (push_assignment (setAssign s3 x 0) x).trail
                = .assignment x :: s3.trail := rfl
            have hs4t : s4.trail = ext4s ++ (.assignment x :: s3.trail) := by
              rw [hext4s, hpat]
            have hb12t : (dpll pf fuel s4).2.trail
                = (extb1 ++ ext4s) ++ (.assignment x :: s3.trail) := by
              rw [hextb1t, hs4t, List.append_assoc]
            have hx5 : (undo_to_checkpoint (dpll pf fuel s4).2 s3.trail).assign.getD x (-1)
                = -1 := undo_to_checkpoint_assign_head hb12t
            have hb12t' : (dpll pf fuel s4).2.trail
                = ((extb1 ++ ext4s) ++ [UndoEntry.assignment x]) ++ s3.trail := by
              rw [hb12t]
              simp
            have hs5t : (undo_to_checkpoint (dpll pf fuel s4).2 s3.trail).trail = s3.trail :=
              undo_to_checkpoint_trail hb12t'
            set s5 := undo_to_checkpoint (dpll pf fuel s4).2 s3.trail with hs5
            have hinv5 : SearchInv s5 := searchInv_undo_to_checkpoint hinvb1 s3.trail
            have hext5 : SearchExt s3 s5 :=
              ⟨sameSkeleton_trans hext4.1 (sameSkeleton_trans hextb1.1
                (sameSkeleton_undoN _ _)),
               ⟨[], by rw [hs5t, List.nil_append]⟩⟩
            set s6 := satisfy_clauses_after_assignment
              (push_assignment (setAssign s5 x 1) x) with hs6
            have hinv6a : SearchInv (push_assignment (setAssign s5 x 1) x) :=
              searchInv_opAssign 1 hx5 hinv5
            obtain ⟨hinv6, hext6f⟩ := searchInv_satisfy_clauses hinv6a
            have hext6 : SearchExt s5 s6 :=
              searchExt_trans (searchExt_opAssign s5 x 1) (searchExt_of_flagsOnlyExt hext6f)
            obtain ⟨hinvb2, hextb2, hsatb2⟩ := ih s6 hinv6
            by_cases hbr2 : (dpll pf fuel s6).1 = .UNSAT
            · rw [if_pos hbr2]
              obtain ⟨extb2, hextb2t⟩ := hextb2.2
              obtain ⟨ext6s, hext6s⟩ := hext6f.2.2.2.2.2.2.2
              obtain ⟨ext3, hext3t⟩ := hext3.2
              have hpat6 : (push_assignment (setAssign s5 x 1) x).trail
                  = .assignment x :: s5.trail := rfl
              have hbig : (dpll pf fuel s6).2.trail
                  = (extb2 ++ ext6s ++ (UndoEntry.assignment x :: (ext3 : List UndoEntry)))
                    ++ s.trail := by
                rw [hextb2t, hext6s, hpat6, hs5t, hext3t]
                simp
              refine ⟨searchInv_undo_to_checkpoint hinvb2 s.trail,
                ⟨?_, ⟨[], ?_⟩⟩,
                fun hc => absurd hc (by decide : ¬(DPLLResult.UNSAT = DPLLResult.SAT))⟩
              · exact sameSkeleton_trans hext3.1 (sameSkeleton_trans hext5.1
                  (sameSkeleton_trans hext6.1 (sameSkeleton_trans hextb2.1
                    (sameSkeleton_undoN _ _))))
              · rw [undo_to_checkpoint_trail hbig, List.nil_append]
            · rw [if_neg hbr2]
              exact ⟨hinvb2,
                searchExt_trans hext3 (searchExt_trans hext5 (searchExt_trans hext6 hextb2)),
                hsatb2⟩
          · rw [if_neg hbr]
            exact ⟨hinvb1, searchExt_trans hext3 (searchExt_trans hext4 hextb1), hsatb1⟩

theorem initState_lits (numVars : Nat) (clauses : List (List Literal)) (i : Nat) :
    ((initState numVars clauses).clauses.getD i emptyClause).lits = clauses.getD i [] := by
  show ((clauses.map (fun ls => (⟨ls, false⟩ : Clause))).getD i emptyClause).lits = _
  rcases Nat.lt_or_ge i clauses.length with hi | hi
  · rw [List.getD_eq_getElem?_getD, List.getElem?_eq_getElem (by simpa using hi)]
    rw [List.getElem_map]
    rw [List.getD_eq_getElem?_getD, List.getElem?_eq_getElem hi]
    rfl
  · rw [getD_eq_default _ _ (by simpa using hi), getD_eq_default _ _ hi]
    rfl

theorem initState_flag (numVars : Nat) (clauses : List (List Literal)) (i : Nat) :
    ((initState numVars clauses).clauses.getD i emptyClause).satisfied = false := by
  show ((clauses.map (fun ls => (⟨ls, false⟩ : Clause))).getD i emptyClause).satisfied = _
  rcases Nat.lt_or_ge i clauses.length with hi | hi
  · rw [List.getD_eq_getElem?_getD, List.getElem?_eq_getElem (by simpa using hi)]
    rw [List.getElem_map]
    rfl
  · rw [getD_eq_default _ _ (by simpa using hi)]
    rfl

theorem goodTrail_initState (numVars : Nat) (clauses : List (List Literal)) :
    GoodTrail (initState numVars clauses) := by
  intro k
  rw [undoN_of_trail_nil rfl]
  rw [flagsJustified_iff]
  intro i hflag
  rw [initState_flag] at hflag
  exact absurd hflag (by simp)

theorem wkeys_set_append {n : Nat} {cs : List (List Literal)} {w : List (List Nat)}
    {k v : Nat}
    (hw : ∀ idx, idx < w.length → ∀ ci ∈ w.getD idx [],
      ∃ l ∈ cs.getD ci [], watchlist_index l n = idx)
    (hj : ∃ l ∈ cs.getD v [], watchlist_index l n = k) :
    ∀ idx, idx < (w.set k (w.getD k [] ++ [v])).length →
      ∀ ci ∈ (w.set k (w.getD k [] ++ [v])).getD idx [],
        ∃ l ∈ cs.getD ci [], watchlist_index l n = idx := by
  intro idx hidx ci hci
  have hidx' : idx < w.length := by
    have := List.length_set w k (w.getD k [] ++ [v])
    omega
  rcases eq_or_ne k idx with rfl | hne
  · rcases Nat.lt_or_ge k w.length with hk | hk
    · rw [getD_set_self _ _ _ _ hk] at hci
      rcases List.mem_append.1 hci with hold | hnew
      · exact hw k hk ci hold
      · have : ci = v := by simpa using hnew
        subst this
        exact hj
    · rw [List.set_eq_of_length_le hk] at hci
      exact hw k hidx' ci hci
  · rw [getD_set_ne _ _ _ hne] at hci
    exact hw idx hidx' ci hci

theorem initWatchAux_keys (n : Nat) (cs : List (List Literal)) :
    ∀ (L : List Nat) (w : List (List Nat)),
    (∀ idx, idx < w.length → ∀ ci ∈ w.getD idx [],
      ∃ l ∈ cs.getD ci [], watchlist_index l n = idx) →
    ∀ idx, idx < (L.foldl (fun w i =>
        match cs.getD i [] with
        | [] => w
        | [l0] =>
          w.set (watchlist_index l0 n) (w.getD (watchlist_index l0 n) [] ++ [i])
        | l0 :: l1 :: _ =>
          let w1 := w.set (watchlist_index l0 n) (w.getD (watchlist_index l0 n) [] ++ [i])
          w1.set (watchlist_index l1 n) (w1.getD (watchlist_index l1 n) [] ++ [i])) w).length →
      ∀ ci ∈ (L.foldl (fun w i =>
        match cs.getD i [] with
        | [] => w
        | [l0] =>
          w.set (watchlist_index l0 n) (w.getD (watchlist_index l0 n) [] ++ [i])
        | l0 :: l1 :: _ =>
          let w1 := w.set (watchlist_index l0 n) (w.getD (watchlist_index l0 n) [] ++ [i])
          w1.set (watchlist_index l1 n) (w1.getD (watchlist_index l1 n) [] ++ [i])) w).getD
          idx [],
        ∃ l ∈ cs.getD ci [], watchlist_index l n = idx := by
  intro L
  induction L with
  | nil => intro w hw; exact hw
  | cons j L' ih =>
    intro w hw
    rw [List.foldl_cons]
    dsimp only
    cases hgd : cs.getD j [] with
    | nil =>
      dsimp only
      exact ih w hw
    | cons l0 tl =>
      cases htl : tl with
      | nil =>
        dsimp only
        refine ih _ (wkeys_set_append hw ?_)
        refine ⟨l0, ?_, rfl⟩
        rw [hgd, htl]
        exact List.mem_cons_self _ _
      | cons l1 tl2 =>
        dsimp only
        have hj0 : ∃ l ∈ cs.getD j [], watchlist_index l n = watchlist_index l0 n := by
          refine ⟨l0, ?_, rfl⟩
          rw [hgd]
          exact List.mem_cons_self _ _
        have hj1 : ∃ l ∈ cs.getD j [], watchlist_index l n = watchlist_index l1 n := by
          refine ⟨l1, ?_, rfl⟩
          rw [hgd, htl]
          exact List.mem_cons_of_mem _ (List.mem_cons_self _ _)
        exact ih _ (wkeys_set_append (wkeys_set_append hw hj0) hj1)

theorem watchKeysOKb_initState (numVars : Nat) (clauses : List (List Literal)) :
    watchKeysOKb (initState numVars clauses) = true := by
  rw [watchKeysOKb_iff]
  intro idx hidx ci hci
  have hbase : ∀ idx, idx < (List.replicate (2 * numVars + 1)
      ([] : List Nat)).length → ∀ ci ∈ (List.replicate (2 * numVars + 1)
      ([] : List Nat)).getD idx [],
      ∃ l ∈ clauses.getD ci [], watchlist_index l numVars = idx := by
    intro idx _ ci hci
    rw [getD_replicate] at hci
    exact absurd hci (by simp)
  have hmain := initWatchAux_keys numVars clauses (List.range clauses.length)
    (List.replicate (2 * numVars + 1) []) hbase idx hidx ci hci
  obtain ⟨l, hl, hk⟩ := hmain
  refine ⟨l, ?_, hk⟩
  rw [initState_lits]
  exact hl

theorem searchInv_initState (numVars : Nat) (clauses : List (List Literal))
    (hwf : WfFormula numVars clauses) : SearchInv (initState numVars clauses) := by
  refine ⟨goodTrail_initState numVars clauses, watchKeysOKb_initState numVars clauses,
    ?_, ?_, ?_⟩
  · rw [trailKeysOKb_iff]
    intro idx ci hmem
    exact absurd hmem (by simp [initState])
  · intro i l hl
    rw [initState_lits] at hl
    have hil : i < clauses.length := by
      by_contra hge
      rw [getD_eq_default _ _ (Nat.le_of_not_lt hge)] at hl
      simp at hl
    have hmem : clauses.getD i [] ∈ clauses := getD_mem_of_lt _ _ _ hil
    exact hwf _ hmem l hl
  · show (List.replicate (numVars + 1) (-1 : Int)).length = numVars + 1
    exact List.length_replicate _ _

theorem dpll_sound_post (numVars : Nat) (cs' : List (List Literal)) (pf fuel : Nat)
    (hwf : WfFormula numVars cs')
    (hsat : (dpll pf fuel (initState numVars cs')).1 = .SAT) :
    ∀ c ∈ cs', ∃ l ∈ c,
      litSatAt (dpll pf fuel (initState numVars cs')).2.assign l = true := by
  obtain ⟨hinv, hext, hall⟩ := dpll_master pf fuel _ (searchInv_initState numVars cs' hwf)
  have haf := hall hsat
  have hfj : flagsJustified (dpll pf fuel (initState numVars cs')).2 = true := hinv.1 0
  intro c hc
  obtain ⟨i, hi, hceq⟩ := List.getElem_of_mem hc
  have hleni : (initState numVars cs').clauses.length = cs'.length := List.length_map _ _
  have hlen : (dpll pf fuel (initState numVars cs')).2.clauses.length = cs'.length := by
    rw [← hext.1.2.2.1]
    exact hleni
  have hflag : ((dpll pf fuel (initState numVars cs')).2.clauses.getD i
      emptyClause).satisfied = true :=
    (allFlagged_iff _).1 haf i (by omega)
  have htrue := (flagsJustified_iff _).1 hfj i hflag
  have hlits : ((dpll pf fuel (initState numVars cs')).2.clauses.getD i emptyClause).lits
      = c := by
    rw [← hext.1.2.2.2.1 i, initState_lits]
    rw [List.getD_eq_getElem?_getD, List.getElem?_eq_getElem hi, hceq]
    rfl
  rw [hlits] at htrue
  unfold clauseHasTrueLit at htrue
  obtain ⟨l, hl, hls⟩ := List.any_eq_true.1 htrue
  exact ⟨l, hl, hls⟩

theorem subsumption_lift (cs : List (List Literal)) (T : Literal → Prop)
    (hwf : ∀ c ∈ cs, ∀ l ∈ c, 1 ≤ l.var)
    (h : ∀ c ∈ remove_supersets cs, ∃ l ∈ c, T l) :
    ∀ c ∈ cs, ∃ l ∈ c, T l := by
  intro c hc
  obtain ⟨i, hi, hceq⟩ := List.getElem_of_mem hc
  have hgd : cs.getD i [] = c := by
    rw [List.getD_eq_getElem?_getD, List.getElem?_eq_getElem hi, hceq]
    rfl
  cases hm : (supersetMarks cs).getD i false with
  | false =>
    have := h _ (kept_mem_remove_supersets hi hm)
    rw [hgd] at this
    exact this
  | true =>
    obtain ⟨j, hj, hjm, hsub⟩ := supersetMarks_chain cs cs.length i (by omega) hm
    have hkept := h _ (kept_mem_remove_supersets hj hjm)
    have hwj : ∀ l ∈ cs.getD j [], 1 ≤ l.var :=
      fun l hl => (hwf _ (getD_mem_of_lt _ _ _ hj) l hl)
    have hwi : ∀ l ∈ cs.getD i [], 1 ≤ l.var :=
      fun l hl => (hwf _ (getD_mem_of_lt _ _ _ hi) l hl)
    have := clause_subset_truth T hsub hwj hwi hkept
    rw [hgd] at this
    exact this

theorem dpll_sound_full (numVars : Nat) (cs : List (List Literal)) (pf fuel : Nat)
    (hwf : WfFormula numVars cs)
    (hsat : (dpll pf fuel (initState numVars (remove_supersets cs))).1 = .SAT) :
    ∀ c ∈ cs, ∃ l ∈ c,
      litSatAt (dpll pf fuel (initState numVars (remove_supersets cs))).2.assign l
        = true := by
  have hwf' : WfFormula numVars (remove_supersets cs) := by
    intro c hc l hl
    obtain ⟨i, hi, _, hceq⟩ := mem_remove_supersets hc
    have hmem : cs.getD i [] ∈ cs := getD_mem_of_lt _ _ _ hi
    exact hwf _ hmem l (by rw [← hceq]; exact hl)
  have hpost := dpll_sound_post numVars (remove_supersets cs) pf fuel hwf' hsat
  exact subsumption_lift cs _ (fun c hc l hl => (hwf c hc l hl).1) hpost

theorem litTrue_of_litSatAt {a : List Int} {l : Literal} (h : litSatAt a l = true) :
    litTrue (assignValuation a) l := by
  unfold litSatAt at h
  unfold litTrue assignValuation
  cases hn : l.neg with
  | true =>
    rw [hn] at h
    simp only [Bool.not_true, Bool.and_false, Bool.or_false, Bool.and_true] at h
    have ha : a.getD l.var (-1) = 0 := by simpa using h
    rw [ha]
    rfl
  | false =>
    rw [hn] at h
    simp only [Bool.not_false, Bool.and_false, Bool.false_or, Bool.and_true] at h
    have ha : a.getD l.var (-1) = 1 := by simpa using h
    rw [ha]
    rfl

/-- C1: soundness.  Whenever `dpll`, run as `main` runs it on the
post-subsumption formula, returns the verdict SAT for a wellformed
parsed formula, the assignment vector at that moment makes every clause
of the original pre-subsumption formula true: every clause — including
the ones `remove_supersets` removed — contains a literal whose variable
is assigned exactly the value that literal requires. -/
theorem dpll_sat_sound (numVars : Nat) (cs : List (List Literal)) (pf fuel : Nat)
    (hwf : WfFormula numVars cs)
    (hsat : (dpll pf fuel (initState numVars (remove_supersets cs))).1 = .SAT) :
    ∀ c ∈ cs, ∃ l ∈ c,
      litSatAt (dpll pf fuel (initState numVars (remove_supersets cs))).2.assign l
        = true :=
  dpll_sound_full numVars cs pf fuel hwf hsat

/-- C1 witness: the one-clause formula `x1`, solved with fuel 3. -/
theorem dpll_sat_sound_witness :
    WfFormula 1 [[⟨1, false⟩]] ∧
    (dpll 4 3 (initState 1 (remove_supersets [[⟨1, false⟩]]))).1 = .SAT ∧
    (∀ c ∈ [[(⟨1, false⟩ : Literal)]], ∃ l ∈ c,
      litSatAt (dpll 4 3 (initState 1 (remove_supersets [[⟨1, false⟩]]))).2.assign l
        = true) := by
  have hwf : WfFormula 1 [[⟨1, false⟩]] := by
    intro c hc l hl
    rw [List.mem_singleton] at hc
    subst hc
    rw [List.mem_singleton] at hl
    subst hl
    exact ⟨Nat.le_refl 1, Nat.le_refl 1⟩
  exact ⟨hwf, by decide, dpll_sat_sound 1 [[⟨1, false⟩]] 4 3 hwf (by decide)⟩

/-- C3: refutational completeness.  For every wellformed unsatisfiable
input formula, if the deadline never fires during the search (the
result is not TIMEOUT, fuel exhaustion being the model of
`timeout_exceeded`), the top-level `dpll` call on the post-subsumption
formula returns UNSAT — it can never return SAT, since a SAT verdict
would exhibit a satisfying valuation. -/
theorem unsat_dpll_returns_unsat (numVars : Nat) (cs : List (List Literal)) (pf fuel : Nat)
    (hwf : WfFormula numVars cs) (hunsat : ¬ Satisfiable cs)
    (hnt : (dpll pf fuel (initState numVars (remove_supersets cs))).1 ≠ .TIMEOUT) :
    (dpll pf fuel (initState numVars (remove_supersets cs))).1 = .UNSAT := by
  cases hres : (dpll pf fuel (initState numVars (remove_supersets cs))).1 with
  | SAT =>
    exfalso
    apply hunsat
    refine ⟨assignValuation (dpll pf fuel (initState numVars (remove_supersets cs))).2.assign,
      fun c hc => ?_⟩
    obtain ⟨l, hl, hls⟩ := dpll_sound_full numVars cs pf fuel hwf hres c hc
    exact ⟨l, hl, litTrue_of_litSatAt hls⟩
  | UNSAT => rfl
  | TIMEOUT => exact absurd hres hnt

/-- C3 witness: the contradiction `x1 ∧ not x1`, refuted with fuel 3. -/
theorem unsat_dpll_returns_unsat_witness :
    WfFormula 1 contraFormula ∧ (¬ Satisfiable contraFormula) ∧
    (dpll 6 3 (initState 1 (remove_supersets contraFormula))).1 ≠ .TIMEOUT ∧
    (dpll 6 3 (initState 1 (remove_supersets contraFormula))).1 = .UNSAT := by
  have hwf : WfFormula 1 contraFormula := by
    intro c hc l hl
    unfold contraFormula at hc
    rcases List.mem_cons.1 hc with rfl | hc'
    · rw [List.mem_singleton] at hl
      subst hl
      exact ⟨Nat.le_refl 1, Nat.le_refl 1⟩
    · rw [List.mem_singleton] at hc'
      subst hc'
      rw [List.mem_singleton] at hl
      subst hl
      exact ⟨Nat.le_refl 1, Nat.le_refl 1⟩
  have hu : ¬ Satisfiable contraFormula := by
    rintro ⟨σ, hσ⟩
    have h1 := hσ [⟨1, false⟩] (by unfold contraFormula; exact List.mem_cons_self _ _)
    have h2 := hσ [⟨1, true⟩]
      (by unfold contraFormula; exact List.mem_cons_of_mem _ (List.mem_cons_self _ _))
    obtain ⟨l1, hl1, ht1⟩ := h1
    obtain ⟨l2, hl2, ht2⟩ := h2
    rw [List.mem_singleton] at hl1 hl2
    subst hl1
    subst hl2
    unfold litTrue at ht1 ht2
    simp only at ht1 ht2
    rw [ht1] at ht2
    exact absurd ht2 (by decide)
  exact ⟨hwf, hu, by decide, unsat_dpll_returns_unsat 1 contraFormula 6 3 hwf hu (by decide)⟩

/-- C7 (amended): after the driver sweep, the `dpll` body proceeds
directly to the branching heuristic; it returns UNSAT at that point —
with the post-sweep state unchanged, no rewind (the caller rewinds) —
exactly when `pick_unassigned_variable` finds no unassigned variable.
No check for a fully-falsified clause exists: a fully-falsified
unsatisfied clause does not trigger this exit while unassigned
variables remain (see the counterexample). -/
theorem dpll_post_sweep_unsat_on_pick_failure (pf fuel : Nat) (s : St)
    (h1 : (unit_propagate_2watchlit pf s).1 = true)
    (h3 : (driverSweep (pure_literal_elimination (unit_propagate_2watchlit pf s).2).2).1
      = false)
    (h4 : pick_unassigned_variable (postSweepState pf s) = none) :
    dpll pf (fuel + 1) s = (.UNSAT, postSweepState pf s) := by
  have hneg : ¬(false = true) := by decide
  simp only [dpll]
  rw [h1, Bool.not_true, if_neg hneg]
  have hps : (pure_literal_elimination (unit_propagate_2watchlit pf s).2).1 = true := rfl
  rw [hps, Bool.not_true, if_neg hneg]
  rw [h3, if_neg hneg]
  have h4' : pick_unassigned_variable
      (driverSweep (pure_literal_elimination (unit_propagate_2watchlit pf s).2).2).2
      = none := h4
  rw [h4']
  rfl

/-- C7 counterexample: on `c7Formula` with variable 1 pre-assigned true,
clause 1 (`not x1`) is unsatisfied and fully falsified right after the
driver sweep, yet the branching heuristic still finds the unassigned
variable 4 and the call does not return UNSAT at that point (its final
state differs from the post-sweep state: it went on to branch and
rewind), refuting the claimed fully-falsified-clause exit. -/
theorem dpll_conflict_check_missing :
    ((postSweepState 10 c7CexSt).clauses.getD 1 emptyClause).satisfied = false ∧
    ((postSweepState 10 c7CexSt).clauses.getD 1 emptyClause).lits.all
      (litFalsAt (postSweepState 10 c7CexSt).assign) = true ∧
    pick_unassigned_variable (postSweepState 10 c7CexSt) ≠ none ∧
    dpll 10 5 c7CexSt ≠ (.UNSAT, postSweepState 10 c7CexSt) := by
  decide

/-- C7 amended-claim witness: a quiescent state with every variable
assigned and an unsatisfied clause, where the post-sweep exit fires. -/
theorem dpll_post_sweep_unsat_on_pick_failure_witness :
    (unit_propagate_2watchlit 3 c7NoPickSt).1 = true ∧
    (driverSweep (pure_literal_elimination
      (unit_propagate_2watchlit 3 c7NoPickSt).2).2).1 = false ∧
    pick_unassigned_variable (postSweepState 3 c7NoPickSt) = none ∧
    dpll 3 1 c7NoPickSt = (.UNSAT, postSweepState 3 c7NoPickSt) :=
  ⟨by decide, by decide, by decide,
    dpll_post_sweep_unsat_on_pick_failure 3 0 c7NoPickSt (by decide) (by decide) (by decide)⟩

theorem occ_foldl_acc (ci : Nat) : ∀ (ws : List (List Nat)) (acc : Nat),
    ws.foldl (fun acc wl => acc + wl.count ci) acc
      = acc + (ws.map (fun wl => wl.count ci)).sum := by
  intro ws
  induction ws with
  | nil => intro acc; simp
  | cons w ws ih =>
    intro acc
    rw [List.foldl_cons, ih, List.map_cons, List.sum_cons]
    omega

theorem watchOccurrences_eq (s : St) (ci : Nat) :
    watchOccurrences s ci = (s.watch.map (fun wl => wl.count ci)).sum := by
  unfold watchOccurrences
  rw [occ_foldl_acc, Nat.zero_add]

theorem sum_map_set {α : Type} (f : α → Nat) :
    ∀ (l : List α) (k : Nat) (x : α), k < l.length →
      ((l.set k x).map f).sum + f (l.getD k x) = (l.map f).sum + f x := by
  intro l
  induction l with
  | nil => intro k x h; simp at h
  | cons a tl ih =>
    intro k x h
    cases k with
    | zero =>
      simp [List.set]
      omega
    | succ k =>
      have hk : k < tl.length := by
        rw [List.length_cons] at h
        omega
      have := ih k x hk
      simp only [List.set, List.map_cons, List.sum_cons]
      have hgd : (a :: tl).getD (k + 1) x = tl.getD k x := rfl
      rw [hgd]
      omega

theorem watchOcc_set_append {w : List (List Nat)} {k v : Nat} (hk : k < w.length) (ci : Nat) :
    (((w.set k (w.getD k [] ++ [v])).map (fun wl => wl.count ci)).sum)
      = ((w.map (fun wl => wl.count ci)).sum) + (if v = ci then 1 else 0) := by
  have h := sum_map_set (fun wl => wl.count ci) w k (w.getD k [] ++ [v]) hk
  dsimp only at h
  have hgd : w.getD k (w.getD k [] ++ [v]) = w.getD k [] := by
    rw [List.getD_eq_getElem?_getD, List.getD_eq_getElem?_getD,
      List.getElem?_eq_getElem hk]
    rfl
  rw [hgd] at h
  have hcnt : (w.getD k [] ++ [v]).count ci
      = (w.getD k []).count ci + (if v = ci then 1 else 0) := by
    rw [List.count_append]
    congr 1
    rcases eq_or_ne v ci with rfl | hne
    · simp
    · simp [List.count_singleton, hne]
  omega

theorem watchOcc_set_removeFirst {w : List (List Nat)} {k v : Nat} (hk : k < w.length)
    (hv : v ∈ w.getD k []) (ci : Nat) :
    (((w.set k (removeFirst (w.getD k []) v)).map (fun wl => wl.count ci)).sum)
        + (if v = ci then 1 else 0)
      = ((w.map (fun wl => wl.count ci)).sum) := by
  have h := sum_map_set (fun wl => wl.count ci) w k (removeFirst (w.getD k []) v) hk
  dsimp only at h
  have hgd : w.getD k (removeFirst (w.getD k []) v) = w.getD k [] := by
    rw [List.getD_eq_getElem?_getD, List.getD_eq_getElem?_getD,
      List.getElem?_eq_getElem hk]
    rfl
  rw [hgd] at h
  rcases eq_or_ne v ci with rfl | hne
  · have hcnt := count_removeFirst_mem (w.getD k []) v hv
    rw [← hcnt] at h
    rw [if_pos rfl]
    omega
  · have hcnt := count_removeFirst_ne (w.getD k []) v ci (Ne.symm hne)
    simp only [if_neg hne]
    omega

theorem watchKeysOKb_congr {s t : St} (hw : t.watch = s.watch) (hn : t.numVars = s.numVars)
    (hl : ∀ i, (t.clauses.getD i emptyClause).lits = (s.clauses.getD i emptyClause).lits)
    (hk : watchKeysOKb s = true) : watchKeysOKb t = true := by
  rw [watchKeysOKb_iff] at hk ⊢
  intro idx hidx ci hci
  rw [hw] at hidx hci
  obtain ⟨l, hlm, hlk⟩ := hk idx hidx ci hci
  refine ⟨l, ?_, ?_⟩
  · rw [hl ci]
    exact hlm
  · rw [hn]
    exact hlk

theorem watchCountsOKb_congr {s t : St} (hw : t.watch = s.watch)
    (hlen : t.clauses.length = s.clauses.length)
    (hl : ∀ i, (t.clauses.getD i emptyClause).lits = (s.clauses.getD i emptyClause).lits)
    (hc : watchCountsOKb s = true) : watchCountsOKb t = true := by
  rw [watchCountsOKb_iff] at hc ⊢
  intro ci hci
  rw [hlen] at hci
  rw [watchOccurrences_eq, hw, ← watchOccurrences_eq, hl ci]
  exact hc ci hci

theorem varsOK_congr {s t : St} (hn : t.numVars = s.numVars)
    (hl : ∀ i, (t.clauses.getD i emptyClause).lits = (s.clauses.getD i emptyClause).lits)
    (hv : VarsOK s) : VarsOK t := by
  intro i l hli
  rw [hl i] at hli
  rw [hn]
  exact hv i l hli

theorem markFold_fields (L : List Nat) : ∀ (s : St),
    (L.foldl (fun s indexc =>
      if (s.clauses.getD indexc emptyClause).satisfied then s
      else push_clause_satisfy (setSatisfied s indexc) indexc) s).watch = s.watch ∧
    (L.foldl (fun s indexc =>
      if (s.clauses.getD indexc emptyClause).satisfied then s
      else push_clause_satisfy (setSatisfied s indexc) indexc) s).numVars = s.numVars ∧
    (L.foldl (fun s indexc =>
      if (s.clauses.getD indexc emptyClause).satisfied then s
      else push_clause_satisfy (setSatisfied s indexc) indexc) s).clauses.length
        = s.clauses.length ∧
    (∀ i, ((L.foldl (fun s indexc =>
      if (s.clauses.getD indexc emptyClause).satisfied then s
      else push_clause_satisfy (setSatisfied s indexc) indexc) s).clauses.getD i
        emptyClause).lits = (s.clauses.getD i emptyClause).lits) := by
  induction L with
  | nil => exact fun s => ⟨rfl, rfl, rfl, fun _ => rfl⟩
  | cons j L' ih =>
    intro s
    have hstep : ∀ t : St, (j :: L').foldl (fun s indexc =>
        if (s.clauses.getD indexc emptyClause).satisfied then s
        else push_clause_satisfy (setSatisfied s indexc) indexc) t
      = L'.foldl (fun s indexc =>
        if (s.clauses.getD indexc emptyClause).satisfied then s
        else push_clause_satisfy (setSatisfied s indexc) indexc)
        (if (t.clauses.getD j emptyClause).satisfied then t
         else push_clause_satisfy (setSatisfied t j) j) := fun t => rfl
    rw [hstep s]
    by_cases hflag : (s.clauses.getD j emptyClause).satisfied = true
    · rw [if_pos hflag]
      exact ih s
    · rw [if_neg hflag]
      obtain ⟨ha, hb, hc, hd⟩ := ih (push_clause_satisfy (setSatisfied s j) j)
      refine ⟨ha, hb, hc.trans (List.length_set _ _ _), fun i => ?_⟩
      rw [hd i]
      exact setSatisfied_lits s j i

theorem assignAndMark_fields (s : St) (l : Literal) :
    (assignAndMark s l).watch = s.watch ∧
    (assignAndMark s l).numVars = s.numVars ∧
    (assignAndMark s l).clauses.length = s.clauses.length ∧
    (∀ i, ((assignAndMark s l).clauses.getD i emptyClause).lits
      = (s.clauses.getD i emptyClause).lits) := by
  obtain ⟨ha, hb, hc, hd⟩ := markFold_fields
    ((push_assignment (setAssign s l.var (if l.neg then 0 else 1)) l.var).watch.getD
      (watchlist_index l (push_assignment (setAssign s l.var
        (if l.neg then 0 else 1)) l.var).numVars) [])
    (push_assignment (setAssign s l.var (if l.neg then 0 else 1)) l.var)
  exact ⟨ha, hb, hc, hd⟩

theorem watchKeysOKb_watchtable_remove {s : St} {index value : Nat}
    (hk : watchKeysOKb s = true) : watchKeysOKb (watchtable_remove s index value) = true := by
  rw [watchKeysOKb_iff] at hk ⊢
  intro idx hidx ci hci
  have hidx' : idx < s.watch.length := by
    have hlen : (watchtable_remove s index value).watch.length = s.watch.length :=
      List.length_set _ _ _
    omega
  have hci' : ci ∈ (s.watch.set index (removeFirst (s.watch.getD index []) value)).getD
      idx [] := hci
  rcases eq_or_ne index idx with rfl | hne
  · rcases Nat.lt_or_ge index s.watch.length with hrange | hrange
    · rw [getD_set_self _ _ _ _ hrange] at hci'
      exact hk index hrange ci (removeFirst_subset _ _ hci')
    · rw [List.set_eq_of_length_le hrange] at hci'
      exact hk index hidx' ci hci'
  · rw [getD_set_ne _ _ _ hne] at hci'
    exact hk idx hidx' ci hci'

theorem watchKeysOKb_watchtable_add {s : St} {index value : Nat}
    (hj : ∃ l ∈ (s.clauses.getD value emptyClause).lits, watchlist_index l s.numVars = index)
    (hk : watchKeysOKb s = true) : watchKeysOKb (watchtable_add s index value) = true := by
  rw [watchKeysOKb_iff] at hk ⊢
  intro idx hidx ci hci
  have hidx' : idx < s.watch.length := by
    have hlen : (watchtable_add s index value).watch.length = s.watch.length :=
      List.length_set _ _ _
    omega
  have hci' : ci ∈ (s.watch.set index (s.watch.getD index [] ++ [value])).getD idx [] := hci
  rcases eq_or_ne index idx with rfl | hne
  · rcases Nat.lt_or_ge index s.watch.length with hrange | hrange
    · rw [getD_set_self _ _ _ _ hrange] at hci'
      rcases List.mem_append.1 hci' with hold | hnew
      · exact hk index hrange ci hold
      · have : ci = value := by simpa using hnew
        subst this
        exact hj
    · rw [List.set_eq_of_length_le hrange] at hci'
      exact hk index hidx' ci hci'
  · rw [getD_set_ne _ _ _ hne] at hci'
    exact hk idx hidx' ci hci'

theorem watchOccurrences_relocate {s : St} {index indexi indexn : Nat}
    (hilt : index < s.watch.length) (hmem : indexi ∈ s.watch.getD index [])
    (hnlt : indexn < s.watch.length) (ci : Nat) :
    watchOccurrences (watchtable_add (watchtable_remove s index indexi) indexn indexi) ci
      = watchOccurrences s ci := by
  rw [watchOccurrences_eq, watchOccurrences_eq]
  have hw2 : (watchtable_add (watchtable_remove s index indexi) indexn indexi).watch
      = (s.watch.set index (removeFirst (s.watch.getD index []) indexi)).set indexn
        ((s.watch.set index (removeFirst (s.watch.getD index []) indexi)).getD indexn []
          ++ [indexi]) := rfl
  rw [hw2]
  have hlen1 : (s.watch.set index (removeFirst (s.watch.getD index []) indexi)).length
      = s.watch.length := List.length_set _ _ _
  have h2 := @watchOcc_set_append
    (s.watch.set index (removeFirst (s.watch.getD index []) indexi)) indexn indexi
    (by rw [hlen1]; exact hnlt) ci
  have h1 := @watchOcc_set_removeFirst s.watch index indexi hilt hmem ci
  rcases eq_or_ne indexi ci with rfl | hne
  · rw [if_pos rfl] at h1 h2
    omega
  · rw [if_neg hne] at h1 h2
    omega

theorem watchOK_visitLoop (oplit : Literal) (index : Nat) :
    ∀ (fuel : Nat) (i : Nat) (s : St) (q : List Literal),
    s.watch.length = 2 * s.numVars + 1 → VarsOK s →
    watchKeysOKb s = true → watchCountsOKb s = true →
    (visitLoop oplit index fuel i s q).2.1.watch.length
        = 2 * (visitLoop oplit index fuel i s q).2.1.numVars + 1 ∧
    VarsOK (visitLoop oplit index fuel i s q).2.1 ∧
    watchKeysOKb (visitLoop oplit index fuel i s q).2.1 = true ∧
    watchCountsOKb (visitLoop oplit index fuel i s q).2.1 = true := by
  intro fuel
  induction fuel with
  | zero =>
    intro i s q h1 h2 h3 h4
    exact ⟨h1, h2, h3, h4⟩
  | succ fuel ih =>
    intro i s q hwl hv hk hc
    simp only [visitLoop]
    by_cases hi : i < (s.watch.getD index []).length
    · rw [if_pos hi]
      by_cases hcs : (s.clauses.getD ((s.watch.getD index []).getD i 0)
          emptyClause).satisfied = true
      · rw [hcs, if_pos rfl]
        exact ih (i + 1) s q hwl hv hk hc
      · rw [Bool.not_eq_true] at hcs
        have hneg : ¬(false = true) := by decide
        rw [hcs, if_neg hneg]
        cases hfow : findOtherWatcher s ((s.watch.getD index []).getD i 0) oplit
            (s.clauses.getD ((s.watch.getD index []).getD i 0) emptyClause).lits with
        | none =>
          dsimp only
          by_cases hall : (s.clauses.getD ((s.watch.getD index []).getD i 0)
              emptyClause).lits.all (litFalsAt s.assign) = true
          · rw [hall, if_pos rfl]
            exact ⟨hwl, hv, hk, hc⟩
          · rw [Bool.not_eq_true] at hall
            rw [hall, if_neg hneg]
            exact ih (i + 1) s (q ++ [oplit]) hwl hv hk hc
        | some other =>
          dsimp only
          by_cases hos : litSatAt s.assign other = true
          · rw [hos, if_pos rfl]
            exact ih (i + 1) s q hwl hv hk hc
          · rw [Bool.not_eq_true] at hos
            rw [hos, if_neg hneg]
            cases hfnw : findNewWatch s other index
                (s.clauses.getD ((s.watch.getD index []).getD i 0) emptyClause).lits with
            | some indexn =>
              dsimp only
              have hwne : s.watch.getD index [] ≠ [] := by
                intro hcon
                rw [hcon] at hi
                simp at hi
              have hilt : index < s.watch.length := by
                by_contra hge
                exact hwne (getD_eq_default _ _ (Nat.le_of_not_lt hge))
              have hmem : ((s.watch.getD index []).getD i 0) ∈ s.watch.getD index [] :=
                getD_mem_of_lt _ _ _ hi
              obtain ⟨nlit, hnm, hnk⟩ := findNewWatch_some_key hfnw
              have hnb := hv ((s.watch.getD index []).getD i 0) nlit hnm
              have hnlt : indexn < s.watch.length := by
                rw [hwl]
                rw [← hnk]
                unfold watchlist_index
                cases nlit.neg <;> simp <;> omega
              have hk1 : watchKeysOKb (watchtable_remove s index
                  ((s.watch.getD index []).getD i 0)) = true :=
                watchKeysOKb_watchtable_remove hk
              have hjadd : ∃ l ∈ ((watchtable_remove s index
                  ((s.watch.getD index []).getD i 0)).clauses.getD
                  ((s.watch.getD index []).getD i 0) emptyClause).lits,
                  watchlist_index l (watchtable_remove s index
                    ((s.watch.getD index []).getD i 0)).numVars = indexn := ⟨nlit, hnm, hnk⟩
              have hk2 : watchKeysOKb (watchtable_add (watchtable_remove s index
                  ((s.watch.getD index []).getD i 0)) indexn
                  ((s.watch.getD index []).getD i 0)) = true :=
                watchKeysOKb_watchtable_add hjadd hk1
              have hc2 : watchCountsOKb (watchtable_add (watchtable_remove s index
                  ((s.watch.getD index []).getD i 0)) indexn
                  ((s.watch.getD index []).getD i 0)) = true := by
                rw [watchCountsOKb_iff] at hc ⊢
                intro ci hci
                rw [watchOccurrences_relocate hilt hmem hnlt ci]
                exact hc ci hci
              have hwl2 : (watchtable_add (watchtable_remove s index
                  ((s.watch.getD index []).getD i 0)) indexn
                  ((s.watch.getD index []).getD i 0)).watch.length
                  = 2 * (watchtable_add (watchtable_remove s index
                    ((s.watch.getD index []).getD i 0)) indexn
                    ((s.watch.getD index []).getD i 0)).numVars + 1 := by
                show ((s.watch.set index _).set indexn _).length = 2 * s.numVars + 1
                rw [List.length_set, List.length_set]
                exact hwl
              exact ih (i + 1) _ q hwl2 hv hk2 hc2
            | none =>
              dsimp only
              by_cases hun : litUnassigned s.assign other = true
              · rw [hun, if_pos rfl]
                obtain ⟨ha, hb, hcl, hd⟩ := assignAndMark_fields s other
                have hwl2 : (assignAndMark s other).watch.length
                    = 2 * (assignAndMark s other).numVars + 1 := by
                  rw [ha, hb]
                  exact hwl
                exact ih (i + 1) (assignAndMark s other) (q ++ [other]) hwl2
                  (varsOK_congr hb hd hv) (watchKeysOKb_congr ha hb hd hk)
                  (watchCountsOKb_congr ha hcl hd hc)
              · rw [Bool.not_eq_true] at hun
                rw [hun, if_neg hneg]
                exact ⟨hwl, hv, hk, hc⟩
    · rw [if_neg hi]
      exact ⟨hwl, hv, hk, hc⟩

theorem watchOK_propLoop : ∀ (fuel : Nat) (s : St) (q : List Literal),
    s.watch.length = 2 * s.numVars + 1 → VarsOK s →
    watchKeysOKb s = true → watchCountsOKb s = true →
    (propLoop fuel s q).2.watch.length = 2 * (propLoop fuel s q).2.numVars + 1 ∧
    VarsOK (propLoop fuel s q).2 ∧
    watchKeysOKb (propLoop fuel s q).2 = true ∧
    watchCountsOKb (propLoop fuel s q).2 = true := by
  intro fuel
  induction fuel with
  | zero =>
    intro s q h1 h2 h3 h4
    exact ⟨h1, h2, h3, h4⟩
  | succ fuel ih =>
    intro s q hwl hv hk hc
    cases q with
    | nil => exact ⟨hwl, hv, hk, hc⟩
    | cons lit qt =>
      simp only [propLoop]
      by_cases hun : litUnassigned s.assign lit = true
      · rw [hun, if_pos rfl]
        obtain ⟨ha, hb, hcl, hd⟩ := assignAndMark_fields s lit
        have hwl1 : (assignAndMark s lit).watch.length
            = 2 * (assignAndMark s lit).numVars + 1 := by
          rw [ha, hb]
          exact hwl
        have hv1 := varsOK_congr hb hd hv
        have hk1 := watchKeysOKb_congr ha hb hd hk
        have hc1 := watchCountsOKb_congr ha hcl hd hc
        obtain ⟨va, vb, vc, vd⟩ := watchOK_visitLoop ⟨lit.var, !lit.neg⟩
          (watchlist_index ⟨lit.var, !lit.neg⟩ (assignAndMark s lit).numVars)
          ((assignAndMark s lit).watch.getD
            (watchlist_index ⟨lit.var, !lit.neg⟩ (assignAndMark s lit).numVars) []).length
          0 (assignAndMark s lit) qt hwl1 hv1 hk1 hc1
        cases hb2 : (visitLoop ⟨lit.var, !lit.neg⟩
            (watchlist_index ⟨lit.var, !lit.neg⟩ (assignAndMark s lit).numVars)
            ((assignAndMark s lit).watch.getD
              (watchlist_index ⟨lit.var, !lit.neg⟩ (assignAndMark s lit).numVars) []).length
            0 (assignAndMark s lit) qt).1 with
        | true =>
          rw [if_pos rfl]
          exact ih _ _ va vb vc vd
        | false =>
          have hneg : ¬(false = true) := by decide
          rw [if_neg hneg]
          exact ⟨va, vb, vc, vd⟩
      · rw [Bool.not_eq_true] at hun
        rw [hun]
        have hneg : ¬(false = true) := by decide
        rw [if_neg hneg]
        obtain ⟨va, vb, vc, vd⟩ := watchOK_visitLoop ⟨lit.var, !lit.neg⟩
          (watchlist_index ⟨lit.var, !lit.neg⟩ s.numVars)
          (s.watch.getD (watchlist_index ⟨lit.var, !lit.neg⟩ s.numVars) []).length
          0 s qt hwl hv hk hc
        cases hb2 : (visitLoop ⟨lit.var, !lit.neg⟩
            (watchlist_index ⟨lit.var, !lit.neg⟩ s.numVars)
            (s.watch.getD (watchlist_index ⟨lit.var, !lit.neg⟩ s.numVars) []).length
            0 s qt).1 with
        | true =>
          rw [if_pos rfl]
          exact ih _ _ va vb vc vd
        | false =>
          rw [if_neg hneg]
          exact ⟨va, vb, vc, vd⟩

theorem watchOK_unit_propagate (pf : Nat) (s : St)
    (hwl : s.watch.length = 2 * s.numVars + 1) (hv : VarsOK s)
    (hk : watchKeysOKb s = true) (hc : watchCountsOKb s = true) :
    watchKeysOKb (unit_propagate_2watchlit pf s).2 = true ∧
    watchCountsOKb (unit_propagate_2watchlit pf s).2 = true := by
  obtain ⟨_, _, hk2, hc2⟩ := watchOK_propLoop pf s (seedQueue s) hwl hv hk hc
  exact ⟨hk2, hc2⟩

theorem occ_replicate_nil (K ci : Nat) :
    ((List.replicate K ([] : List Nat)).map (fun wl => wl.count ci)).sum = 0 := by
  induction K with
  | zero => rfl
  | succ K ih => simp [ih]

theorem initWatch_partial_counts (numVars : Nat) (clauses : List (List Literal))
    (hwf : WfFormula numVars clauses) :
    ∀ (m : Nat), m ≤ clauses.length →
    ((List.range m).foldl (fun w i =>
      match clauses.getD i [] with
      | [] => w
      | [l0] =>
        w.set (watchlist_index l0 numVars) (w.getD (watchlist_index l0 numVars) [] ++ [i])
      | l0 :: l1 :: _ =>
        let w1 := w.set (watchlist_index l0 numVars)
          (w.getD (watchlist_index l0 numVars) [] ++ [i])
        w1.set (watchlist_index l1 numVars) (w1.getD (watchlist_index l1 numVars) [] ++ [i]))
      (List.replicate (2 * numVars + 1) [])).length = 2 * numVars + 1 ∧
    (∀ ci, (((List.range m).foldl (fun w i =>
      match clauses.getD i [] with
      | [] => w
      | [l0] =>
        w.set (watchlist_index l0 numVars) (w.getD (watchlist_index l0 numVars) [] ++ [i])
      | l0 :: l1 :: _ =>
        let w1 := w.set (watchlist_index l0 numVars)
          (w.getD (watchlist_index l0 numVars) [] ++ [i])
        w1.set (watchlist_index l1 numVars) (w1.getD (watchlist_index l1 numVars) [] ++ [i]))
      (List.replicate (2 * numVars + 1) [])).map (fun wl => wl.count ci)).sum
      = if ci < m then expectedWatchCount (clauses.getD ci []) else 0) := by
  intro m
  induction m with
  | zero =>
    intro _
    refine ⟨by rw [List.range_zero, List.foldl_nil]; exact List.length_replicate _ _,
      fun ci => ?_⟩
    rw [List.range_zero, List.foldl_nil, occ_replicate_nil]
    simp
  | succ m ih =>
    intro hm
    obtain ⟨ihl, iho⟩ := ih (by omega)
    have hmlt : m < clauses.length := by omega
    rw [List.range_succ, List.foldl_append, List.foldl_cons, List.foldl_nil]
    set W := (List.range m).foldl (fun w i =>
      match clauses.getD i [] with
      | [] => w
      | [l0] =>
        w.set (watchlist_index l0 numVars) (w.getD (watchlist_index l0 numVars) [] ++ [i])
      | l0 :: l1 :: _ =>
        let w1 := w.set (watchlist_index l0 numVars)
          (w.getD (watchlist_index l0 numVars) [] ++ [i])
        w1.set (watchlist_index l1 numVars) (w1.getD (watchlist_index l1 numVars) [] ++ [i]))
      (List.replicate (2 * numVars + 1) []) with hW
    have hmemc : clauses.getD m [] ∈ clauses := getD_mem_of_lt _ _ _ hmlt
    cases hgd : clauses.getD m [] with
    | nil =>
      dsimp only
      refine ⟨ihl, fun ci => ?_⟩
      rw [iho ci]
      by_cases hci : ci = m
      · subst hci
        rw [if_neg (lt_irrefl ci), if_pos (Nat.lt_succ_self ci), hgd]
        rfl
      · by_cases h2 : ci < m
        · rw [if_pos h2, if_pos (by omega)]
        · rw [if_neg h2, if_neg (by omega)]
    | cons l0 tl =>
      have hb0 : 1 ≤ l0.var ∧ l0.var ≤ numVars :=
        hwf _ hmemc l0 (by rw [hgd]; exact List.mem_cons_self _ _)
      have hk0 : watchlist_index l0 numVars < 2 * numVars + 1 := by
        unfold watchlist_index
        cases l0.neg <;> simp <;> omega
      cases htl : tl with
      | nil =>
        dsimp only
        refine ⟨by rw [List.length_set]; exact ihl, fun ci => ?_⟩
        have happ := @watchOcc_set_append W (watchlist_index l0 numVars) m
          (by rw [ihl]; exact hk0) ci
        rw [happ, iho ci]
        by_cases hci : ci = m
        · subst hci
          rw [if_neg (lt_irrefl ci), if_pos (Nat.lt_succ_self ci), if_pos rfl, hgd, htl]
          rfl
        · have hmne : ¬(m = ci) := fun h => hci h.symm
          rw [if_neg hmne]
          by_cases h2 : ci < m
          · rw [if_pos h2, if_pos (by omega)]
            omega
          · rw [if_neg h2, if_neg (by omega)]
      | cons l1 tl2 =>
        dsimp only
        have hb1 : 1 ≤ l1.var ∧ l1.var ≤ numVars :=
          hwf _ hmemc l1
            (by rw [hgd, htl]; exact List.mem_cons_of_mem _ (List.mem_cons_self _ _))
        have hk1 : watchlist_index l1 numVars < 2 * numVars + 1 := by
          unfold watchlist_index
          cases l1.neg <;> simp <;> omega
        refine ⟨by rw [List.length_set, List.length_set]; exact ihl, fun ci => ?_⟩
        have happ1 := @watchOcc_set_append W (watchlist_index l0 numVars) m
          (by rw [ihl]; exact hk0) ci
        have happ2 := @watchOcc_set_append
          (W.set (watchlist_index l0 numVars) (W.getD (watchlist_index l0 numVars) [] ++ [m]))
          (watchlist_index l1 numVars) m
          (by rw [List.length_set, ihl]; exact hk1) ci
        rw [happ2, happ1, iho ci]
        by_cases hci : ci = m
        · subst hci
          rw [if_neg (lt_irrefl ci), if_pos (Nat.lt_succ_self ci), if_pos rfl, hgd, htl]
          rfl
        · have hmne : ¬(m = ci) := fun h => hci h.symm
          rw [if_neg hmne]
          by_cases h2 : ci < m
          · rw [if_pos h2, if_pos (by omega)]
            omega
          · rw [if_neg h2, if_neg (by omega)]

theorem initState_watch_estab (numVars : Nat) (clauses : List (List Literal))
    (hwf : WfFormula numVars clauses) :
    watchKeysOKb (initState numVars clauses) = true ∧
    watchCountsOKb (initState numVars clauses) = true ∧
    (initState numVars clauses).watch.length = 2 * numVars + 1 ∧
    VarsOK (initState numVars clauses) := by
  obtain ⟨hlen, hocc⟩ := initWatch_partial_counts numVars clauses hwf clauses.length
    (Nat.le_refl _)
  refine ⟨watchKeysOKb_initState numVars clauses, ?_, hlen, ?_⟩
  · rw [watchCountsOKb_iff]
    intro ci hci
    have hci' : ci < clauses.length := by
      have : (initState numVars clauses).clauses.length = clauses.length :=
        List.length_map _ _
      omega
    rw [watchOccurrences_eq]
    have hw : (initState numVars clauses).watch = initWatch numVars clauses := rfl
    rw [hw]
    have := hocc ci
    rw [if_pos hci'] at this
    rw [initState_lits]
    exact this
  · exact (searchInv_initState numVars clauses hwf).2.2.2.1

/-- C4 (amended): watch multiplicity invariant.  At every return of
`unit_propagate_2watchlit` — conflict or quiescence — every clause
(whatever its satisfied flag) occupies watcher-list slots whose keys are
all drawn from that clause's own literal vector, and the total number of
slots it occupies across all watcher lists is exactly
`min(clause size, 2)` (two for size at least two, one for unit clauses,
none for empty clauses): the propagator relocates watches one-for-one
and never registers or deregisters a clause.  `main` establishes this
state of affairs for every wellformed formula.  The two slots need not
lie in two distinct watcher lists keyed by two distinct literals: a
clause whose first two literals coincide occupies the same list twice
(see the counterexample). -/
theorem watched_clause_multiplicity (pf : Nat) (s : St) (numVars : Nat)
    (cs : List (List Literal)) (hwf : WfFormula numVars cs)
    (hwl : s.watch.length = 2 * s.numVars + 1) (hv : VarsOK s)
    (hk : watchKeysOKb s = true) (hc : watchCountsOKb s = true) :
    (watchKeysOKb (unit_propagate_2watchlit pf s).2 = true ∧
     watchCountsOKb (unit_propagate_2watchlit pf s).2 = true) ∧
    (watchKeysOKb (initState numVars cs) = true ∧
     watchCountsOKb (initState numVars cs) = true ∧
     (initState numVars cs).watch.length = 2 * numVars + 1 ∧
     VarsOK (initState numVars cs)) :=
  ⟨watchOK_unit_propagate pf s hwl hv hk hc, initState_watch_estab numVars cs hwf⟩

/-- C4 counterexample: the single clause `x1 x1` repeats its literal, so
after `main`'s watch-table setup (a quiescent propagator state: the
first propagation call returns immediately with the state unchanged)
the clause — unsatisfied, of size 2 — occupies two slots of ONE watcher
list instead of appearing in two watcher lists keyed by two distinct
literals. -/
theorem watched_two_lists_refuted :
    (unit_propagate_2watchlit 5 (initState 1 dupLitFormula)).2 = initState 1 dupLitFormula ∧
    2 ≤ ((initState 1 dupLitFormula).clauses.getD 0 emptyClause).lits.length ∧
    ((initState 1 dupLitFormula).clauses.getD 0 emptyClause).satisfied = false ∧
    ((initState 1 dupLitFormula).watch.filter (fun wl => wl.contains 0)).length = 1 ∧
    (initState 1 dupLitFormula).watch.getD 1 [] = [0, 0] := by
  decide

/-- C4 amended-claim witness at the duplicate-literal formula. -/
theorem watched_clause_multiplicity_witness :
    WfFormula 1 dupLitFormula ∧
    (initState 1 dupLitFormula).watch.length = 2 * (initState 1 dupLitFormula).numVars + 1 ∧
    watchKeysOKb (initState 1 dupLitFormula) = true ∧
    watchCountsOKb (initState 1 dupLitFormula) = true ∧
    ((watchKeysOKb (unit_propagate_2watchlit 5 (initState 1 dupLitFormula)).2 = true ∧
      watchCountsOKb (unit_propagate_2watchlit 5 (initState 1 dupLitFormula)).2 = true) ∧
     (watchKeysOKb (initState 1 dupLitFormula) = true ∧
      watchCountsOKb (initState 1 dupLitFormula) = true ∧
      (initState 1 dupLitFormula).watch.length = 2 * 1 + 1 ∧
      VarsOK (initState 1 dupLitFormula))) := by
  have hwf : WfFormula 1 dupLitFormula := by
    unfold WfFormula
    decide
  exact ⟨hwf, by decide, by decide, by decide,
    watched_clause_multiplicity 5 (initState 1 dupLitFormula) 1 dupLitFormula hwf
      (by decide) (varsOK_of_b (by decide)) (by decide) (by decide)⟩
